import Mathlib

/-!
Shallow embedding of the Minesweeper rules engine in `components.py`
(`CellState`, `Cell`, `Board` and its operations), together with proofs of
the specified properties.

Modelling notes:
* Python machine state is embedded as a `Board` structure; the flat
  `self.cells` list of `Cell` objects is embedded as a `List CellState`
  (the `col`/`row` fields of a `Cell` are redundant with its list index
  and are never read by the engine logic except through `index`).
* Python `int` coordinates are embedded as `Int` (they may be negative,
  and `is_inbounds` must reject negatives).
* `random.shuffle(pool)` is embedded by passing an explicit `shuffle`
  function; theorems that depend on the shuffle being a permutation take
  `(shuffle l).Perm l` as a hypothesis.  `random.choice(candidates)` is
  embedded by an explicit index choice.
* The iterative flood fill (`while stack:`) is embedded with an explicit
  fuel argument; `9 * (cols * rows) + 1` units of fuel are provably
  sufficient (the loop measure `9 * unrevealed + |stack|` strictly
  decreases, see the flood-fill lemmas below).
-/

/-- Mutable per-cell state (`CellState` in `components.py`). -/
structure CellState where
  is_mine : Bool
  is_revealed : Bool
  is_flagged : Bool
  adjacent : Nat
deriving DecidableEq, Repr

instance : Inhabited CellState := ⟨⟨false, false, false, 0⟩⟩

/-- Board state (`Board.__init__` fields in `components.py`).
`mines_placed` embeds the Python attribute `_mines_placed`. -/
structure Board where
  cols : Nat
  rows : Nat
  num_mines : Nat
  cells : List CellState
  mines_placed : Bool
  revealed_count : Nat
  game_over : Bool
  win : Bool
deriving DecidableEq, Repr

/-- `Board.__init__`: all cells start unmined, unrevealed, unflagged. -/
def Board.new (cols rows mines : Nat) : Board :=
  { cols := cols
    rows := rows
    num_mines := mines
    cells := List.replicate (cols * rows) default
    mines_placed := false
    revealed_count := 0
    game_over := false
    win := false }

/-- `Board.index`: row-major flattening (used only in bounds). -/
def Board.index (b : Board) (col row : Int) : Nat :=
  (row * b.cols + col).toNat

/-- `Board.is_inbounds`. -/
def Board.is_inbounds (b : Board) (col row : Int) : Bool :=
  0 ≤ col && col < (b.cols : Int) && (0 ≤ row && row < (b.rows : Int))

/-- The eight compass offsets, in the order written in `Board.neighbors`. -/
def deltas : List (Int × Int) :=
  [(-1, -1), (0, -1), (1, -1), (-1, 0), (1, 0), (-1, 1), (0, 1), (1, 1)]

/-- `Board.neighbors`: the in-bounds 8-neighborhood, in delta order. -/
def Board.neighbors (b : Board) (col row : Int) : List (Int × Int) :=
  (deltas.map (fun d => (col + d.1, row + d.2))).filter
    (fun p => b.is_inbounds p.1 p.2)

/-- Read `self.cells[self.index(col,row)]` (total: default out of range;
the engine only reads in bounds). -/
def Board.cellAt (b : Board) (col row : Int) : CellState :=
  b.cells.getD (b.index col row) default

/-- Write `self.cells[self.index(col,row)] = s`. -/
def Board.setCell (b : Board) (col row : Int) (s : CellState) : Board :=
  { b with cells := b.cells.set (b.index col row) s }

/-- `all_positions` built in `Board.place_mines`:
`[(c, r) for r in range(rows) for c in range(cols)]`. -/
def Board.all_positions (b : Board) : List (Int × Int) :=
  (List.range b.rows).flatMap
    (fun (r : Nat) => (List.range b.cols).map (fun (c : Nat) => ((c : Int), (r : Int))))

/-- The forbidden set of `place_mines`: seed plus in-bounds neighbors. -/
def Board.forbidden (b : Board) (sc sr : Int) : List (Int × Int) :=
  (sc, sr) :: b.neighbors sc sr

/-- The candidate pool of `place_mines`: all positions not forbidden. -/
def Board.pool (b : Board) (sc sr : Int) : List (Int × Int) :=
  b.all_positions.filter (fun p => decide (p ∉ b.forbidden sc sr))

/-- One step of the mine-marking loop of `place_mines`. -/
def Board.setMineAt (b : Board) (p : Int × Int) : Board :=
  b.setCell p.1 p.2 { b.cellAt p.1 p.2 with is_mine := true }

/-- The number of in-bounds neighbors of `(col,row)` that are mines
(the inner counting loop of `place_mines`). -/
def Board.mineNeighborCount (b : Board) (col row : Int) : Nat :=
  ((b.neighbors col row).filter (fun q => (b.cellAt q.1 q.2).is_mine)).length

/-- One step of the adjacency loop of `place_mines`: a mine gets
`adjacent = 0`, a non-mine gets its mine-neighbor count. -/
def Board.setAdjacentAt (b : Board) (p : Int × Int) : Board :=
  let cell := b.cellAt p.1 p.2
  if cell.is_mine then b.setCell p.1 p.2 { cell with adjacent := 0 }
  else b.setCell p.1 p.2 { cell with adjacent := b.mineNeighborCount p.1 p.2 }

/-- `Board.place_mines`: mark the first `num_mines` cells of the shuffled
pool as mines, recompute every `adjacent`, set the one-shot latch. -/
def Board.place_mines (b : Board) (sc sr : Int)
    (shuffle : List (Int × Int) → List (Int × Int)) : Board :=
  let shuffled := shuffle (b.pool sc sr)
  let b1 := (shuffled.take b.num_mines).foldl Board.setMineAt b
  let b2 := b1.all_positions.foldl Board.setAdjacentAt b1
  { b2 with mines_placed := true }

/-- `Board._reveal_all_mines`. -/
def Board.reveal_all_mines (b : Board) : Board :=
  { b with
    cells := b.cells.map
      (fun c => if c.is_mine then { c with is_revealed := true } else c) }

/-- `Board._check_win`: the comparison is on Python ints, so it is taken
over `Int` (`cols*rows - num_mines` may be negative). -/
def Board.check_win (b : Board) : Board :=
  if (b.revealed_count : Int) = (b.cols : Int) * (b.rows : Int) - (b.num_mines : Int)
      ∧ b.game_over = false then
    { b with
      win := true
      cells := b.cells.map
        (fun c => if ¬c.is_revealed ∧ ¬c.is_mine then { c with is_revealed := true } else c) }
  else b

/-- The neighbors pushed by the flood fill when a 0-adjacency cell is
revealed: not yet revealed and not a mine.  Python appends them to the
end of the stack and pops from the end; the model's stack has its top at
the head, so the pushed block is reversed. -/
def Board.floodPush (b : Board) (c r : Int) : List (Int × Int) :=
  ((b.neighbors c r).filter
    (fun q => !(b.cellAt q.1 q.2).is_revealed && !(b.cellAt q.1 q.2).is_mine)).reverse

/-- The `while stack:` loop of `Board.reveal`, with explicit fuel. -/
def Board.floodLoop (b : Board) (fuel : Nat) (stack : List (Int × Int)) : Board :=
  match fuel, stack with
  | _, [] => b
  | 0, _ :: _ => b
  | fuel + 1, (c, r) :: rest =>
    if b.is_inbounds c r then
      let cell := b.cellAt c r
      if cell.is_revealed || cell.is_flagged then b.floodLoop fuel rest
      else if cell.is_mine then b.floodLoop fuel rest
      else
        let b' : Board :=
          { b.setCell c r { cell with is_revealed := true } with
            revealed_count := b.revealed_count + 1 }
        if cell.adjacent = 0 then b'.floodLoop fuel (b'.floodPush c r ++ rest)
        else b'.floodLoop fuel rest
    else b.floodLoop fuel rest

/-- Sufficient fuel for the flood fill on board `b`. -/
def Board.floodFuel (b : Board) : Nat :=
  9 * (b.cols * b.rows) + 1

/-- `Board.reveal`. -/
def Board.reveal (b : Board) (col row : Int)
    (shuffle : List (Int × Int) → List (Int × Int)) : Board :=
  if b.is_inbounds col row then
    if b.game_over then b
    else
      let b := if b.mines_placed then b else b.place_mines col row shuffle
      let start_cell := b.cellAt col row
      if start_cell.is_flagged then b
      else if start_cell.is_mine then
        let b := b.setCell col row { start_cell with is_revealed := true }
        let b := { b with game_over := true }
        b.reveal_all_mines
      else
        (b.floodLoop b.floodFuel [(col, row)]).check_win
  else b

/-- `Board.toggle_flag`. -/
def Board.toggle_flag (b : Board) (col row : Int) : Board :=
  if b.is_inbounds col row then
    if b.game_over then b
    else
      let cell := b.cellAt col row
      if cell.is_revealed then b
      else b.setCell col row { cell with is_flagged := !cell.is_flagged }
  else b

/-- `Board.auto_reveal`: count flagged neighbors; when the count matches
the cell's number, reveal the neighbors that are (at that moment)
neither flagged nor revealed. -/
def Board.auto_reveal (b : Board) (col row : Int)
    (shuffle : List (Int × Int) → List (Int × Int)) : Board :=
  if b.is_inbounds col row then
    let cell := b.cellAt col row
    if !cell.is_revealed || cell.adjacent == 0 then b
    else
      let ns := b.neighbors col row
      let flag_count := (ns.filter (fun q => (b.cellAt q.1 q.2).is_flagged)).length
      if flag_count = cell.adjacent then
        ns.foldl
          (fun bb q =>
            let target := bb.cellAt q.1 q.2
            if !target.is_flagged && !target.is_revealed then bb.reveal q.1 q.2 shuffle
            else bb)
          b
      else b
  else b

/-- `Board.flagged_count`. -/
def Board.flagged_count (b : Board) : Nat :=
  (b.cells.filter (fun c => c.is_flagged)).length

/-- Candidate list of `Board.get_safe_cell`: unrevealed non-mine cells.
Python iterates `self.cells`, whose order is row-major, i.e.
`all_positions` order. -/
def Board.safe_candidates (b : Board) : List (Int × Int) :=
  b.all_positions.filter
    (fun p => !(b.cellAt p.1 p.2).is_revealed && !(b.cellAt p.1 p.2).is_mine)

/-- `Board.get_safe_cell`: `random.choice` is embedded by an index choice
`k`; the result is `none` exactly when there is no candidate.  It reads
the board and mutates nothing. -/
def Board.get_safe_cell (b : Board) (k : Nat) : Option (Int × Int) :=
  let cs := b.safe_candidates
  if cs.isEmpty then none else cs.get? (k % cs.length)

/-- One externally invocable engine operation, with its randomness made
explicit. -/
inductive Op where
  | reveal (col row : Int) (shuffle : List (Int × Int) → List (Int × Int))
  | toggle_flag (col row : Int)
  | auto_reveal (col row : Int) (shuffle : List (Int × Int) → List (Int × Int))
  | get_safe_cell (k : Nat)

/-- Apply one operation to the board.  `get_safe_cell` is a pure read
and leaves the board unchanged. -/
def Board.step (b : Board) (op : Op) : Board :=
  match op with
  | Op.reveal c r sh => b.reveal c r sh
  | Op.toggle_flag c r => b.toggle_flag c r
  | Op.auto_reveal c r sh => b.auto_reveal c r sh
  | Op.get_safe_cell _ => b

/-- Run a sequence of operations. -/
def Board.runOps (b : Board) (ops : List Op) : Board :=
  ops.foldl Board.step b

/-- The number of mine cells on the board. -/
def Board.countMines (b : Board) : Nat :=
  b.cells.countP (fun c => c.is_mine)

/-- The number of cells that are revealed and not mines. -/
def Board.revealedNonMineCount (b : Board) : Nat :=
  b.cells.countP (fun c => c.is_revealed && !c.is_mine)

/-! ### Generic list and fold helpers -/

theorem getD_oob {α} [Inhabited α] (l : List α) {i : Nat} (h : l.length ≤ i) :
    l.getD i default = default := by
  simp [List.getD_eq_getElem?_getD, List.getElem?_eq_none h]

theorem getD_set_self {α} [Inhabited α] (l : List α) {i : Nat} (v : α)
    (h : i < l.length) : (l.set i v).getD i default = v := by
  simp [List.getD_eq_getElem?_getD, List.getElem?_set_self h]

theorem getD_set_ne {α} [Inhabited α] (l : List α) {i j : Nat} (v : α)
    (h : i ≠ j) : (l.set i v).getD j default = l.getD j default := by
  simp [List.getD_eq_getElem?_getD, List.getElem?_set_ne h]

theorem getD_map_lt {α β} [Inhabited α] [Inhabited β] (f : α → β) (l : List α)
    {i : Nat} (h : i < l.length) :
    (l.map f).getD i default = f (l.getD i default) := by
  simp [List.getD_eq_getElem?_getD, List.getElem?_map, List.getElem?_eq_getElem h]

theorem getD_map_oob {α β} [Inhabited α] [Inhabited β] (f : α → β) (l : List α)
    {i : Nat} (h : l.length ≤ i) : (l.map f).getD i default = default := by
  refine getD_oob _ ?_
  simpa using h

theorem countP_set_same {α} [Inhabited α] (p : α → Bool) (l : List α) (i : Nat) (v : α)
    (h : p v = p (l.getD i default)) : (l.set i v).countP p = l.countP p := by
  rcases Nat.lt_or_ge i l.length with hi | hi
  · rw [List.countP_set p l i v hi]
    rw [List.getD_eq_getElem l default hi] at h
    rcases hb : p l[i] with _ | _
    · simp [hb, h.trans hb]
    · have hv : p v = true := h.trans hb
      have hpos : 0 < l.countP p := by
        rw [List.countP_pos_iff]
        exact ⟨l[i], List.getElem_mem hi, hb⟩
      simp only [hb, if_true, hv]
      omega
  · rw [List.set_eq_of_length_le hi]

theorem countP_set_incr {α} [Inhabited α] (p : α → Bool) (l : List α) (i : Nat) (v : α)
    (hi : i < l.length) (hold : p (l.getD i default) = false) (hnew : p v = true) :
    (l.set i v).countP p = l.countP p + 1 := by
  rw [List.countP_set p l i v hi]
  rw [List.getD_eq_getElem l default hi] at hold
  simp [hold, hnew]

theorem countP_eq_pointwise {α} (p q : α → Bool) (l : List α)
    (himp : ∀ a ∈ l, p a = true → q a = true)
    (heq : l.countP p = l.countP q) : ∀ a ∈ l, q a = true → p a = true := by
  induction l with
  | nil => intro a ha; simp at ha
  | cons x t ih =>
    have himpt : ∀ a ∈ t, p a = true → q a = true :=
      fun a ha => himp a (List.mem_cons_of_mem _ ha)
    have hmono : t.countP p ≤ t.countP q := List.countP_mono_left himpt
    rw [List.countP_cons, List.countP_cons] at heq
    intro a ha hqa
    rcases List.mem_cons.mp ha with rfl | hat
    · by_contra hpa
      have hpa' : p a = false := by
        cases hp : p a
        · rfl
        · exact absurd hp hpa
      have hqa' : q a = true := hqa
      simp [hpa', hqa'] at heq
      omega
    · refine ih himpt ?_ a hat hqa
      by_cases hp : p x = true
      · have := himp x (List.mem_cons_self x t) hp
        simp [hp, this] at heq
        exact heq
      · have hp' : p x = false := by
          cases hpx : p x
          · rfl
          · exact absurd hpx hp
        cases hq : q x
        · simp [hp', hq] at heq
          exact heq
        · simp [hp', hq] at heq
          omega

theorem map_self_of_fix {α} (f : α → α) (l : List α)
    (h : ∀ a ∈ l, f a = a) : l.map f = l := by
  have : l.map f = l.map id := List.map_congr_left h
  rw [this, List.map_id]

theorem foldl_preserve {α β γ : Type _} (f : β → α → β) (g : β → γ) (l : List α) (b : β)
    (h : ∀ x a, a ∈ l → g (f x a) = g x) : g (l.foldl f b) = g b := by
  induction l generalizing b with
  | nil => rfl
  | cons a t ih =>
    rw [List.foldl_cons, ih (f b a) (fun x a' ha' => h x a' (List.mem_cons_of_mem _ ha')),
      h b a (List.mem_cons_self a t)]

theorem foldl_rel {α β : Type _} (f : β → α → β) (R : β → β → Prop) (l : List α) (b : β)
    (htrans : ∀ x y z, R x y → R y z → R x z)
    (hrefl : ∀ x, R x x)
    (hstep : ∀ x a, a ∈ l → R x (f x a)) : R b (l.foldl f b) := by
  induction l generalizing b with
  | nil => exact hrefl b
  | cons a t ih =>
    rw [List.foldl_cons]
    exact htrans _ _ _ (hstep b a (List.mem_cons_self a t))
      (ih (f b a) (fun x a' ha' => hstep x a' (List.mem_cons_of_mem _ ha')))

/-! ### Coordinates, bounds and the row-major index -/

theorem inbounds_iff {b : Board} {c r : Int} :
    b.is_inbounds c r = true ↔
      0 ≤ c ∧ c < (b.cols : Int) ∧ 0 ≤ r ∧ r < (b.rows : Int) := by
  simp [Board.is_inbounds, and_assoc]

theorem index_eq {b : Board} {c r : Int} (hc : 0 ≤ c) (hr : 0 ≤ r) :
    (b.index c r : Int) = r * b.cols + c := by
  have h0 : (0 : Int) ≤ r * b.cols + c := by positivity
  simp [Board.index, Int.toNat_of_nonneg h0]

theorem index_lt {b : Board} {c r : Int} (h : b.is_inbounds c r = true)
    (hWF : b.cells.length = b.cols * b.rows) : b.index c r < b.cells.length := by
  obtain ⟨hc0, hc1, hr0, hr1⟩ := inbounds_iff.mp h
  have hlt : r * (b.cols : Int) + c < (b.cols : Int) * (b.rows : Int) := by
    have h1 : r * (b.cols : Int) + c < r * (b.cols : Int) + (b.cols : Int) := by
      omega
    have h2 : r * (b.cols : Int) + (b.cols : Int) = (r + 1) * (b.cols : Int) := by ring
    have h3 : (r + 1) * (b.cols : Int) ≤ (b.rows : Int) * (b.cols : Int) := by
      have : r + 1 ≤ (b.rows : Int) := by omega
      exact mul_le_mul_of_nonneg_right this (by positivity)
    calc r * (b.cols : Int) + c < (r + 1) * (b.cols : Int) := by omega
      _ ≤ (b.rows : Int) * (b.cols : Int) := h3
      _ = (b.cols : Int) * (b.rows : Int) := by ring
  rw [hWF]
  have h0 : (0 : Int) ≤ r * b.cols + c := by positivity
  have : ((b.index c r : Nat) : Int) < ((b.cols * b.rows : Nat) : Int) := by
    rw [index_eq hc0 hr0]
    push_cast
    exact hlt
  exact_mod_cast this

theorem index_inj {b : Board} {c r c' r' : Int}
    (h : b.is_inbounds c r = true) (h' : b.is_inbounds c' r' = true)
    (he : b.index c r = b.index c' r') : c = c' ∧ r = r' := by
  obtain ⟨hc0, hc1, hr0, hr1⟩ := inbounds_iff.mp h
  obtain ⟨hc0', hc1', hr0', hr1'⟩ := inbounds_iff.mp h'
  have heZ : r * (b.cols : Int) + c = r' * (b.cols : Int) + c' := by
    rw [← index_eq hc0 hr0, ← index_eq hc0' hr0', he]
  have hcols : (0 : Int) < b.cols := by omega
  have hmod : ∀ x y : Int, 0 ≤ x → x < (b.cols : Int) →
      (y * (b.cols : Int) + x) % (b.cols : Int) = x := by
    intro x y hx0 hx1
    have : y * (b.cols : Int) + x = x + (b.cols : Int) * y := by ring
    rw [this, Int.add_mul_emod_self_left, Int.emod_eq_of_lt hx0 hx1]
  have hc : c = c' := by
    have e1 := hmod c r hc0 hc1
    have e2 := hmod c' r' hc0' hc1'
    rw [← e1, ← e2, heZ]
  refine ⟨hc, ?_⟩
  have : r * (b.cols : Int) = r' * (b.cols : Int) := by omega
  exact mul_right_cancel₀ (by omega) this

theorem exists_coord {b : Board} {i : Nat}
    (hWF : b.cells.length = b.cols * b.rows) (hi : i < b.cells.length) :
    ∃ c r : Int, b.is_inbounds c r = true ∧ b.index c r = i := by
  rw [hWF] at hi
  have hcols : 0 < b.cols := by
    rcases Nat.eq_zero_or_pos b.cols with h | h
    · rw [h] at hi
      omega
    · exact h
  refine ⟨((i % b.cols : Nat) : Int), ((i / b.cols : Nat) : Int), ?_, ?_⟩
  · rw [inbounds_iff]
    refine ⟨by positivity, ?_, by positivity, ?_⟩
    · exact_mod_cast Nat.mod_lt i hcols
    · have : i / b.cols < b.rows := by
        rw [Nat.div_lt_iff_lt_mul hcols]
        calc i < b.cols * b.rows := hi
          _ = b.rows * b.cols := Nat.mul_comm _ _
      exact_mod_cast this
  · have h0 : (0 : Int) ≤ ((i % b.cols : Nat) : Int) := by positivity
    have h1 : (0 : Int) ≤ ((i / b.cols : Nat) : Int) := by positivity
    have : (b.index ((i % b.cols : Nat) : Int) ((i / b.cols : Nat) : Int) : Int) = (i : Int) := by
      rw [index_eq h0 h1]
      have hdm := Nat.div_add_mod i b.cols
      have : ((i / b.cols : Nat) : Int) * (b.cols : Int) + ((i % b.cols : Nat) : Int)
          = ((b.cols * (i / b.cols) + i % b.cols : Nat) : Int) := by
        push_cast
        ring
      rw [this, hdm]
    exact_mod_cast this

/-! ### `all_positions`, `neighbors`, `forbidden`, `pool` -/

theorem mem_all_positions {b : Board} {p : Int × Int} :
    p ∈ b.all_positions ↔ b.is_inbounds p.1 p.2 = true := by
  constructor
  · intro hp
    rw [Board.all_positions, List.mem_flatMap] at hp
    obtain ⟨r, hr, hp⟩ := hp
    rw [List.mem_map] at hp
    obtain ⟨c, hc, rfl⟩ := hp
    rw [List.mem_range] at hr hc
    rw [inbounds_iff]
    refine ⟨by positivity, ?_, by positivity, ?_⟩
    · show ((c : Nat) : Int) < (b.cols : Int)
      exact_mod_cast hc
    · show ((r : Nat) : Int) < (b.rows : Int)
      exact_mod_cast hr
  · intro hp
    obtain ⟨hc0, hc1, hr0, hr1⟩ := inbounds_iff.mp hp
    rw [Board.all_positions, List.mem_flatMap]
    refine ⟨p.2.toNat, ?_, ?_⟩
    · rw [List.mem_range]
      exact (Int.toNat_lt hr0).mpr hr1
    · rw [List.mem_map]
      refine ⟨p.1.toNat, ?_, ?_⟩
      · rw [List.mem_range]
        exact (Int.toNat_lt hc0).mpr hc1
      · rw [Int.toNat_of_nonneg hc0, Int.toNat_of_nonneg hr0]

theorem nodup_all_positions (b : Board) : b.all_positions.Nodup := by
  rw [Board.all_positions, List.nodup_flatMap]
  constructor
  · intro r _
    refine List.Nodup.map ?_ (List.nodup_range _)
    intro x y hxy
    have : ((x : Nat) : Int) = (y : Int) := congrArg Prod.fst hxy
    exact_mod_cast this
  · have : List.Pairwise (· ≠ ·) (List.range b.rows) := (List.nodup_range b.rows)
    refine this.imp ?_
    intro r r' hne
    intro p hp hp'
    rw [List.mem_map] at hp hp'
    obtain ⟨c, _, rfl⟩ := hp
    obtain ⟨c', _, he⟩ := hp'
    have : ((r' : Nat) : Int) = (r : Int) := congrArg Prod.snd he
    exact hne (by exact_mod_cast this.symm)

theorem length_all_positions (b : Board) : b.all_positions.length = b.cols * b.rows := by
  rw [Board.all_positions, List.length_flatMap]
  have h1 : List.map
      (List.length ∘ fun (r : Nat) => (List.range b.cols).map (fun (c : Nat) => ((c : Int), (r : Int))))
      (List.range b.rows) = List.replicate b.rows b.cols := by
    rw [List.eq_replicate_iff]
    constructor
    · simp
    · intro x hx
      rw [List.mem_map] at hx
      obtain ⟨r, _, rfl⟩ := hx
      simp
  rw [h1, List.sum_replicate, smul_eq_mul, Nat.mul_comm]

theorem mem_neighbors {b : Board} {q : Int × Int} {c r : Int} :
    q ∈ b.neighbors c r ↔
      b.is_inbounds q.1 q.2 = true ∧ ∃ d ∈ deltas, q = (c + d.1, r + d.2) := by
  rw [Board.neighbors, List.mem_filter, List.mem_map]
  constructor
  · rintro ⟨⟨d, hd, rfl⟩, hin⟩
    exact ⟨hin, d, hd, rfl⟩
  · rintro ⟨hin, d, hd, rfl⟩
    exact ⟨⟨d, hd, rfl⟩, hin⟩

theorem neighbors_inbounds {b : Board} {q : Int × Int} {c r : Int}
    (h : q ∈ b.neighbors c r) : b.is_inbounds q.1 q.2 = true :=
  (mem_neighbors.mp h).1

theorem self_not_mem_neighbors (b : Board) (c r : Int) : (c, r) ∉ b.neighbors c r := by
  intro h
  obtain ⟨-, d, hd, he⟩ := mem_neighbors.mp h
  have h1 : c = c + d.1 := congrArg Prod.fst he
  have h2 : r = r + d.2 := congrArg Prod.snd he
  have hd1 : d.1 = 0 := by omega
  have hd2 : d.2 = 0 := by omega
  have : d = ((0 : Int), (0 : Int)) := Prod.ext hd1 hd2
  rw [this] at hd
  revert hd
  decide

theorem nodup_neighbors (b : Board) (c r : Int) : (b.neighbors c r).Nodup := by
  rw [Board.neighbors]
  refine List.Nodup.filter _ (List.Nodup.map ?_ (by decide))
  intro x y hxy
  have h1 : c + x.1 = c + y.1 := congrArg Prod.fst hxy
  have h2 : r + x.2 = r + y.2 := congrArg Prod.snd hxy
  exact Prod.ext (by omega) (by omega)

theorem nodup_forbidden (b : Board) (sc sr : Int) : (b.forbidden sc sr).Nodup := by
  rw [Board.forbidden, List.nodup_cons]
  exact ⟨self_not_mem_neighbors b sc sr, nodup_neighbors b sc sr⟩

theorem nodup_pool (b : Board) (sc sr : Int) : (b.pool sc sr).Nodup :=
  List.Nodup.filter _ (nodup_all_positions b)

theorem mem_pool {b : Board} {p : Int × Int} {sc sr : Int} :
    p ∈ b.pool sc sr ↔
      b.is_inbounds p.1 p.2 = true ∧ p ∉ b.forbidden sc sr := by
  rw [Board.pool, List.mem_filter, mem_all_positions]
  simp

theorem pool_inbounds {b : Board} {p : Int × Int} {sc sr : Int}
    (h : p ∈ b.pool sc sr) : b.is_inbounds p.1 p.2 = true :=
  (mem_pool.mp h).1

theorem pool_not_forbidden {b : Board} {p : Int × Int} {sc sr : Int}
    (h : p ∈ b.pool sc sr) : p ∉ b.forbidden sc sr :=
  (mem_pool.mp h).2

/-! ### Congruence in the board dimensions -/

theorem is_inbounds_congr {b b' : Board} (hc : b'.cols = b.cols) (hr : b'.rows = b.rows) :
    b'.is_inbounds = b.is_inbounds := by
  funext c r
  rw [Board.is_inbounds, Board.is_inbounds, hc, hr]

theorem index_congr {b b' : Board} (hc : b'.cols = b.cols) : b'.index = b.index := by
  funext c r
  rw [Board.index, Board.index, hc]

theorem neighbors_congr {b b' : Board} (hc : b'.cols = b.cols) (hr : b'.rows = b.rows) :
    b'.neighbors = b.neighbors := by
  funext c r
  rw [Board.neighbors, Board.neighbors, is_inbounds_congr hc hr]

theorem all_positions_congr {b b' : Board} (hc : b'.cols = b.cols) (hr : b'.rows = b.rows) :
    b'.all_positions = b.all_positions := by
  rw [Board.all_positions, Board.all_positions, hc, hr]

theorem mineNeighborCount_congr {b b' : Board} (hc : b'.cols = b.cols) (hr : b'.rows = b.rows)
    (hm : ∀ c r : Int, b'.is_inbounds c r = true →
      (b'.cellAt c r).is_mine = (b.cellAt c r).is_mine) (c r : Int) :
    b'.mineNeighborCount c r = b.mineNeighborCount c r := by
  rw [Board.mineNeighborCount, Board.mineNeighborCount, neighbors_congr hc hr]
  congr 1
  refine List.filter_congr ?_
  intro q hq
  exact hm q.1 q.2 (by rw [is_inbounds_congr hc hr]; exact neighbors_inbounds hq)

/-! ### `setCell` and `cellAt` -/

/-- Well-formedness: the cell list has exactly `cols * rows` entries
(true for every constructed board and preserved by every operation). -/
def Board.WF (b : Board) : Prop :=
  b.cells.length = b.cols * b.rows

theorem wf_new (cols rows mines : Nat) : (Board.new cols rows mines).WF := by
  simp [Board.new, Board.WF]

theorem setCell_scalars (b : Board) (c r : Int) (s : CellState) :
    (b.setCell c r s).cols = b.cols ∧ (b.setCell c r s).rows = b.rows ∧
    (b.setCell c r s).num_mines = b.num_mines ∧
    (b.setCell c r s).mines_placed = b.mines_placed ∧
    (b.setCell c r s).revealed_count = b.revealed_count ∧
    (b.setCell c r s).game_over = b.game_over ∧
    (b.setCell c r s).win = b.win := by
  refine ⟨rfl, rfl, rfl, rfl, rfl, rfl, rfl⟩

theorem setCell_length (b : Board) (c r : Int) (s : CellState) :
    (b.setCell c r s).cells.length = b.cells.length := by
  simp [Board.setCell]

theorem cellAt_setCell_self {b : Board} {c r : Int} (s : CellState)
    (hWF : b.WF) (hin : b.is_inbounds c r = true) :
    (b.setCell c r s).cellAt c r = s := by
  have hlt : b.index c r < b.cells.length := index_lt hin hWF
  show (b.cells.set (b.index c r) s).getD (b.index c r) default = s
  exact getD_set_self _ _ hlt

theorem cellAt_setCell_ne {b : Board} {c r c' r' : Int} (s : CellState)
    (hWF : b.WF) (hin : b.is_inbounds c r = true) (hin' : b.is_inbounds c' r' = true)
    (hne : (c, r) ≠ (c', r')) :
    (b.setCell c r s).cellAt c' r' = b.cellAt c' r' := by
  have hidx : b.index c r ≠ b.index c' r' := by
    intro h
    obtain ⟨h1, h2⟩ := index_inj hin hin' h
    exact hne (Prod.ext h1 h2)
  show (b.cells.set (b.index c r) s).getD (b.index c' r') default
      = b.cells.getD (b.index c' r') default
  exact getD_set_ne _ _ hidx

/-- A `setCell` leaves every field-projection that agrees between the
written value and the cell previously at those coordinates untouched at
every list position. -/
theorem setCell_getD_field {γ : Type _} {b : Board} {c r : Int} {s : CellState}
    (f : CellState → γ) (hf : f s = f (b.cellAt c r)) (j : Nat) :
    f ((b.setCell c r s).cells.getD j default) = f (b.cells.getD j default) := by
  show f ((b.cells.set (b.index c r) s).getD j default) = f (b.cells.getD j default)
  by_cases hj : b.index c r = j
  · subst hj
    rcases Nat.lt_or_ge (b.index c r) b.cells.length with hlt | hge
    · rw [getD_set_self _ _ hlt, hf]
      rfl
    · rw [List.set_eq_of_length_le hge]
  · rw [getD_set_ne _ _ hj]

theorem setCell_countP {b : Board} {c r : Int} {s : CellState}
    (p : CellState → Bool) (hp : p s = p (b.cellAt c r)) :
    (b.setCell c r s).cells.countP p = b.cells.countP p :=
  countP_set_same p b.cells (b.index c r) s hp

/-! ### The mine-marking fold of `place_mines` -/

theorem setMineAt_scalars (b : Board) (p : Int × Int) :
    (b.setMineAt p).cols = b.cols ∧ (b.setMineAt p).rows = b.rows ∧
    (b.setMineAt p).num_mines = b.num_mines ∧
    (b.setMineAt p).mines_placed = b.mines_placed ∧
    (b.setMineAt p).revealed_count = b.revealed_count ∧
    (b.setMineAt p).game_over = b.game_over ∧
    (b.setMineAt p).win = b.win :=
  ⟨rfl, rfl, rfl, rfl, rfl, rfl, rfl⟩

theorem setMineAt_length (b : Board) (p : Int × Int) :
    (b.setMineAt p).cells.length = b.cells.length :=
  setCell_length b p.1 p.2 _

theorem setMineAt_other_fields (b : Board) (p : Int × Int) (j : Nat) :
    ((b.setMineAt p).cells.getD j default).is_revealed
        = (b.cells.getD j default).is_revealed ∧
    ((b.setMineAt p).cells.getD j default).is_flagged
        = (b.cells.getD j default).is_flagged ∧
    ((b.setMineAt p).cells.getD j default).adjacent
        = (b.cells.getD j default).adjacent := by
  unfold Board.setMineAt
  refine ⟨?_, ?_, ?_⟩
  · exact setCell_getD_field (s := { b.cellAt p.1 p.2 with is_mine := true })
      (fun c => c.is_revealed) rfl j
  · exact setCell_getD_field (s := { b.cellAt p.1 p.2 with is_mine := true })
      (fun c => c.is_flagged) rfl j
  · exact setCell_getD_field (s := { b.cellAt p.1 p.2 with is_mine := true })
      (fun c => c.adjacent) rfl j

theorem marks_fold_cellAt {L : List (Int × Int)} :
    ∀ {b : Board}, b.WF → (∀ q ∈ L, b.is_inbounds q.1 q.2 = true) →
    ∀ c r : Int, b.is_inbounds c r = true →
      (L.foldl Board.setMineAt b).cellAt c r =
        ⟨(b.cellAt c r).is_mine || decide ((c, r) ∈ L),
         (b.cellAt c r).is_revealed,
         (b.cellAt c r).is_flagged,
         (b.cellAt c r).adjacent⟩ := by
  induction L with
  | nil =>
    intro b _ _ c r _
    simp
  | cons q t ih =>
    intro b hWF hin c r hcr
    have hq : b.is_inbounds q.1 q.2 = true := hin q (List.mem_cons_self q t)
    have hWF' : (b.setMineAt q).WF := by
      rw [Board.WF, setMineAt_length]
      exact hWF
    have hin' : ∀ q' ∈ t, (b.setMineAt q).is_inbounds q'.1 q'.2 = true := by
      intro q' hq'
      rw [is_inbounds_congr (setMineAt_scalars b q).1 (setMineAt_scalars b q).2.1]
      exact hin q' (List.mem_cons_of_mem _ hq')
    have hcr' : (b.setMineAt q).is_inbounds c r = true := by
      rw [is_inbounds_congr (setMineAt_scalars b q).1 (setMineAt_scalars b q).2.1]
      exact hcr
    rw [List.foldl_cons, ih hWF' hin' c r hcr']
    by_cases he : (c, r) = q
    · have hself : (b.setMineAt q).cellAt c r = { b.cellAt c r with is_mine := true } := by
        rw [← he, Board.setMineAt]
        exact cellAt_setCell_self _ hWF hcr
      rw [hself]
      have hmem : ((c, r) ∈ q :: t) := by
        rw [List.mem_cons]
        exact Or.inl he
      simp [hmem]
    · have hne' : (q.1, q.2) ≠ (c, r) := by
        intro h
        apply he
        rw [← h]
      have hother : (b.setMineAt q).cellAt c r = b.cellAt c r := by
        rw [Board.setMineAt]
        exact cellAt_setCell_ne _ hWF hq hcr hne'
      rw [hother]
      have hmem : ((c, r) ∈ q :: t) ↔ ((c, r) ∈ t) := by
        rw [List.mem_cons]
        refine ⟨fun h => h.resolve_left he, Or.inr⟩
      have hdec : decide ((c, r) ∈ t) = decide ((c, r) ∈ q :: t) := by
        rw [decide_eq_decide]
        exact hmem.symm
      rw [hdec]

theorem countP_eq_of_getD (p : CellState → Bool) (l l' : List CellState)
    (hlen : l'.length = l.length)
    (h : ∀ j, j < l.length → p (l'.getD j default) = p (l.getD j default)) :
    l'.countP p = l.countP p := by
  have hm : l'.map p = l.map p := by
    refine List.ext_getElem (by rw [List.length_map, List.length_map, hlen]) ?_
    intro i h1 h2
    rw [List.length_map] at h1 h2
    have h1' : i < l.length := hlen ▸ h1
    have := h i h1'
    rw [List.getD_eq_getElem l' default h1, List.getD_eq_getElem l default h2] at this
    simp only [List.getElem_map]
    exact this
  have e1 : l'.countP p = List.countP (fun x => x) (l'.map p) := by
    rw [List.countP_map]
    rfl
  have e2 : l.countP p = List.countP (fun x => x) (l.map p) := by
    rw [List.countP_map]
    rfl
  rw [e1, e2, hm]

theorem marks_fold_countMines {L : List (Int × Int)} :
    ∀ {b : Board}, b.WF → (∀ q ∈ L, b.is_inbounds q.1 q.2 = true) → L.Nodup →
      (L.foldl Board.setMineAt b).countMines
        = b.countMines + (L.filter (fun q => !(b.cellAt q.1 q.2).is_mine)).length := by
  induction L with
  | nil =>
    intro b _ _ _
    simp [List.foldl_nil]
  | cons q t ih =>
    intro b hWF hin hnd
    have hq : b.is_inbounds q.1 q.2 = true := hin q (List.mem_cons_self q t)
    have hWF' : (b.setMineAt q).WF := by
      rw [Board.WF, setMineAt_length]
      exact hWF
    have hin' : ∀ q' ∈ t, (b.setMineAt q).is_inbounds q'.1 q'.2 = true := by
      intro q' hq'
      rw [is_inbounds_congr (setMineAt_scalars b q).1 (setMineAt_scalars b q).2.1]
      exact hin q' (List.mem_cons_of_mem _ hq')
    have hqt : q ∉ t := (List.nodup_cons.mp hnd).1
    have hnd' : t.Nodup := (List.nodup_cons.mp hnd).2
    rw [List.foldl_cons, ih hWF' hin' hnd']
    have hcells : ∀ q' ∈ t, (b.setMineAt q).cellAt q'.1 q'.2 = b.cellAt q'.1 q'.2 := by
      intro q' hq'
      rw [Board.setMineAt]
      refine cellAt_setCell_ne _ hWF hq (hin q' (List.mem_cons_of_mem _ hq')) ?_
      intro h
      apply hqt
      have : q = q' := by
        calc q = (q.1, q.2) := rfl
          _ = (q'.1, q'.2) := h
          _ = q' := rfl
      rw [this]
      exact hq'
    have hfilter : t.filter (fun q' => !((b.setMineAt q).cellAt q'.1 q'.2).is_mine)
        = t.filter (fun q' => !(b.cellAt q'.1 q'.2).is_mine) := by
      refine List.filter_congr ?_
      intro q' hq'
      rw [hcells q' hq']
    have hcm : (b.setMineAt q).countMines
        = b.countMines + (if (b.cellAt q.1 q.2).is_mine then 0 else 1) := by
      rcases hmq : (b.cellAt q.1 q.2).is_mine with _ | _
      · have h1 : (b.setMineAt q).countMines = b.countMines + 1 := by
          rw [Board.countMines, Board.countMines, Board.setMineAt]
          refine countP_set_incr _ _ _ _ (index_lt hq hWF) ?_ ?_
          · exact hmq
          · rfl
        rw [h1]
        simp
      · have h1 : (b.setMineAt q).countMines = b.countMines := by
          rw [Board.countMines, Board.countMines, Board.setMineAt]
          refine countP_set_same _ _ _ _ ?_
          show ({ b.cellAt q.1 q.2 with is_mine := true }).is_mine
              = (b.cellAt q.1 q.2).is_mine
          rw [hmq]
        rw [h1]
        simp
    rw [hfilter, hcm, List.filter_cons]
    rcases hmq : (b.cellAt q.1 q.2).is_mine with _ | _
    · simp [hmq]
      omega
    · simp [hmq]

/-! ### The adjacency fold of `place_mines` -/

theorem setAdjacentAt_scalars (b : Board) (p : Int × Int) :
    (b.setAdjacentAt p).cols = b.cols ∧ (b.setAdjacentAt p).rows = b.rows ∧
    (b.setAdjacentAt p).num_mines = b.num_mines ∧
    (b.setAdjacentAt p).mines_placed = b.mines_placed ∧
    (b.setAdjacentAt p).revealed_count = b.revealed_count ∧
    (b.setAdjacentAt p).game_over = b.game_over ∧
    (b.setAdjacentAt p).win = b.win := by
  rw [Board.setAdjacentAt]
  by_cases h : (b.cellAt p.1 p.2).is_mine
  · simp only [h, if_true]
    exact ⟨rfl, rfl, rfl, rfl, rfl, rfl, rfl⟩
  · simp only [h, if_false]
    exact ⟨rfl, rfl, rfl, rfl, rfl, rfl, rfl⟩

theorem setAdjacentAt_length (b : Board) (p : Int × Int) :
    (b.setAdjacentAt p).cells.length = b.cells.length := by
  rw [Board.setAdjacentAt]
  by_cases h : (b.cellAt p.1 p.2).is_mine
  · simp only [h, if_true]
    exact setCell_length b p.1 p.2 _
  · simp only [h, if_false]
    exact setCell_length b p.1 p.2 _

theorem setAdjacentAt_other_fields (b : Board) (p : Int × Int) (j : Nat) :
    ((b.setAdjacentAt p).cells.getD j default).is_mine
        = (b.cells.getD j default).is_mine ∧
    ((b.setAdjacentAt p).cells.getD j default).is_revealed
        = (b.cells.getD j default).is_revealed ∧
    ((b.setAdjacentAt p).cells.getD j default).is_flagged
        = (b.cells.getD j default).is_flagged := by
  rw [Board.setAdjacentAt]
  split
  · refine ⟨?_, ?_, ?_⟩
    · exact setCell_getD_field (s := { b.cellAt p.1 p.2 with adjacent := 0 })
        (fun c => c.is_mine) rfl j
    · exact setCell_getD_field (s := { b.cellAt p.1 p.2 with adjacent := 0 })
        (fun c => c.is_revealed) rfl j
    · exact setCell_getD_field (s := { b.cellAt p.1 p.2 with adjacent := 0 })
        (fun c => c.is_flagged) rfl j
  · refine ⟨?_, ?_, ?_⟩
    · exact setCell_getD_field
        (s := { b.cellAt p.1 p.2 with adjacent := b.mineNeighborCount p.1 p.2 })
        (fun c => c.is_mine) rfl j
    · exact setCell_getD_field
        (s := { b.cellAt p.1 p.2 with adjacent := b.mineNeighborCount p.1 p.2 })
        (fun c => c.is_revealed) rfl j
    · exact setCell_getD_field
        (s := { b.cellAt p.1 p.2 with adjacent := b.mineNeighborCount p.1 p.2 })
        (fun c => c.is_flagged) rfl j

theorem setAdjacentAt_cellAt_self {b : Board} {p : Int × Int}
    (hWF : b.WF) (hin : b.is_inbounds p.1 p.2 = true) :
    (b.setAdjacentAt p).cellAt p.1 p.2 =
      (if (b.cellAt p.1 p.2).is_mine then { b.cellAt p.1 p.2 with adjacent := 0 }
       else { b.cellAt p.1 p.2 with adjacent := b.mineNeighborCount p.1 p.2 }) := by
  rw [Board.setAdjacentAt]
  split
  · exact cellAt_setCell_self _ hWF hin
  · exact cellAt_setCell_self _ hWF hin

theorem setAdjacentAt_cellAt_ne {b : Board} {p : Int × Int} {c r : Int}
    (hWF : b.WF) (hinp : b.is_inbounds p.1 p.2 = true)
    (hin : b.is_inbounds c r = true) (hne : (p.1, p.2) ≠ (c, r)) :
    (b.setAdjacentAt p).cellAt c r = b.cellAt c r := by
  rw [Board.setAdjacentAt]
  split
  · exact cellAt_setCell_ne _ hWF hinp hin hne
  · exact cellAt_setCell_ne _ hWF hinp hin hne

theorem adj_fold_cellAt_not_mem {L : List (Int × Int)} :
    ∀ {b : Board}, b.WF → (∀ q ∈ L, b.is_inbounds q.1 q.2 = true) →
    ∀ c r : Int, b.is_inbounds c r = true → (c, r) ∉ L →
      (L.foldl Board.setAdjacentAt b).cellAt c r = b.cellAt c r := by
  induction L with
  | nil =>
    intro b _ _ c r _ _
    rfl
  | cons q t ih =>
    intro b hWF hin c r hcr hnm
    have hq : b.is_inbounds q.1 q.2 = true := hin q (List.mem_cons_self q t)
    have hWF' : (b.setAdjacentAt q).WF := by
      rw [Board.WF, setAdjacentAt_length, (setAdjacentAt_scalars b q).1,
        (setAdjacentAt_scalars b q).2.1]
      exact hWF
    have hdims := setAdjacentAt_scalars b q
    have hin' : ∀ q' ∈ t, (b.setAdjacentAt q).is_inbounds q'.1 q'.2 = true := by
      intro q' hq'
      rw [is_inbounds_congr hdims.1 hdims.2.1]
      exact hin q' (List.mem_cons_of_mem _ hq')
    have hcr' : (b.setAdjacentAt q).is_inbounds c r = true := by
      rw [is_inbounds_congr hdims.1 hdims.2.1]
      exact hcr
    have hne : (q.1, q.2) ≠ (c, r) := by
      intro h
      apply hnm
      rw [List.mem_cons]
      left
      calc (c, r) = (q.1, q.2) := h.symm
        _ = q := rfl
    rw [List.foldl_cons,
      ih hWF' hin' c r hcr' (fun h => hnm (List.mem_cons_of_mem _ h)),
      setAdjacentAt_cellAt_ne hWF hq hcr hne]

theorem adj_fold_cellAt_mem {L : List (Int × Int)} :
    ∀ {b : Board}, b.WF → (∀ q ∈ L, b.is_inbounds q.1 q.2 = true) → L.Nodup →
    ∀ c r : Int, b.is_inbounds c r = true → (c, r) ∈ L →
      (L.foldl Board.setAdjacentAt b).cellAt c r =
        (if (b.cellAt c r).is_mine then { b.cellAt c r with adjacent := 0 }
         else { b.cellAt c r with adjacent := b.mineNeighborCount c r }) := by
  induction L with
  | nil =>
    intro b _ _ _ c r _ hmem
    simp at hmem
  | cons q t ih =>
    intro b hWF hin hnd c r hcr hmem
    have hq : b.is_inbounds q.1 q.2 = true := hin q (List.mem_cons_self q t)
    have hWF' : (b.setAdjacentAt q).WF := by
      rw [Board.WF, setAdjacentAt_length, (setAdjacentAt_scalars b q).1,
        (setAdjacentAt_scalars b q).2.1]
      exact hWF
    have hdims := setAdjacentAt_scalars b q
    have hin' : ∀ q' ∈ t, (b.setAdjacentAt q).is_inbounds q'.1 q'.2 = true := by
      intro q' hq'
      rw [is_inbounds_congr hdims.1 hdims.2.1]
      exact hin q' (List.mem_cons_of_mem _ hq')
    have hcr' : (b.setAdjacentAt q).is_inbounds c r = true := by
      rw [is_inbounds_congr hdims.1 hdims.2.1]
      exact hcr
    have hqt : q ∉ t := (List.nodup_cons.mp hnd).1
    have hnd' : t.Nodup := (List.nodup_cons.mp hnd).2
    have hmine_pres : ∀ c' r' : Int, (b.setAdjacentAt q).is_inbounds c' r' = true →
        ((b.setAdjacentAt q).cellAt c' r').is_mine = (b.cellAt c' r').is_mine := by
      intro c' r' _
      show ((b.setAdjacentAt q).cells.getD ((b.setAdjacentAt q).index c' r') default).is_mine
          = (b.cells.getD (b.index c' r') default).is_mine
      rw [index_congr hdims.1]
      exact (setAdjacentAt_other_fields b q _).1
    rw [List.foldl_cons]
    rcases List.mem_cons.mp hmem with he | hmt
    · have hq' : q = (c, r) := by
        calc q = (q.1, q.2) := rfl
          _ = (c, r) := by rw [← he]
      have hnotin : (c, r) ∉ t := by
        rw [← hq']
        exact hqt
      rw [adj_fold_cellAt_not_mem hWF' hin' c r hcr' hnotin, hq']
      exact setAdjacentAt_cellAt_self (p := (c, r)) hWF hcr
    · rw [ih hWF' hin' hnd' c r hcr' hmt,
        setAdjacentAt_cellAt_ne hWF hq hcr
          (by
            intro h
            apply hqt
            have hq2 : q = (c, r) := by
              calc q = (q.1, q.2) := rfl
                _ = (c, r) := h
            rw [hq2]
            exact hmt),
        mineNeighborCount_congr hdims.1 hdims.2.1 hmine_pres c r]

/-! ### Characterization of `place_mines` -/

theorem marks_fold_scalars (L : List (Int × Int)) (x : Board) :
    (L.foldl Board.setMineAt x).cols = x.cols ∧
    (L.foldl Board.setMineAt x).rows = x.rows ∧
    (L.foldl Board.setMineAt x).num_mines = x.num_mines ∧
    (L.foldl Board.setMineAt x).mines_placed = x.mines_placed ∧
    (L.foldl Board.setMineAt x).revealed_count = x.revealed_count ∧
    (L.foldl Board.setMineAt x).game_over = x.game_over ∧
    (L.foldl Board.setMineAt x).win = x.win ∧
    (L.foldl Board.setMineAt x).cells.length = x.cells.length := by
  refine ⟨?_, ?_, ?_, ?_, ?_, ?_, ?_, ?_⟩
  · exact foldl_preserve _ Board.cols L x (fun y p _ => rfl)
  · exact foldl_preserve _ Board.rows L x (fun y p _ => rfl)
  · exact foldl_preserve _ Board.num_mines L x (fun y p _ => rfl)
  · exact foldl_preserve _ Board.mines_placed L x (fun y p _ => rfl)
  · exact foldl_preserve _ Board.revealed_count L x (fun y p _ => rfl)
  · exact foldl_preserve _ Board.game_over L x (fun y p _ => rfl)
  · exact foldl_preserve _ Board.win L x (fun y p _ => rfl)
  · exact foldl_preserve _ (fun y => y.cells.length) L x (fun y p _ => setMineAt_length y p)

theorem adj_fold_scalars (L : List (Int × Int)) (x : Board) :
    (L.foldl Board.setAdjacentAt x).cols = x.cols ∧
    (L.foldl Board.setAdjacentAt x).rows = x.rows ∧
    (L.foldl Board.setAdjacentAt x).num_mines = x.num_mines ∧
    (L.foldl Board.setAdjacentAt x).mines_placed = x.mines_placed ∧
    (L.foldl Board.setAdjacentAt x).revealed_count = x.revealed_count ∧
    (L.foldl Board.setAdjacentAt x).game_over = x.game_over ∧
    (L.foldl Board.setAdjacentAt x).win = x.win ∧
    (L.foldl Board.setAdjacentAt x).cells.length = x.cells.length := by
  refine ⟨?_, ?_, ?_, ?_, ?_, ?_, ?_, ?_⟩
  · exact foldl_preserve _ Board.cols L x (fun y p _ => (setAdjacentAt_scalars y p).1)
  · exact foldl_preserve _ Board.rows L x (fun y p _ => (setAdjacentAt_scalars y p).2.1)
  · exact foldl_preserve _ Board.num_mines L x (fun y p _ => (setAdjacentAt_scalars y p).2.2.1)
  · exact foldl_preserve _ Board.mines_placed L x (fun y p _ => (setAdjacentAt_scalars y p).2.2.2.1)
  · exact foldl_preserve _ Board.revealed_count L x
      (fun y p _ => (setAdjacentAt_scalars y p).2.2.2.2.1)
  · exact foldl_preserve _ Board.game_over L x
      (fun y p _ => (setAdjacentAt_scalars y p).2.2.2.2.2.1)
  · exact foldl_preserve _ Board.win L x (fun y p _ => (setAdjacentAt_scalars y p).2.2.2.2.2.2)
  · exact foldl_preserve _ (fun y => y.cells.length) L x
      (fun y p _ => setAdjacentAt_length y p)

theorem adj_fold_getD_mine (L : List (Int × Int)) (x : Board) (j : Nat) :
    ((L.foldl Board.setAdjacentAt x).cells.getD j default).is_mine
      = (x.cells.getD j default).is_mine :=
  foldl_preserve _ (fun y => (y.cells.getD j default).is_mine) L x
    (fun y p _ => (setAdjacentAt_other_fields y p j).1)

theorem adj_fold_getD_revealed (L : List (Int × Int)) (x : Board) (j : Nat) :
    ((L.foldl Board.setAdjacentAt x).cells.getD j default).is_revealed
      = (x.cells.getD j default).is_revealed :=
  foldl_preserve _ (fun y => (y.cells.getD j default).is_revealed) L x
    (fun y p _ => (setAdjacentAt_other_fields y p j).2.1)

theorem adj_fold_getD_flagged (L : List (Int × Int)) (x : Board) (j : Nat) :
    ((L.foldl Board.setAdjacentAt x).cells.getD j default).is_flagged
      = (x.cells.getD j default).is_flagged :=
  foldl_preserve _ (fun y => (y.cells.getD j default).is_flagged) L x
    (fun y p _ => (setAdjacentAt_other_fields y p j).2.2)

theorem marks_fold_getD_revealed (L : List (Int × Int)) (x : Board) (j : Nat) :
    ((L.foldl Board.setMineAt x).cells.getD j default).is_revealed
      = (x.cells.getD j default).is_revealed :=
  foldl_preserve _ (fun y => (y.cells.getD j default).is_revealed) L x
    (fun y p _ => (setMineAt_other_fields y p j).1)

theorem marks_fold_getD_flagged (L : List (Int × Int)) (x : Board) (j : Nat) :
    ((L.foldl Board.setMineAt x).cells.getD j default).is_flagged
      = (x.cells.getD j default).is_flagged :=
  foldl_preserve _ (fun y => (y.cells.getD j default).is_flagged) L x
    (fun y p _ => (setMineAt_other_fields y p j).2.1)

theorem place_mines_scalars (b : Board) (sc sr : Int)
    (sh : List (Int × Int) → List (Int × Int)) :
    (b.place_mines sc sr sh).cols = b.cols ∧
    (b.place_mines sc sr sh).rows = b.rows ∧
    (b.place_mines sc sr sh).num_mines = b.num_mines ∧
    (b.place_mines sc sr sh).mines_placed = true ∧
    (b.place_mines sc sr sh).revealed_count = b.revealed_count ∧
    (b.place_mines sc sr sh).game_over = b.game_over ∧
    (b.place_mines sc sr sh).win = b.win ∧
    (b.place_mines sc sr sh).cells.length = b.cells.length := by
  simp only [Board.place_mines]
  set b1 := ((sh (b.pool sc sr)).take b.num_mines).foldl Board.setMineAt b with hb1
  have hm := marks_fold_scalars ((sh (b.pool sc sr)).take b.num_mines) b
  have ha := adj_fold_scalars b1.all_positions b1
  rw [← hb1] at hm
  refine ⟨?_, ?_, ?_, by trivial, ?_, ?_, ?_, ?_⟩
  · exact ha.1.trans hm.1
  · exact ha.2.1.trans hm.2.1
  · exact ha.2.2.1.trans hm.2.2.1
  · exact ha.2.2.2.2.1.trans hm.2.2.2.2.1
  · exact ha.2.2.2.2.2.1.trans hm.2.2.2.2.2.1
  · exact ha.2.2.2.2.2.2.1.trans hm.2.2.2.2.2.2.1
  · exact ha.2.2.2.2.2.2.2.trans hm.2.2.2.2.2.2.2

theorem place_mines_getD_revealed (b : Board) (sc sr : Int)
    (sh : List (Int × Int) → List (Int × Int)) (j : Nat) :
    ((b.place_mines sc sr sh).cells.getD j default).is_revealed
      = (b.cells.getD j default).is_revealed := by
  simp only [Board.place_mines]
  set b1 := ((sh (b.pool sc sr)).take b.num_mines).foldl Board.setMineAt b with hb1
  have h1 := marks_fold_getD_revealed ((sh (b.pool sc sr)).take b.num_mines) b j
  rw [← hb1] at h1
  exact (adj_fold_getD_revealed b1.all_positions b1 j).trans h1

theorem place_mines_getD_flagged (b : Board) (sc sr : Int)
    (sh : List (Int × Int) → List (Int × Int)) (j : Nat) :
    ((b.place_mines sc sr sh).cells.getD j default).is_flagged
      = (b.cells.getD j default).is_flagged := by
  simp only [Board.place_mines]
  set b1 := ((sh (b.pool sc sr)).take b.num_mines).foldl Board.setMineAt b with hb1
  have h1 := marks_fold_getD_flagged ((sh (b.pool sc sr)).take b.num_mines) b j
  rw [← hb1] at h1
  exact (adj_fold_getD_flagged b1.all_positions b1 j).trans h1

theorem adj_fold_cellAt_mine_eq (L : List (Int × Int)) (x : Board) (c r : Int) :
    ((L.foldl Board.setAdjacentAt x).cellAt c r).is_mine = (x.cellAt c r).is_mine := by
  have hcols : (L.foldl Board.setAdjacentAt x).cols = x.cols := (adj_fold_scalars L x).1
  show ((L.foldl Board.setAdjacentAt x).cells.getD
      ((L.foldl Board.setAdjacentAt x).index c r) default).is_mine
    = (x.cells.getD (x.index c r) default).is_mine
  rw [index_congr hcols]
  exact adj_fold_getD_mine L x (x.index c r)

theorem taken_inbounds {b : Board} {sc sr : Int}
    {sh : List (Int × Int) → List (Int × Int)}
    (hsh : (sh (b.pool sc sr)).Perm (b.pool sc sr)) :
    ∀ q ∈ (sh (b.pool sc sr)).take b.num_mines, b.is_inbounds q.1 q.2 = true := by
  intro q hq
  have hq1 : q ∈ sh (b.pool sc sr) := (List.take_sublist _ _).subset hq
  exact pool_inbounds (hsh.mem_iff.mp hq1)

theorem taken_nodup {b : Board} {sc sr : Int}
    {sh : List (Int × Int) → List (Int × Int)}
    (hsh : (sh (b.pool sc sr)).Perm (b.pool sc sr)) :
    ((sh (b.pool sc sr)).take b.num_mines).Nodup :=
  List.Nodup.sublist (List.take_sublist _ _) (hsh.nodup_iff.mpr (nodup_pool b sc sr))

theorem taken_not_forbidden {b : Board} {sc sr : Int}
    {sh : List (Int × Int) → List (Int × Int)}
    (hsh : (sh (b.pool sc sr)).Perm (b.pool sc sr)) :
    ∀ q ∈ (sh (b.pool sc sr)).take b.num_mines, q ∉ b.forbidden sc sr := by
  intro q hq
  have hq1 : q ∈ sh (b.pool sc sr) := (List.take_sublist _ _).subset hq
  exact pool_not_forbidden (hsh.mem_iff.mp hq1)

theorem place_mines_mine {b : Board} {sc sr : Int}
    {sh : List (Int × Int) → List (Int × Int)}
    (hWF : b.WF) (hsh : (sh (b.pool sc sr)).Perm (b.pool sc sr))
    (c r : Int) (hin : b.is_inbounds c r = true) :
    ((b.place_mines sc sr sh).cellAt c r).is_mine
      = ((b.cellAt c r).is_mine
          || decide ((c, r) ∈ (sh (b.pool sc sr)).take b.num_mines)) := by
  have hmarks := marks_fold_cellAt hWF (taken_inbounds hsh) c r hin
  have step1 : ((b.place_mines sc sr sh).cellAt c r).is_mine
      = (((((sh (b.pool sc sr)).take b.num_mines).foldl Board.setMineAt
            b).all_positions.foldl Board.setAdjacentAt
          (((sh (b.pool sc sr)).take b.num_mines).foldl Board.setMineAt b)).cellAt
            c r).is_mine := rfl
  rw [step1, adj_fold_cellAt_mine_eq, hmarks]

theorem place_mines_adjacent {b : Board} {sc sr : Int}
    {sh : List (Int × Int) → List (Int × Int)}
    (hWF : b.WF) (hsh : (sh (b.pool sc sr)).Perm (b.pool sc sr))
    (c r : Int) (hin : b.is_inbounds c r = true) :
    ((b.place_mines sc sr sh).cellAt c r).adjacent
      = (if ((b.place_mines sc sr sh).cellAt c r).is_mine then 0
         else (b.place_mines sc sr sh).mineNeighborCount c r) := by
  set b1 := ((sh (b.pool sc sr)).take b.num_mines).foldl Board.setMineAt b with hb1
  have hmsc := marks_fold_scalars ((sh (b.pool sc sr)).take b.num_mines) b
  rw [← hb1] at hmsc
  have hWF1 : b1.WF := by
    rw [Board.WF, hmsc.2.2.2.2.2.2.2, hmsc.1, hmsc.2.1]
    exact hWF
  have hin1 : b1.is_inbounds c r = true := by
    rw [is_inbounds_congr hmsc.1 hmsc.2.1]
    exact hin
  have hmem := adj_fold_cellAt_mem (L := b1.all_positions) hWF1
    (fun q hq => mem_all_positions.mp hq) (nodup_all_positions b1) c r hin1
    (mem_all_positions.mpr hin1)
  have hpm : (b.place_mines sc sr sh).cellAt c r
      = (b1.all_positions.foldl Board.setAdjacentAt b1).cellAt c r := rfl
  have hasc := adj_fold_scalars b1.all_positions b1
  have hminepres : ∀ c' r' : Int,
      (b1.all_positions.foldl Board.setAdjacentAt b1).is_inbounds c' r' = true →
      ((b1.all_positions.foldl Board.setAdjacentAt b1).cellAt c' r').is_mine
        = (b1.cellAt c' r').is_mine :=
    fun c' r' _ => adj_fold_cellAt_mine_eq b1.all_positions b1 c' r'
  have hMNC : (b.place_mines sc sr sh).mineNeighborCount c r = b1.mineNeighborCount c r := by
    have h0 : (b.place_mines sc sr sh).mineNeighborCount c r
        = (b1.all_positions.foldl Board.setAdjacentAt b1).mineNeighborCount c r := rfl
    rw [h0]
    exact mineNeighborCount_congr hasc.1 hasc.2.1 hminepres c r
  rw [hpm, hmem, hMNC]
  by_cases hm : (b1.cellAt c r).is_mine = true
  · simp [hm]
  · simp [hm]

theorem place_mines_countMines {b : Board} {sc sr : Int}
    {sh : List (Int × Int) → List (Int × Int)}
    (hWF : b.WF) (hsh : (sh (b.pool sc sr)).Perm (b.pool sc sr))
    (hnm : b.countMines = 0) :
    (b.place_mines sc sr sh).countMines = min b.num_mines (b.pool sc sr).length := by
  set taken := (sh (b.pool sc sr)).take b.num_mines with htk
  set b1 := taken.foldl Board.setMineAt b with hb1
  have hmsc := marks_fold_scalars taken b
  rw [← hb1] at hmsc
  have h2 : (b.place_mines sc sr sh).countMines
      = (b1.all_positions.foldl Board.setAdjacentAt b1).countMines := rfl
  have h3 : (b1.all_positions.foldl Board.setAdjacentAt b1).countMines = b1.countMines := by
    refine countP_eq_of_getD _ _ _ ((adj_fold_scalars b1.all_positions b1).2.2.2.2.2.2.2) ?_
    intro j _
    exact adj_fold_getD_mine b1.all_positions b1 j
  have h4 : b1.countMines
      = b.countMines + (taken.filter (fun q => !(b.cellAt q.1 q.2).is_mine)).length := by
    rw [hb1]
    exact marks_fold_countMines hWF (taken_inbounds hsh) (taken_nodup hsh)
  have h5 : taken.filter (fun q => !(b.cellAt q.1 q.2).is_mine) = taken := by
    rw [List.filter_eq_self]
    intro q hq
    have hinq := taken_inbounds hsh q hq
    have hlt := index_lt hinq hWF
    have hmem : b.cellAt q.1 q.2 ∈ b.cells := by
      rw [Board.cellAt, List.getD_eq_getElem b.cells default hlt]
      exact List.getElem_mem hlt
    have : ∀ a ∈ b.cells, ¬a.is_mine = true := List.countP_eq_zero.mp hnm
    have hq' := this _ hmem
    simp at hq' ⊢
    exact hq'
  have h6 : taken.length = min b.num_mines (b.pool sc sr).length := by
    rw [htk, List.length_take, hsh.length_eq]
  rw [h2, h3, h4, h5, hnm, h6]
  omega

theorem place_mines_forbidden_mine {b : Board} {sc sr : Int}
    {sh : List (Int × Int) → List (Int × Int)}
    (hWF : b.WF) (hsh : (sh (b.pool sc sr)).Perm (b.pool sc sr)) :
    ∀ p ∈ b.forbidden sc sr, b.is_inbounds p.1 p.2 = true →
      ((b.place_mines sc sr sh).cellAt p.1 p.2).is_mine = (b.cellAt p.1 p.2).is_mine := by
  intro p hp hinp
  rw [place_mines_mine hWF hsh p.1 p.2 hinp]
  have hnot : (p.1, p.2) ∉ (sh (b.pool sc sr)).take b.num_mines := by
    intro hmem
    refine taken_not_forbidden hsh (p.1, p.2) hmem ?_
    show (p.1, p.2) ∈ b.forbidden sc sr
    have : (p.1, p.2) = p := rfl
    rw [this]
    exact hp
  simp [hnot]

/-! ### Pool size -/

theorem length_neighbors_le (b : Board) (c r : Int) : (b.neighbors c r).length ≤ 8 := by
  rw [Board.neighbors]
  calc ((deltas.map (fun d => (c + d.1, r + d.2))).filter
          (fun p => b.is_inbounds p.1 p.2)).length
      ≤ (deltas.map (fun d => (c + d.1, r + d.2))).length := List.length_filter_le _ _
    _ = 8 := by rw [List.length_map]; rfl

theorem length_forbidden_le (b : Board) (sc sr : Int) :
    (b.forbidden sc sr).length ≤ 9 := by
  rw [Board.forbidden, List.length_cons]
  have := length_neighbors_le b sc sr
  omega

theorem forbidden_subset_all {b : Board} {sc sr : Int}
    (hseed : b.is_inbounds sc sr = true) :
    ∀ p ∈ b.forbidden sc sr, p ∈ b.all_positions := by
  intro p hp
  rw [Board.forbidden, List.mem_cons] at hp
  rcases hp with rfl | hp
  · exact mem_all_positions.mpr hseed
  · exact mem_all_positions.mpr (neighbors_inbounds hp)

theorem length_pool_add {b : Board} {sc sr : Int}
    (hseed : b.is_inbounds sc sr = true) :
    (b.pool sc sr).length + (b.forbidden sc sr).length = b.cols * b.rows := by
  have hsplit := List.length_eq_countP_add_countP
    (fun p => decide (p ∈ b.forbidden sc sr)) b.all_positions
  have hpool : (b.pool sc sr).length
      = List.countP (fun a => decide ¬(decide (a ∈ b.forbidden sc sr) = true))
          b.all_positions := by
    rw [Board.pool, ← List.countP_eq_length_filter]
    refine List.countP_congr ?_
    intro a _
    simp
  have hforb : List.countP (fun p => decide (p ∈ b.forbidden sc sr)) b.all_positions
      = (b.forbidden sc sr).length := by
    rw [List.countP_eq_length_filter]
    have hperm : (b.all_positions.filter (fun p => decide (p ∈ b.forbidden sc sr))).Perm
        (b.forbidden sc sr) := by
      rw [List.perm_ext_iff_of_nodup
        (List.Nodup.filter _ (nodup_all_positions b)) (nodup_forbidden b sc sr)]
      intro a
      rw [List.mem_filter]
      constructor
      · rintro ⟨-, ha⟩
        simpa using ha
      · intro ha
        exact ⟨forbidden_subset_all hseed a ha, by simpa using ha⟩
    exact hperm.length_eq
  have hlen := length_all_positions b
  omega

/-! ### The flood fill: equations and frame -/

theorem floodLoop_nil (b : Board) (fuel : Nat) : b.floodLoop fuel [] = b := by
  cases fuel <;> rfl

theorem floodLoop_zero (b : Board) (stack : List (Int × Int)) :
    b.floodLoop 0 stack = b := by
  cases stack <;> rfl

theorem floodLoop_cons (b : Board) (fuel : Nat) (c r : Int) (rest : List (Int × Int)) :
    b.floodLoop (fuel + 1) ((c, r) :: rest) =
      (if b.is_inbounds c r then
        (if (b.cellAt c r).is_revealed || (b.cellAt c r).is_flagged then
          b.floodLoop fuel rest
         else if (b.cellAt c r).is_mine then b.floodLoop fuel rest
         else
           (if (b.cellAt c r).adjacent = 0 then
              ({ b.setCell c r { b.cellAt c r with is_revealed := true } with
                  revealed_count := b.revealed_count + 1 }).floodLoop fuel
                (({ b.setCell c r { b.cellAt c r with is_revealed := true } with
                    revealed_count := b.revealed_count + 1 }).floodPush c r ++ rest)
            else
              ({ b.setCell c r { b.cellAt c r with is_revealed := true } with
                  revealed_count := b.revealed_count + 1 }).floodLoop fuel rest))
       else b.floodLoop fuel rest) := rfl

/-- What one whole run of the flood-fill loop can do to the board: the
scalar state other than `revealed_count` is untouched, mines, flags and
adjacency are untouched, revealing is monotone, only unflagged non-mines
get newly revealed, and `revealed_count` advances in lockstep with the
number of revealed non-mine cells. -/
def FloodFrame (b b' : Board) : Prop :=
  b'.cols = b.cols ∧ b'.rows = b.rows ∧ b'.num_mines = b.num_mines ∧
  b'.mines_placed = b.mines_placed ∧ b'.game_over = b.game_over ∧ b'.win = b.win ∧
  b'.cells.length = b.cells.length ∧
  b.revealed_count ≤ b'.revealed_count ∧
  b'.revealed_count + b.revealedNonMineCount
    = b.revealed_count + b'.revealedNonMineCount ∧
  ∀ j : Nat,
    (b'.cells.getD j default).is_mine = (b.cells.getD j default).is_mine ∧
    (b'.cells.getD j default).is_flagged = (b.cells.getD j default).is_flagged ∧
    (b'.cells.getD j default).adjacent = (b.cells.getD j default).adjacent ∧
    ((b.cells.getD j default).is_revealed = true →
      (b'.cells.getD j default).is_revealed = true) ∧
    ((b'.cells.getD j default).is_revealed = true →
      (b.cells.getD j default).is_revealed = true ∨
        ((b.cells.getD j default).is_flagged = false ∧
         (b.cells.getD j default).is_mine = false))

theorem floodFrame_refl (b : Board) : FloodFrame b b := by
  refine ⟨rfl, rfl, rfl, rfl, rfl, rfl, rfl, le_refl _, rfl, ?_⟩
  intro j
  exact ⟨rfl, rfl, rfl, fun h => h, fun h => Or.inl h⟩

theorem floodFrame_trans {a b c : Board} (h1 : FloodFrame a b) (h2 : FloodFrame b c) :
    FloodFrame a c := by
  obtain ⟨c1, r1, n1, m1, g1, w1, l1, le1, cnt1, pt1⟩ := h1
  obtain ⟨c2, r2, n2, m2, g2, w2, l2, le2, cnt2, pt2⟩ := h2
  refine ⟨c2.trans c1, r2.trans r1, n2.trans n1, m2.trans m1, g2.trans g1,
    w2.trans w1, l2.trans l1, le1.trans le2, by omega, ?_⟩
  intro j
  obtain ⟨pm1, pf1, pa1, pr1, pb1⟩ := pt1 j
  obtain ⟨pm2, pf2, pa2, pr2, pb2⟩ := pt2 j
  refine ⟨pm2.trans pm1, pf2.trans pf1, pa2.trans pa1, fun h => pr2 (pr1 h), ?_⟩
  intro h
  rcases pb2 h with h' | ⟨hf, hm⟩
  · exact pb1 h'
  · rw [pf1] at hf
    rw [pm1] at hm
    exact Or.inr ⟨hf, hm⟩

theorem floodFrame_wf {b b' : Board} (h : FloodFrame b b') (hWF : b.WF) : b'.WF := by
  rw [Board.WF, h.1, h.2.1, h.2.2.2.2.2.2.1]
  exact hWF

theorem revealStep_frame {b : Board} {c r : Int} (hWF : b.WF)
    (hin : b.is_inbounds c r = true)
    (hrev : (b.cellAt c r).is_revealed = false)
    (hflag : (b.cellAt c r).is_flagged = false)
    (hmine : (b.cellAt c r).is_mine = false) :
    FloodFrame b { b.setCell c r { b.cellAt c r with is_revealed := true } with
      revealed_count := b.revealed_count + 1 } := by
  have hlt : b.index c r < b.cells.length := index_lt hin hWF
  refine ⟨rfl, rfl, rfl, rfl, rfl, rfl, setCell_length b c r _, by simp, ?_, ?_⟩
  · have hstep : (b.setCell c r { b.cellAt c r with is_revealed := true }).revealedNonMineCount
        = b.revealedNonMineCount + 1 := by
      rw [Board.revealedNonMineCount, Board.revealedNonMineCount]
      refine countP_set_incr _ _ _ _ hlt ?_ ?_
      · show ((b.cellAt c r).is_revealed && !(b.cellAt c r).is_mine) = false
        rw [hrev]
        rfl
      · show (true && !(b.cellAt c r).is_mine) = true
        rw [hmine]
        rfl
    show b.revealed_count + 1
        + b.revealedNonMineCount
      = b.revealed_count
        + (b.setCell c r { b.cellAt c r with is_revealed := true }).revealedNonMineCount
    rw [hstep]
    omega
  · intro j
    refine ⟨setCell_getD_field (s := { b.cellAt c r with is_revealed := true })
        (fun x => x.is_mine) rfl j,
      setCell_getD_field (s := { b.cellAt c r with is_revealed := true })
        (fun x => x.is_flagged) rfl j,
      setCell_getD_field (s := { b.cellAt c r with is_revealed := true })
        (fun x => x.adjacent) rfl j, ?_, ?_⟩
    · intro h
      by_cases hj : b.index c r = j
      · subst hj
        show ((b.cells.set (b.index c r) _).getD (b.index c r) default).is_revealed = true
        rw [getD_set_self _ _ hlt]
      · show ((b.cells.set (b.index c r) _).getD j default).is_revealed = true
        rw [getD_set_ne _ _ hj]
        exact h
    · intro h
      by_cases hj : b.index c r = j
      · subst hj
        right
        exact ⟨hflag, hmine⟩
      · left
        have h' : ((b.cells.set (b.index c r)
            { b.cellAt c r with is_revealed := true }).getD j default).is_revealed = true := h
        rw [getD_set_ne _ _ hj] at h'
        exact h'

theorem floodLoop_frame : ∀ (fuel : Nat) {b : Board} (stack : List (Int × Int)),
    b.WF → FloodFrame b (b.floodLoop fuel stack) := by
  intro fuel
  induction fuel with
  | zero =>
    intro b stack _
    rw [floodLoop_zero]
    exact floodFrame_refl b
  | succ fuel ih =>
    intro b stack hWF
    match stack with
    | [] =>
      rw [floodLoop_nil]
      exact floodFrame_refl b
    | (c, r) :: rest =>
      rw [floodLoop_cons]
      by_cases hin : b.is_inbounds c r = true
      · rw [if_pos hin]
        by_cases h1 : ((b.cellAt c r).is_revealed || (b.cellAt c r).is_flagged) = true
        · rw [if_pos h1]
          exact ih rest hWF
        · rw [if_neg h1]
          by_cases h2 : (b.cellAt c r).is_mine = true
          · rw [if_pos h2]
            exact ih rest hWF
          · rw [if_neg h2]
            have hrev : (b.cellAt c r).is_revealed = false := by
              rcases hx : (b.cellAt c r).is_revealed with _ | _
              · rfl
              · exact absurd (by rw [hx]; rfl) h1
            have hflag : (b.cellAt c r).is_flagged = false := by
              rcases hx : (b.cellAt c r).is_flagged with _ | _
              · rfl
              · refine absurd ?_ h1
                rw [hx, Bool.or_true]
            have hmine : (b.cellAt c r).is_mine = false := by
              rcases hx : (b.cellAt c r).is_mine with _ | _
              · rfl
              · exact absurd hx h2
            have hstep := revealStep_frame hWF hin hrev hflag hmine
            have hWF' := floodFrame_wf hstep hWF
            by_cases h3 : (b.cellAt c r).adjacent = 0
            · rw [if_pos h3]
              exact floodFrame_trans hstep (ih _ hWF')
            · rw [if_neg h3]
              exact floodFrame_trans hstep (ih _ hWF')
      · rw [if_neg hin]
        exact ih rest hWF

/-! ### `_check_win` and `_reveal_all_mines` -/

/-- The win condition tested by `_check_win`. -/
def Board.winCond (b : Board) : Prop :=
  (b.revealed_count : Int) = (b.cols : Int) * (b.rows : Int) - (b.num_mines : Int)
    ∧ b.game_over = false

instance (b : Board) : Decidable b.winCond := by
  rw [Board.winCond]
  infer_instance

/-- The cell transformation of the `_check_win` completion pass. -/
def winPassFix : CellState → CellState :=
  fun c => if ¬c.is_revealed ∧ ¬c.is_mine then { c with is_revealed := true } else c

/-- The cell transformation of `_reveal_all_mines`. -/
def mineFix : CellState → CellState :=
  fun c => if c.is_mine then { c with is_revealed := true } else c

theorem check_win_of_neg {b : Board} (h : ¬b.winCond) : b.check_win = b := by
  have h' : ¬((b.revealed_count : Int) = (b.cols : Int) * (b.rows : Int) - (b.num_mines : Int)
      ∧ b.game_over = false) := h
  rw [Board.check_win, if_neg h']

theorem check_win_of_pos {b : Board} (h : b.winCond) :
    b.check_win = { b with win := true, cells := b.cells.map winPassFix } := by
  have h' : ((b.revealed_count : Int) = (b.cols : Int) * (b.rows : Int) - (b.num_mines : Int)
      ∧ b.game_over = false) := h
  rw [Board.check_win, if_pos h']
  rfl

theorem reveal_all_mines_cells (b : Board) :
    b.reveal_all_mines = { b with cells := b.cells.map mineFix } := rfl

theorem winPassFix_mine (c : CellState) : (winPassFix c).is_mine = c.is_mine := by
  rw [winPassFix]
  split <;> rfl

theorem winPassFix_flag (c : CellState) : (winPassFix c).is_flagged = c.is_flagged := by
  rw [winPassFix]
  split <;> rfl

theorem winPassFix_adjacent (c : CellState) : (winPassFix c).adjacent = c.adjacent := by
  rw [winPassFix]
  split <;> rfl

theorem winPassFix_revealed (c : CellState) :
    (winPassFix c).is_revealed = (c.is_revealed || !c.is_mine) := by
  rw [winPassFix]
  split
  · rename_i hc
    show true = (c.is_revealed || !c.is_mine)
    rcases hc with ⟨h1, h2⟩
    simp at h1 h2
    rw [h1, h2]
    rfl
  · rename_i hc
    rw [Decidable.not_and_iff_or_not] at hc
    rcases hc with hc | hc
    · simp at hc
      rw [hc]
      rfl
    · simp at hc
      rw [hc]
      simp

theorem mineFix_mine (c : CellState) : (mineFix c).is_mine = c.is_mine := by
  rw [mineFix]
  split <;> rfl

theorem mineFix_flag (c : CellState) : (mineFix c).is_flagged = c.is_flagged := by
  rw [mineFix]
  split <;> rfl

theorem mineFix_adjacent (c : CellState) : (mineFix c).adjacent = c.adjacent := by
  rw [mineFix]
  split <;> rfl

theorem mineFix_revealed (c : CellState) :
    (mineFix c).is_revealed = (c.is_revealed || c.is_mine) := by
  rw [mineFix]
  split
  · rename_i hc
    show true = _
    rw [hc]
    simp
  · rename_i hc
    simp at hc
    rw [hc]
    simp

theorem check_win_scalars (b : Board) :
    b.check_win.cols = b.cols ∧ b.check_win.rows = b.rows ∧
    b.check_win.num_mines = b.num_mines ∧
    b.check_win.mines_placed = b.mines_placed ∧
    b.check_win.revealed_count = b.revealed_count ∧
    b.check_win.game_over = b.game_over ∧
    b.check_win.cells.length = b.cells.length := by
  by_cases h : b.winCond
  · rw [check_win_of_pos h]
    refine ⟨rfl, rfl, rfl, rfl, rfl, rfl, ?_⟩
    show (b.cells.map winPassFix).length = b.cells.length
    simp
  · rw [check_win_of_neg h]
    exact ⟨rfl, rfl, rfl, rfl, rfl, rfl, rfl⟩

theorem check_win_win (b : Board) :
    b.check_win.win = (b.win || decide b.winCond) := by
  by_cases h : b.winCond
  · rw [check_win_of_pos h]
    simp [h]
  · rw [check_win_of_neg h]
    simp [h]

theorem getD_map_fix (f : CellState → CellState) (l : List CellState) (j : Nat)
    (hid : f default = default) :
    (l.map f).getD j default = f (l.getD j default) := by
  rcases Nat.lt_or_ge j l.length with hj | hj
  · exact getD_map_lt f l hj
  · rw [getD_map_oob f l hj, getD_oob l hj, hid]

theorem mineFix_default : mineFix default = default := by
  rfl

theorem check_win_cells_getD_lt {b : Board} (h : b.winCond) {j : Nat}
    (hj : j < b.cells.length) :
    b.check_win.cells.getD j default = winPassFix (b.cells.getD j default) := by
  rw [check_win_of_pos h]
  show (b.cells.map winPassFix).getD j default = _
  exact getD_map_lt _ _ hj

theorem check_win_cells_getD_oob {b : Board} {j : Nat} (hj : b.cells.length ≤ j) :
    b.check_win.cells.getD j default = default := by
  refine getD_oob _ ?_
  rw [(check_win_scalars b).2.2.2.2.2.2]
  exact hj

theorem check_win_getD (b : Board) (j : Nat) :
    (b.check_win.cells.getD j default).is_mine = (b.cells.getD j default).is_mine ∧
    (b.check_win.cells.getD j default).is_flagged = (b.cells.getD j default).is_flagged ∧
    (b.check_win.cells.getD j default).adjacent = (b.cells.getD j default).adjacent ∧
    ((b.cells.getD j default).is_revealed = true →
      (b.check_win.cells.getD j default).is_revealed = true) ∧
    ((b.check_win.cells.getD j default).is_revealed = true →
      (b.cells.getD j default).is_revealed = true ∨
        (b.cells.getD j default).is_mine = false) := by
  by_cases h : b.winCond
  · rcases Nat.lt_or_ge j b.cells.length with hj | hj
    · rw [check_win_cells_getD_lt h hj]
      refine ⟨winPassFix_mine _, winPassFix_flag _, winPassFix_adjacent _, ?_, ?_⟩
      · intro h1
        rw [winPassFix_revealed, h1]
        rfl
      · intro h1
        rw [winPassFix_revealed] at h1
        rcases Bool.or_eq_true_iff.mp h1 with h2 | h2
        · exact Or.inl h2
        · right
          rcases hx : (b.cells.getD j default).is_mine with _ | _
          · rfl
          · rw [hx] at h2
            exact absurd h2 (by simp)
    · rw [check_win_cells_getD_oob hj, getD_oob _ hj]
      exact ⟨rfl, rfl, rfl, fun h1 => h1, fun h1 => Or.inl h1⟩
  · rw [check_win_of_neg h]
    exact ⟨rfl, rfl, rfl, fun h1 => h1, fun h1 => Or.inl h1⟩

theorem check_win_all_revealed {b : Board} (h : b.winCond) (j : Nat)
    (hj : j < b.cells.length) :
    (b.check_win.cells.getD j default).is_revealed = true ∨
    (b.check_win.cells.getD j default).is_mine = true := by
  rw [check_win_cells_getD_lt h hj, winPassFix_revealed, winPassFix_mine]
  rcases hm : (b.cells.getD j default).is_mine with _ | _
  · left
    simp
  · right
    rfl

theorem reveal_all_mines_scalars (b : Board) :
    b.reveal_all_mines.cols = b.cols ∧ b.reveal_all_mines.rows = b.rows ∧
    b.reveal_all_mines.num_mines = b.num_mines ∧
    b.reveal_all_mines.mines_placed = b.mines_placed ∧
    b.reveal_all_mines.revealed_count = b.revealed_count ∧
    b.reveal_all_mines.game_over = b.game_over ∧
    b.reveal_all_mines.win = b.win ∧
    b.reveal_all_mines.cells.length = b.cells.length := by
  rw [reveal_all_mines_cells]
  refine ⟨rfl, rfl, rfl, rfl, rfl, rfl, rfl, ?_⟩
  show (b.cells.map mineFix).length = b.cells.length
  simp

theorem reveal_all_mines_getD (b : Board) (j : Nat) :
    (b.reveal_all_mines.cells.getD j default).is_mine
      = (b.cells.getD j default).is_mine ∧
    (b.reveal_all_mines.cells.getD j default).is_flagged
      = (b.cells.getD j default).is_flagged ∧
    (b.reveal_all_mines.cells.getD j default).adjacent
      = (b.cells.getD j default).adjacent ∧
    (b.reveal_all_mines.cells.getD j default).is_revealed
      = ((b.cells.getD j default).is_revealed || (b.cells.getD j default).is_mine) := by
  rw [reveal_all_mines_cells]
  show ((b.cells.map mineFix).getD j default).is_mine = _ ∧ _
  rw [getD_map_fix _ _ _ mineFix_default]
  exact ⟨mineFix_mine _, mineFix_flag _, mineFix_adjacent _, mineFix_revealed _⟩

theorem reveal_all_mines_RNMC (b : Board) :
    b.reveal_all_mines.revealedNonMineCount = b.revealedNonMineCount := by
  refine countP_eq_of_getD _ _ _ (reveal_all_mines_scalars b).2.2.2.2.2.2.2 ?_
  intro j hj
  obtain ⟨h1, -, -, h4⟩ := reveal_all_mines_getD b j
  rw [h1, h4]
  rcases hm : (b.cells.getD j default).is_mine with _ | _ <;> simp [hm]

theorem reveal_all_mines_countMines (b : Board) :
    b.reveal_all_mines.countMines = b.countMines := by
  refine countP_eq_of_getD _ _ _ (reveal_all_mines_scalars b).2.2.2.2.2.2.2 ?_
  intro j hj
  exact (reveal_all_mines_getD b j).1

/-! ### `reveal`: path case lemmas -/

/-- The board after the lazy-placement step at the top of `reveal`. -/
def Board.afterPlace (b : Board) (c r : Int)
    (sh : List (Int × Int) → List (Int × Int)) : Board :=
  if b.mines_placed then b else b.place_mines c r sh

theorem afterPlace_placed {b : Board} {c r : Int} {sh : List (Int × Int) → List (Int × Int)}
    (h : b.mines_placed = true) : b.afterPlace c r sh = b := by
  rw [Board.afterPlace, if_pos h]

theorem afterPlace_unplaced {b : Board} {c r : Int}
    {sh : List (Int × Int) → List (Int × Int)}
    (h : b.mines_placed = false) : b.afterPlace c r sh = b.place_mines c r sh := by
  rw [Board.afterPlace, if_neg (by rw [h]; exact Bool.false_ne_true)]

theorem afterPlace_scalars (b : Board) (c r : Int)
    (sh : List (Int × Int) → List (Int × Int)) :
    (b.afterPlace c r sh).cols = b.cols ∧
    (b.afterPlace c r sh).rows = b.rows ∧
    (b.afterPlace c r sh).num_mines = b.num_mines ∧
    (b.afterPlace c r sh).mines_placed = true ∧
    (b.afterPlace c r sh).revealed_count = b.revealed_count ∧
    (b.afterPlace c r sh).game_over = b.game_over ∧
    (b.afterPlace c r sh).win = b.win ∧
    (b.afterPlace c r sh).cells.length = b.cells.length := by
  rcases h : b.mines_placed with _ | _
  · rw [afterPlace_unplaced h]
    exact place_mines_scalars b c r sh
  · rw [afterPlace_placed h]
    exact ⟨rfl, rfl, rfl, h, rfl, rfl, rfl, rfl⟩

theorem afterPlace_getD_revealed (b : Board) (c r : Int)
    (sh : List (Int × Int) → List (Int × Int)) (j : Nat) :
    ((b.afterPlace c r sh).cells.getD j default).is_revealed
      = (b.cells.getD j default).is_revealed := by
  rcases h : b.mines_placed with _ | _
  · rw [afterPlace_unplaced h]
    exact place_mines_getD_revealed b c r sh j
  · rw [afterPlace_placed h]

theorem afterPlace_getD_flagged (b : Board) (c r : Int)
    (sh : List (Int × Int) → List (Int × Int)) (j : Nat) :
    ((b.afterPlace c r sh).cells.getD j default).is_flagged
      = (b.cells.getD j default).is_flagged := by
  rcases h : b.mines_placed with _ | _
  · rw [afterPlace_unplaced h]
    exact place_mines_getD_flagged b c r sh j
  · rw [afterPlace_placed h]

theorem reveal_of_oob {b : Board} {c r : Int}
    (sh : List (Int × Int) → List (Int × Int)) (h : b.is_inbounds c r = false) :
    b.reveal c r sh = b := by
  rw [Board.reveal, if_neg (by rw [h]; exact Bool.false_ne_true)]

theorem reveal_of_game_over {b : Board} {c r : Int}
    (sh : List (Int × Int) → List (Int × Int)) (h : b.game_over = true) :
    b.reveal c r sh = b := by
  rw [Board.reveal]
  by_cases hin : b.is_inbounds c r = true
  · rw [if_pos hin, if_pos h]
  · rw [if_neg hin]

theorem reveal_eq_body {b : Board} {c r : Int}
    {sh : List (Int × Int) → List (Int × Int)}
    (hin : b.is_inbounds c r = true) (hgo : b.game_over = false) :
    b.reveal c r sh =
      (if ((b.afterPlace c r sh).cellAt c r).is_flagged then b.afterPlace c r sh
       else if ((b.afterPlace c r sh).cellAt c r).is_mine then
         ({ (b.afterPlace c r sh).setCell c r
             { (b.afterPlace c r sh).cellAt c r with is_revealed := true } with
            game_over := true }).reveal_all_mines
       else ((b.afterPlace c r sh).floodLoop (b.afterPlace c r sh).floodFuel
         [(c, r)]).check_win) := by
  rw [Board.reveal, if_pos hin,
    if_neg (show ¬(b.game_over = true) by rw [hgo]; exact Bool.false_ne_true)]
  rfl

theorem reveal_of_flagged {b : Board} {c r : Int}
    {sh : List (Int × Int) → List (Int × Int)}
    (hin : b.is_inbounds c r = true) (hgo : b.game_over = false)
    (hf : ((b.afterPlace c r sh).cellAt c r).is_flagged = true) :
    b.reveal c r sh = b.afterPlace c r sh := by
  rw [reveal_eq_body hin hgo, if_pos hf]

theorem reveal_of_mine {b : Board} {c r : Int}
    {sh : List (Int × Int) → List (Int × Int)}
    (hin : b.is_inbounds c r = true) (hgo : b.game_over = false)
    (hf : ((b.afterPlace c r sh).cellAt c r).is_flagged = false)
    (hm : ((b.afterPlace c r sh).cellAt c r).is_mine = true) :
    b.reveal c r sh =
      ({ (b.afterPlace c r sh).setCell c r
          { (b.afterPlace c r sh).cellAt c r with is_revealed := true } with
         game_over := true }).reveal_all_mines := by
  rw [reveal_eq_body hin hgo, if_neg (by rw [hf]; exact Bool.false_ne_true), if_pos hm]

theorem reveal_of_safe {b : Board} {c r : Int}
    {sh : List (Int × Int) → List (Int × Int)}
    (hin : b.is_inbounds c r = true) (hgo : b.game_over = false)
    (hf : ((b.afterPlace c r sh).cellAt c r).is_flagged = false)
    (hm : ((b.afterPlace c r sh).cellAt c r).is_mine = false) :
    b.reveal c r sh =
      ((b.afterPlace c r sh).floodLoop (b.afterPlace c r sh).floodFuel
        [(c, r)]).check_win := by
  rw [reveal_eq_body hin hgo, if_neg (by rw [hf]; exact Bool.false_ne_true),
    if_neg (by rw [hm]; exact Bool.false_ne_true)]

/-! ### What every operation preserves -/

/-- Facts relating a board to the result of applying any one engine
operation to it: the grid shape never changes, the one-shot latch and
the two terminal flags are monotone, a game-over board is frozen,
`revealed_count` never decreases, mines and adjacency are frozen once
placed, and revealing is monotone. -/
def OpFrame (b b' : Board) : Prop :=
  b'.cols = b.cols ∧ b'.rows = b.rows ∧ b'.num_mines = b.num_mines ∧
  b'.cells.length = b.cells.length ∧
  (b.mines_placed = true → b'.mines_placed = true) ∧
  (b.game_over = true → b'.game_over = true) ∧
  (b.win = true → b'.win = true) ∧
  (b.game_over = true → b' = b) ∧
  b.revealed_count ≤ b'.revealed_count ∧
  (b.mines_placed = true → ∀ j : Nat,
     (b'.cells.getD j default).is_mine = (b.cells.getD j default).is_mine ∧
     (b'.cells.getD j default).adjacent = (b.cells.getD j default).adjacent) ∧
  (∀ j : Nat, (b.cells.getD j default).is_revealed = true →
     (b'.cells.getD j default).is_revealed = true)

theorem opFrame_refl (b : Board) : OpFrame b b :=
  ⟨rfl, rfl, rfl, rfl, fun h => h, fun h => h, fun h => h, fun _ => rfl, le_refl _,
    fun _ j => ⟨rfl, rfl⟩, fun j h => h⟩

theorem opFrame_trans {a b c : Board} (h1 : OpFrame a b) (h2 : OpFrame b c) :
    OpFrame a c := by
  obtain ⟨c1, r1, n1, l1, p1, g1, w1, f1, le1, ma1, rv1⟩ := h1
  obtain ⟨c2, r2, n2, l2, p2, g2, w2, f2, le2, ma2, rv2⟩ := h2
  refine ⟨c2.trans c1, r2.trans r1, n2.trans n1, l2.trans l1,
    fun h => p2 (p1 h), fun h => g2 (g1 h), fun h => w2 (w1 h), ?_,
    le1.trans le2, ?_, fun j h => rv2 j (rv1 j h)⟩
  · intro h
    have hb : b = a := f1 h
    have : c = b := f2 (by rw [hb]; exact h)
    rw [this, hb]
  · intro h j
    obtain ⟨m1, a1⟩ := ma1 h j
    obtain ⟨m2, a2⟩ := ma2 (p1 h) j
    exact ⟨m2.trans m1, a2.trans a1⟩

theorem opFrame_wf {b b' : Board} (h : OpFrame b b') (hWF : b.WF) : b'.WF := by
  rw [Board.WF, h.1, h.2.1, h.2.2.2.1]
  exact hWF

/-- `OpFrame` without the frozen-when-game-over clause (the flood loop
itself does not test `game_over`; freezing is enforced by `reveal`'s
early return). -/
def OpFrameNF (b b' : Board) : Prop :=
  b'.cols = b.cols ∧ b'.rows = b.rows ∧ b'.num_mines = b.num_mines ∧
  b'.cells.length = b.cells.length ∧
  (b.mines_placed = true → b'.mines_placed = true) ∧
  (b.game_over = true → b'.game_over = true) ∧
  (b.win = true → b'.win = true) ∧
  b.revealed_count ≤ b'.revealed_count ∧
  (b.mines_placed = true → ∀ j : Nat,
     (b'.cells.getD j default).is_mine = (b.cells.getD j default).is_mine ∧
     (b'.cells.getD j default).adjacent = (b.cells.getD j default).adjacent) ∧
  (∀ j : Nat, (b.cells.getD j default).is_revealed = true →
     (b'.cells.getD j default).is_revealed = true)

theorem opFrameNF_refl (b : Board) : OpFrameNF b b :=
  ⟨rfl, rfl, rfl, rfl, fun h => h, fun h => h, fun h => h, le_refl _,
    fun _ _ => ⟨rfl, rfl⟩, fun _ h => h⟩

theorem opFrameNF_trans {a b c : Board} (h1 : OpFrameNF a b) (h2 : OpFrameNF b c) :
    OpFrameNF a c := by
  obtain ⟨c1, r1, n1, l1, p1, g1, w1, le1, ma1, rv1⟩ := h1
  obtain ⟨c2, r2, n2, l2, p2, g2, w2, le2, ma2, rv2⟩ := h2
  refine ⟨c2.trans c1, r2.trans r1, n2.trans n1, l2.trans l1,
    fun h => p2 (p1 h), fun h => g2 (g1 h), fun h => w2 (w1 h),
    le1.trans le2, ?_, fun j h => rv2 j (rv1 j h)⟩
  intro h j
  obtain ⟨m1, a1⟩ := ma1 h j
  obtain ⟨m2, a2⟩ := ma2 (p1 h) j
  exact ⟨m2.trans m1, a2.trans a1⟩

theorem opFrameNF_wf {b b' : Board} (h : OpFrameNF b b') (hWF : b.WF) : b'.WF := by
  rw [Board.WF, h.1, h.2.1, h.2.2.2.1]
  exact hWF

theorem opFrame_of_nf {b b' : Board} (h : OpFrameNF b b')
    (hf : b.game_over = true → b' = b) : OpFrame b b' :=
  ⟨h.1, h.2.1, h.2.2.1, h.2.2.2.1, h.2.2.2.2.1, h.2.2.2.2.2.1, h.2.2.2.2.2.2.1, hf,
    h.2.2.2.2.2.2.2.1, h.2.2.2.2.2.2.2.2.1, h.2.2.2.2.2.2.2.2.2⟩

theorem opFrame_nf {b b' : Board} (h : OpFrame b b') : OpFrameNF b b' :=
  ⟨h.1, h.2.1, h.2.2.1, h.2.2.2.1, h.2.2.2.2.1, h.2.2.2.2.2.1, h.2.2.2.2.2.2.1,
    h.2.2.2.2.2.2.2.2.1, h.2.2.2.2.2.2.2.2.2.1, h.2.2.2.2.2.2.2.2.2.2⟩

theorem floodFrame_opFrameNF {b b' : Board} (h : FloodFrame b b') : OpFrameNF b b' := by
  obtain ⟨c1, r1, n1, m1, g1, w1, l1, le1, cnt1, pt1⟩ := h
  exact ⟨c1, r1, n1, l1, fun hh => by rw [m1]; exact hh,
    fun hh => by rw [g1]; exact hh, fun hh => by rw [w1]; exact hh, le1,
    fun _ j => ⟨(pt1 j).1, (pt1 j).2.2.1⟩, fun j hh => (pt1 j).2.2.2.1 hh⟩

theorem afterPlace_opFrameNF (b : Board) (c r : Int)
    (sh : List (Int × Int) → List (Int × Int)) :
    OpFrameNF b (b.afterPlace c r sh) := by
  obtain ⟨h1, h2, h3, h4, h5, h6, h7, h8⟩ := afterPlace_scalars b c r sh
  refine ⟨h1, h2, h3, h8, fun _ => h4, fun h => by rw [h6]; exact h,
    fun h => by rw [h7]; exact h, le_of_eq h5.symm, ?_,
    fun j h => by rw [afterPlace_getD_revealed]; exact h⟩
  intro hpl j
  rw [afterPlace_placed hpl]
  exact ⟨rfl, rfl⟩

theorem minePath_opFrameNF (bp : Board) (c r : Int) :
    OpFrameNF bp
      ({ bp.setCell c r { bp.cellAt c r with is_revealed := true } with
         game_over := true }).reveal_all_mines := by
  set M : Board := { bp.setCell c r { bp.cellAt c r with is_revealed := true } with
    game_over := true } with hM
  have hMcells : M.cells
      = bp.cells.set (bp.index c r) { bp.cellAt c r with is_revealed := true } := rfl
  have hsc := reveal_all_mines_scalars M
  have hMlen : M.cells.length = bp.cells.length := by
    rw [hMcells]
    exact List.length_set _ _ _
  refine ⟨hsc.1, hsc.2.1, hsc.2.2.1, by rw [hsc.2.2.2.2.2.2.2, hMlen],
    fun h => by rw [hsc.2.2.2.1]; exact h,
    fun _ => by rw [hsc.2.2.2.2.2.1],
    fun h => by rw [hsc.2.2.2.2.2.2.1]; exact h,
    le_of_eq (by rw [hsc.2.2.2.2.1]; rfl), ?_, ?_⟩
  · intro _ j
    obtain ⟨hm, -, ha, -⟩ := reveal_all_mines_getD M j
    constructor
    · rw [hm]
      show ((bp.cells.set (bp.index c r)
        { bp.cellAt c r with is_revealed := true }).getD j default).is_mine = _
      exact setCell_getD_field (s := { bp.cellAt c r with is_revealed := true })
        (fun x => x.is_mine) rfl j
    · rw [ha]
      show ((bp.cells.set (bp.index c r)
        { bp.cellAt c r with is_revealed := true }).getD j default).adjacent = _
      exact setCell_getD_field (s := { bp.cellAt c r with is_revealed := true })
        (fun x => x.adjacent) rfl j
  · intro j h
    obtain ⟨-, -, -, h4⟩ := reveal_all_mines_getD M j
    rw [h4]
    have : (M.cells.getD j default).is_revealed = true := by
      rw [hMcells]
      by_cases hj : bp.index c r = j
      · subst hj
        rcases Nat.lt_or_ge (bp.index c r) bp.cells.length with hlt | hge
        · rw [getD_set_self _ _ hlt]
        · rw [List.set_eq_of_length_le hge]
          exact h
      · rw [getD_set_ne _ _ hj]
        exact h
    rw [this]
    rfl

theorem check_win_opFrameNF (b : Board) : OpFrameNF b b.check_win := by
  obtain ⟨h1, h2, h3, h4, h5, h6, h7⟩ := check_win_scalars b
  refine ⟨h1, h2, h3, h7, fun h => by rw [h4]; exact h,
    fun h => by rw [h6]; exact h,
    fun h => by rw [check_win_win, h]; rfl,
    le_of_eq h5.symm, ?_, ?_⟩
  · intro _ j
    obtain ⟨hm, -, ha, -, -⟩ := check_win_getD b j
    exact ⟨hm, ha⟩
  · intro j h
    exact (check_win_getD b j).2.2.2.1 h

theorem reveal_opFrame {b : Board} (c r : Int)
    (sh : List (Int × Int) → List (Int × Int)) (hWF : b.WF) :
    OpFrame b (b.reveal c r sh) := by
  rcases hin : b.is_inbounds c r with _ | _
  · rw [reveal_of_oob sh hin]
    exact opFrame_refl b
  · rcases hgo : b.game_over with _ | _
    case true =>
      rw [reveal_of_game_over sh hgo]
      exact opFrame_refl b
    case false =>
      refine opFrame_of_nf ?_ ?_
      swap
      · intro h
        rw [hgo] at h
        exact absurd h Bool.false_ne_true
      have hbp := afterPlace_opFrameNF b c r sh
      have hbpWF : (b.afterPlace c r sh).WF := opFrameNF_wf hbp hWF
      by_cases hf : ((b.afterPlace c r sh).cellAt c r).is_flagged = true
      · rw [reveal_of_flagged hin hgo hf]
        exact hbp
      · have hf' : ((b.afterPlace c r sh).cellAt c r).is_flagged = false := by
          rcases hx : ((b.afterPlace c r sh).cellAt c r).is_flagged with _ | _
          · rfl
          · exact absurd hx hf
        by_cases hm : ((b.afterPlace c r sh).cellAt c r).is_mine = true
        · rw [reveal_of_mine hin hgo hf' hm]
          exact opFrameNF_trans hbp (minePath_opFrameNF _ c r)
        · have hm' : ((b.afterPlace c r sh).cellAt c r).is_mine = false := by
            rcases hx : ((b.afterPlace c r sh).cellAt c r).is_mine with _ | _
            · rfl
            · exact absurd hx hm
          rw [reveal_of_safe hin hgo hf' hm']
          refine opFrameNF_trans hbp (opFrameNF_trans ?_ (check_win_opFrameNF _))
          exact floodFrame_opFrameNF
            (floodLoop_frame (b.afterPlace c r sh).floodFuel [(c, r)] hbpWF)

/-! ### `toggle_flag`: path lemmas and frame -/

theorem toggle_of_oob {b : Board} {c r : Int} (h : b.is_inbounds c r = false) :
    b.toggle_flag c r = b := by
  rw [Board.toggle_flag, if_neg (by rw [h]; exact Bool.false_ne_true)]

theorem toggle_of_game_over {b : Board} {c r : Int} (h : b.game_over = true) :
    b.toggle_flag c r = b := by
  rw [Board.toggle_flag]
  by_cases hin : b.is_inbounds c r = true
  · rw [if_pos hin, if_pos h]
  · rw [if_neg hin]

theorem toggle_of_revealed {b : Board} {c r : Int} (hin : b.is_inbounds c r = true)
    (hgo : b.game_over = false) (h : (b.cellAt c r).is_revealed = true) :
    b.toggle_flag c r = b := by
  rw [Board.toggle_flag, if_pos hin,
    if_neg (show ¬(b.game_over = true) by rw [hgo]; exact Bool.false_ne_true), if_pos h]

theorem toggle_of_unrevealed {b : Board} {c r : Int} (hin : b.is_inbounds c r = true)
    (hgo : b.game_over = false) (h : (b.cellAt c r).is_revealed = false) :
    b.toggle_flag c r
      = b.setCell c r { b.cellAt c r with is_flagged := !(b.cellAt c r).is_flagged } := by
  rw [Board.toggle_flag, if_pos hin,
    if_neg (show ¬(b.game_over = true) by rw [hgo]; exact Bool.false_ne_true),
    if_neg (by rw [h]; exact Bool.false_ne_true)]

theorem toggle_opFrame (b : Board) (c r : Int) : OpFrame b (b.toggle_flag c r) := by
  rcases hin : b.is_inbounds c r with _ | _
  · rw [toggle_of_oob hin]
    exact opFrame_refl b
  · rcases hgo : b.game_over with _ | _
    case true =>
      rw [toggle_of_game_over hgo]
      exact opFrame_refl b
    case false =>
      rcases hrev : (b.cellAt c r).is_revealed with _ | _
      case true =>
        rw [toggle_of_revealed hin hgo hrev]
        exact opFrame_refl b
      case false =>
        rw [toggle_of_unrevealed hin hgo hrev]
        refine opFrame_of_nf ?_ ?_
        · refine ⟨rfl, rfl, rfl, setCell_length b c r _, fun h => h, fun h => h,
            fun h => h, le_refl _, ?_, ?_⟩
          · intro _ j
            exact ⟨setCell_getD_field
                (s := { b.cellAt c r with is_flagged := !(b.cellAt c r).is_flagged })
                (fun x => x.is_mine) rfl j,
              setCell_getD_field
                (s := { b.cellAt c r with is_flagged := !(b.cellAt c r).is_flagged })
                (fun x => x.adjacent) rfl j⟩
          · intro j h
            rw [setCell_getD_field
              (s := { b.cellAt c r with is_flagged := !(b.cellAt c r).is_flagged })
              (fun x => x.is_revealed) rfl j]
            exact h
        · intro h
          rw [hgo] at h
          exact absurd h Bool.false_ne_true

/-! ### `auto_reveal`: path lemmas and frame -/

/-- The flagged-neighbor count computed by `auto_reveal`. -/
def Board.flagCount (b : Board) (c r : Int) : Nat :=
  ((b.neighbors c r).filter (fun q => (b.cellAt q.1 q.2).is_flagged)).length

/-- One step of the chord-opening loop of `auto_reveal`. -/
def Board.chordStep (sh : List (Int × Int) → List (Int × Int))
    (bb : Board) (q : Int × Int) : Board :=
  let target := bb.cellAt q.1 q.2
  if !target.is_flagged && !target.is_revealed then bb.reveal q.1 q.2 sh else bb

theorem auto_reveal_of_oob {b : Board} {c r : Int}
    (sh : List (Int × Int) → List (Int × Int)) (h : b.is_inbounds c r = false) :
    b.auto_reveal c r sh = b := by
  rw [Board.auto_reveal, if_neg (by rw [h]; exact Bool.false_ne_true)]

theorem auto_reveal_of_guard {b : Board} {c r : Int}
    (sh : List (Int × Int) → List (Int × Int)) (hin : b.is_inbounds c r = true)
    (h : (!(b.cellAt c r).is_revealed || (b.cellAt c r).adjacent == 0) = true) :
    b.auto_reveal c r sh = b := by
  rw [Board.auto_reveal, if_pos hin]
  show (if (!(b.cellAt c r).is_revealed || (b.cellAt c r).adjacent == 0) = true
      then b else _) = b
  rw [if_pos h]

theorem auto_reveal_of_count_ne {b : Board} {c r : Int}
    (sh : List (Int × Int) → List (Int × Int)) (hin : b.is_inbounds c r = true)
    (h : (!(b.cellAt c r).is_revealed || (b.cellAt c r).adjacent == 0) = false)
    (hne : b.flagCount c r ≠ (b.cellAt c r).adjacent) :
    b.auto_reveal c r sh = b := by
  rw [Board.auto_reveal, if_pos hin]
  show (if (!(b.cellAt c r).is_revealed || (b.cellAt c r).adjacent == 0) = true
      then b
      else if ((b.neighbors c r).filter
          (fun q => (b.cellAt q.1 q.2).is_flagged)).length = (b.cellAt c r).adjacent
        then _ else b) = b
  have hne' : ((b.neighbors c r).filter
      (fun q => (b.cellAt q.1 q.2).is_flagged)).length ≠ (b.cellAt c r).adjacent := hne
  rw [if_neg (by rw [h]; exact Bool.false_ne_true), if_neg hne']

theorem auto_reveal_of_fire {b : Board} {c r : Int}
    (sh : List (Int × Int) → List (Int × Int)) (hin : b.is_inbounds c r = true)
    (h : (!(b.cellAt c r).is_revealed || (b.cellAt c r).adjacent == 0) = false)
    (heq : b.flagCount c r = (b.cellAt c r).adjacent) :
    b.auto_reveal c r sh = (b.neighbors c r).foldl (Board.chordStep sh) b := by
  rw [Board.auto_reveal, if_pos hin]
  show (if (!(b.cellAt c r).is_revealed || (b.cellAt c r).adjacent == 0) = true
      then b
      else if ((b.neighbors c r).filter
          (fun q => (b.cellAt q.1 q.2).is_flagged)).length = (b.cellAt c r).adjacent
        then (b.neighbors c r).foldl
          (fun bb q =>
            let target := bb.cellAt q.1 q.2
            if !target.is_flagged && !target.is_revealed then bb.reveal q.1 q.2 sh
            else bb) b
        else b) = (b.neighbors c r).foldl (Board.chordStep sh) b
  have heq' : ((b.neighbors c r).filter
      (fun q => (b.cellAt q.1 q.2).is_flagged)).length = (b.cellAt c r).adjacent := heq
  rw [if_neg (by rw [h]; exact Bool.false_ne_true), if_pos heq']
  rfl

theorem chord_fold_of_game_over {sh : List (Int × Int) → List (Int × Int)} :
    ∀ (L : List (Int × Int)) {bb : Board}, bb.game_over = true →
      L.foldl (Board.chordStep sh) bb = bb := by
  intro L
  induction L with
  | nil =>
    intro bb _
    rfl
  | cons q t ih =>
    intro bb hgo
    have hstep : Board.chordStep sh bb q = bb := by
      rw [Board.chordStep]
      show (if _ then bb.reveal q.1 q.2 sh else bb) = bb
      split
      · exact reveal_of_game_over sh hgo
      · rfl
    rw [List.foldl_cons, hstep, ih hgo]

theorem chord_fold_opFrame {sh : List (Int × Int) → List (Int × Int)}
    (L : List (Int × Int)) {bb : Board} (hWF : bb.WF) :
    OpFrame bb (L.foldl (Board.chordStep sh) bb) := by
  have h := foldl_rel (Board.chordStep sh)
    (fun x y => x.WF → (OpFrame x y ∧ y.WF)) L bb
    (fun x y z hxy hyz hx => by
      obtain ⟨h1, h2⟩ := hxy hx
      obtain ⟨h3, h4⟩ := hyz h2
      exact ⟨opFrame_trans h1 h3, h4⟩)
    (fun x hx => ⟨opFrame_refl x, hx⟩)
    (fun x q _ hx => by
      constructor
      · rw [Board.chordStep]
        show OpFrame x (if _ then x.reveal q.1 q.2 sh else x)
        split
        · exact reveal_opFrame q.1 q.2 sh hx
        · exact opFrame_refl x
      · have : OpFrame x (Board.chordStep sh x q) := by
          rw [Board.chordStep]
          show OpFrame x (if _ then x.reveal q.1 q.2 sh else x)
          split
          · exact reveal_opFrame q.1 q.2 sh hx
          · exact opFrame_refl x
        exact opFrame_wf this hx)
  exact (h hWF).1

theorem auto_reveal_opFrame {b : Board} (c r : Int)
    (sh : List (Int × Int) → List (Int × Int)) (hWF : b.WF) :
    OpFrame b (b.auto_reveal c r sh) := by
  rcases hin : b.is_inbounds c r with _ | _
  · rw [auto_reveal_of_oob sh hin]
    exact opFrame_refl b
  · rcases hg : (!(b.cellAt c r).is_revealed || (b.cellAt c r).adjacent == 0) with _ | _
    case true =>
      rw [auto_reveal_of_guard sh hin hg]
      exact opFrame_refl b
    case false =>
      by_cases hc : b.flagCount c r = (b.cellAt c r).adjacent
      · rw [auto_reveal_of_fire sh hin hg hc]
        exact chord_fold_opFrame _ hWF
      · rw [auto_reveal_of_count_ne sh hin hg hc]
        exact opFrame_refl b

theorem step_opFrame {b : Board} (op : Op) (hWF : b.WF) : OpFrame b (b.step op) := by
  match op with
  | Op.reveal c r sh => exact reveal_opFrame c r sh hWF
  | Op.toggle_flag c r => exact toggle_opFrame b c r
  | Op.auto_reveal c r sh => exact auto_reveal_opFrame c r sh hWF
  | Op.get_safe_cell _ => exact opFrame_refl b

theorem runOps_opFrame {b : Board} (ops : List Op) (hWF : b.WF) :
    OpFrame b (b.runOps ops) := by
  have h := foldl_rel Board.step (fun x y => x.WF → (OpFrame x y ∧ y.WF)) ops b
    (fun x y z hxy hyz hx => by
      obtain ⟨h1, h2⟩ := hxy hx
      obtain ⟨h3, h4⟩ := hyz h2
      exact ⟨opFrame_trans h1 h3, h4⟩)
    (fun x hx => ⟨opFrame_refl x, hx⟩)
    (fun x op _ hx => ⟨step_opFrame op hx, opFrame_wf (step_opFrame op hx) hx⟩)
  exact (h hWF).1

/-! ### Flags are only ever touched by `toggle_flag` -/

theorem reveal_getD_flagged {b : Board} (c r : Int)
    (sh : List (Int × Int) → List (Int × Int)) (hWF : b.WF) (j : Nat) :
    ((b.reveal c r sh).cells.getD j default).is_flagged
      = (b.cells.getD j default).is_flagged := by
  rcases hin : b.is_inbounds c r with _ | _
  · rw [reveal_of_oob sh hin]
  · rcases hgo : b.game_over with _ | _
    case true =>
      rw [reveal_of_game_over sh hgo]
    case false =>
      have hbp := afterPlace_getD_flagged b c r sh j
      have hbpWF : (b.afterPlace c r sh).WF :=
        opFrameNF_wf (afterPlace_opFrameNF b c r sh) hWF
      by_cases hf : ((b.afterPlace c r sh).cellAt c r).is_flagged = true
      · rw [reveal_of_flagged hin hgo hf]
        exact hbp
      · have hf' : ((b.afterPlace c r sh).cellAt c r).is_flagged = false := by
          rcases hx : ((b.afterPlace c r sh).cellAt c r).is_flagged with _ | _
          · rfl
          · exact absurd hx hf
        by_cases hm : ((b.afterPlace c r sh).cellAt c r).is_mine = true
        · rw [reveal_of_mine hin hgo hf' hm]
          set bp := b.afterPlace c r sh with hbpdef
          set M : Board := { bp.setCell c r { bp.cellAt c r with is_revealed := true } with
            game_over := true } with hM
          have h1 : (M.reveal_all_mines.cells.getD j default).is_flagged
              = (M.cells.getD j default).is_flagged := (reveal_all_mines_getD M j).2.1
          have h2 : (M.cells.getD j default).is_flagged
              = (bp.cells.getD j default).is_flagged := by
            show ((bp.cells.set (bp.index c r)
              { bp.cellAt c r with is_revealed := true }).getD j default).is_flagged = _
            exact setCell_getD_field (s := { bp.cellAt c r with is_revealed := true })
              (fun x => x.is_flagged) rfl j
          rw [h1, h2, hbp]
        · have hm' : ((b.afterPlace c r sh).cellAt c r).is_mine = false := by
            rcases hx : ((b.afterPlace c r sh).cellAt c r).is_mine with _ | _
            · rfl
            · exact absurd hx hm
          rw [reveal_of_safe hin hgo hf' hm']
          set bp := b.afterPlace c r sh with hbpdef
          set bf := bp.floodLoop bp.floodFuel [(c, r)] with hbf
          have h1 : (bf.check_win.cells.getD j default).is_flagged
              = (bf.cells.getD j default).is_flagged := (check_win_getD bf j).2.1
          have h2 : (bf.cells.getD j default).is_flagged
              = (bp.cells.getD j default).is_flagged :=
            ((floodLoop_frame bp.floodFuel [(c, r)] hbpWF).2.2.2.2.2.2.2.2.2 j).2.1
          rw [h1, h2, hbp]

theorem chord_fold_getD_flagged {sh : List (Int × Int) → List (Int × Int)}
    (L : List (Int × Int)) {bb : Board} (hWF : bb.WF) (j : Nat) :
    (((L.foldl (Board.chordStep sh) bb).cells.getD j default)).is_flagged
      = ((bb.cells.getD j default)).is_flagged := by
  have h := foldl_rel (Board.chordStep sh)
    (fun x y => x.WF →
      (((y.cells.getD j default).is_flagged = (x.cells.getD j default).is_flagged) ∧ y.WF))
    L bb
    (fun x y z hxy hyz hx => by
      obtain ⟨h1, h2⟩ := hxy hx
      obtain ⟨h3, h4⟩ := hyz h2
      exact ⟨h3.trans h1, h4⟩)
    (fun x hx => ⟨rfl, hx⟩)
    (fun x q _ hx => by
      have hfr : OpFrame x (Board.chordStep sh x q) := by
        rw [Board.chordStep]
        show OpFrame x (if _ then x.reveal q.1 q.2 sh else x)
        split
        · exact reveal_opFrame q.1 q.2 sh hx
        · exact opFrame_refl x
      refine ⟨?_, opFrame_wf hfr hx⟩
      rw [Board.chordStep]
      show ((if _ then x.reveal q.1 q.2 sh else x).cells.getD j default).is_flagged = _
      split
      · exact reveal_getD_flagged q.1 q.2 sh hx j
      · rfl)
  exact (h hWF).1

theorem auto_reveal_getD_flagged {b : Board} (c r : Int)
    (sh : List (Int × Int) → List (Int × Int)) (hWF : b.WF) (j : Nat) :
    ((b.auto_reveal c r sh).cells.getD j default).is_flagged
      = (b.cells.getD j default).is_flagged := by
  rcases hin : b.is_inbounds c r with _ | _
  · rw [auto_reveal_of_oob sh hin]
  · rcases hg : (!(b.cellAt c r).is_revealed || (b.cellAt c r).adjacent == 0) with _ | _
    case true =>
      rw [auto_reveal_of_guard sh hin hg]
    case false =>
      by_cases hc : b.flagCount c r = (b.cellAt c r).adjacent
      · rw [auto_reveal_of_fire sh hin hg hc]
        exact chord_fold_getD_flagged _ hWF j
      · rw [auto_reveal_of_count_ne sh hin hg hc]

theorem toggle_scalars (b : Board) (c r : Int) :
    (b.toggle_flag c r).cols = b.cols ∧ (b.toggle_flag c r).rows = b.rows ∧
    (b.toggle_flag c r).num_mines = b.num_mines ∧
    (b.toggle_flag c r).mines_placed = b.mines_placed ∧
    (b.toggle_flag c r).revealed_count = b.revealed_count ∧
    (b.toggle_flag c r).game_over = b.game_over ∧
    (b.toggle_flag c r).win = b.win ∧
    (b.toggle_flag c r).cells.length = b.cells.length := by
  rcases hin : b.is_inbounds c r with _ | _
  · rw [toggle_of_oob hin]
    exact ⟨rfl, rfl, rfl, rfl, rfl, rfl, rfl, rfl⟩
  · rcases hgo : b.game_over with _ | _
    case true =>
      rw [toggle_of_game_over hgo]
      exact ⟨rfl, rfl, rfl, rfl, rfl, hgo, rfl, rfl⟩
    case false =>
      rcases hrev : (b.cellAt c r).is_revealed with _ | _
      case true =>
        rw [toggle_of_revealed hin hgo hrev]
        exact ⟨rfl, rfl, rfl, rfl, rfl, hgo, rfl, rfl⟩
      case false =>
        rw [toggle_of_unrevealed hin hgo hrev]
        exact ⟨rfl, rfl, rfl, rfl, rfl, hgo, rfl, setCell_length b c r _⟩

theorem toggle_getD_other_fields (b : Board) (c r : Int) (j : Nat) :
    ((b.toggle_flag c r).cells.getD j default).is_mine
      = (b.cells.getD j default).is_mine ∧
    ((b.toggle_flag c r).cells.getD j default).is_revealed
      = (b.cells.getD j default).is_revealed ∧
    ((b.toggle_flag c r).cells.getD j default).adjacent
      = (b.cells.getD j default).adjacent := by
  rcases hin : b.is_inbounds c r with _ | _
  · rw [toggle_of_oob hin]
    exact ⟨rfl, rfl, rfl⟩
  · rcases hgo : b.game_over with _ | _
    case true =>
      rw [toggle_of_game_over hgo]
      exact ⟨rfl, rfl, rfl⟩
    case false =>
      rcases hrev : (b.cellAt c r).is_revealed with _ | _
      case true =>
        rw [toggle_of_revealed hin hgo hrev]
        exact ⟨rfl, rfl, rfl⟩
      case false =>
        rw [toggle_of_unrevealed hin hgo hrev]
        exact ⟨setCell_getD_field
            (s := { b.cellAt c r with is_flagged := !(b.cellAt c r).is_flagged })
            (fun x => x.is_mine) rfl j,
          setCell_getD_field
            (s := { b.cellAt c r with is_flagged := !(b.cellAt c r).is_flagged })
            (fun x => x.is_revealed) rfl j,
          setCell_getD_field
            (s := { b.cellAt c r with is_flagged := !(b.cellAt c r).is_flagged })
            (fun x => x.adjacent) rfl j⟩

theorem toggle_getD_flag_other (b : Board) (c r : Int) (j : Nat)
    (hj : j ≠ b.index c r) :
    ((b.toggle_flag c r).cells.getD j default).is_flagged
      = (b.cells.getD j default).is_flagged := by
  rcases hin : b.is_inbounds c r with _ | _
  · rw [toggle_of_oob hin]
  · rcases hgo : b.game_over with _ | _
    case true =>
      rw [toggle_of_game_over hgo]
    case false =>
      rcases hrev : (b.cellAt c r).is_revealed with _ | _
      case true =>
        rw [toggle_of_revealed hin hgo hrev]
      case false =>
        rw [toggle_of_unrevealed hin hgo hrev]
        show ((b.cells.set (b.index c r) _).getD j default).is_flagged = _
        rw [getD_set_ne _ _ (fun h => hj h.symm)]

/-! ### The `revealed_count` bookkeeping invariant -/

/-- The invariant that holds for every board reachable from a fresh board
through correctly supplied randomness, provided the grid is large enough
for the requested mines to be placed in full: the cell list has the
declared size, `revealed_count` agrees with the number of revealed
non-mine cells, no mines or revealed cells exist before placement, and
exactly `num_mines` mines exist after placement. -/
def Board.Inv (b : Board) : Prop :=
  b.WF ∧
  b.revealed_count = b.revealedNonMineCount ∧
  (b.mines_placed = false → b.countMines = 0 ∧
    ∀ j, j < b.cells.length → (b.cells.getD j default).is_revealed = false) ∧
  (b.mines_placed = true → b.countMines = b.num_mines)

theorem bool_true_ne_false : (true : Bool) ≠ false :=
  fun h => Bool.false_ne_true h.symm

instance (b : Board) : Decidable b.Inv := by
  rw [Board.Inv, Board.WF]
  infer_instance

/-- Randomness supplied to an operation is a genuine shuffle. -/
def Op.lawful : Op → Prop
  | Op.reveal _ _ sh => ∀ l : List (Int × Int), (sh l).Perm l
  | Op.auto_reveal _ _ sh => ∀ l : List (Int × Int), (sh l).Perm l
  | Op.toggle_flag _ _ => True
  | Op.get_safe_cell _ => True

theorem countP_zero_of_getD {p : CellState → Bool} {l : List CellState}
    (h : ∀ j, j < l.length → p (l.getD j default) = false) : l.countP p = 0 := by
  rw [List.countP_eq_zero]
  intro a ha
  obtain ⟨i, hi, rfl⟩ := List.mem_iff_getElem.mp ha
  have := h i hi
  rw [List.getD_eq_getElem l default hi] at this
  simp [this]

theorem place_mines_inv {b : Board} {sc sr : Int}
    {sh : List (Int × Int) → List (Int × Int)}
    (hsize : b.num_mines + 9 ≤ b.cols * b.rows)
    (hsh : (sh (b.pool sc sr)).Perm (b.pool sc sr))
    (hseed : b.is_inbounds sc sr = true)
    (hpl : b.mines_placed = false) (hinv : b.Inv) :
    (b.place_mines sc sr sh).Inv := by
  obtain ⟨hWF, hrc, hunp, -⟩ := hinv
  obtain ⟨hnm, hnr⟩ := hunp hpl
  obtain ⟨s1, s2, s3, s4, s5, s6, s7, s8⟩ := place_mines_scalars b sc sr sh
  have hlen' : (b.place_mines sc sr sh).cells.length = b.cells.length := s8
  refine ⟨?_, ?_, ?_, ?_⟩
  · rw [Board.WF, s1, s2, hlen']
    exact hWF
  · have hrnm0 : b.revealedNonMineCount = 0 := by
      refine countP_zero_of_getD ?_
      intro j hj
      rw [hnr j hj]
      rfl
    have hrnm0' : (b.place_mines sc sr sh).revealedNonMineCount = 0 := by
      refine countP_zero_of_getD ?_
      intro j hj
      rw [place_mines_getD_revealed b sc sr sh j, hnr j (by rw [← hlen']; exact hj)]
      rfl
    rw [s5, hrc, hrnm0, hrnm0']
  · intro h
    rw [s4] at h
    exact absurd h bool_true_ne_false
  · intro _
    rw [s3, place_mines_countMines hWF hsh hnm]
    have hforb := length_forbidden_le b sc sr
    have hpool := length_pool_add (b := b) hseed
    omega

theorem floodLoop_inv {bp : Board} (stack : List (Int × Int)) (hinv : bp.Inv)
    (hpl : bp.mines_placed = true) :
    (bp.floodLoop bp.floodFuel stack).Inv := by
  obtain ⟨hWF, hrc, -, hex⟩ := hinv
  have hfr := floodLoop_frame bp.floodFuel stack hWF
  obtain ⟨c1, r1, n1, m1, g1, w1, l1, le1, cnt1, pt1⟩ := hfr
  refine ⟨?_, by omega, ?_, ?_⟩
  · rw [Board.WF, c1, r1, l1]
    exact hWF
  · intro h
    rw [m1] at h
    rw [h] at hpl
    exact absurd hpl Bool.false_ne_true
  · intro _
    have : (bp.floodLoop bp.floodFuel stack).countMines = bp.countMines := by
      refine countP_eq_of_getD _ _ _ l1 ?_
      intro j _
      exact (pt1 j).1
    rw [this, n1]
    exact hex hpl

theorem check_win_inv {bf : Board} (hinv : bf.Inv) (hpl : bf.mines_placed = true) :
    bf.check_win.Inv := by
  obtain ⟨hWF, hrc, -, hex⟩ := hinv
  by_cases hw : bf.winCond
  · have hid : bf.cells.map winPassFix = bf.cells := by
      refine map_self_of_fix _ _ ?_
      have hcmines : bf.countMines = bf.num_mines := hex hpl
      have hrcn : bf.revealed_count + bf.num_mines = bf.cols * bf.rows := by
        obtain ⟨h1, -⟩ := hw
        have : (bf.revealed_count : Int) + (bf.num_mines : Int)
            = (bf.cols : Int) * (bf.rows : Int) := by omega
        have h2 : ((bf.revealed_count + bf.num_mines : Nat) : Int)
            = ((bf.cols * bf.rows : Nat) : Int) := by
          push_cast
          omega
        exact_mod_cast h2
      have hsplit := List.length_eq_countP_add_countP (fun c => c.is_mine) bf.cells
      have hcompl : List.countP (fun a => decide ¬(a.is_mine = true)) bf.cells
          = List.countP (fun a => a.is_revealed && !a.is_mine) bf.cells := by
        have hle : bf.cells.countP (fun a => a.is_revealed && !a.is_mine)
            ≤ bf.cells.countP (fun a => decide ¬(a.is_mine = true)) := by
          refine List.countP_mono_left ?_
          intro x _ hx
          simp at hx ⊢
          exact hx.2
        have heq : bf.cells.countP (fun a => decide ¬(a.is_mine = true))
            + bf.countMines = bf.cells.length := by
          rw [Board.countMines] at *
          omega
        have : bf.cells.countP (fun a => a.is_revealed && !a.is_mine)
            = bf.revealed_count := hrc.symm
        rw [Board.WF] at hWF
        rw [Board.countMines] at hcmines
        omega
      have hpt := countP_eq_pointwise _ _ bf.cells
        (by
          intro a _ ha
          simp at ha ⊢
          exact ha.2)
        (hcompl.symm)
      intro a ha
      rw [winPassFix]
      by_cases hma : a.is_mine = true
      · rw [if_neg]
        intro hcc
        rw [hma] at hcc
        simp at hcc
      · have hrev : a.is_revealed = true := by
          have hq : (decide ¬(a.is_mine = true)) = true := by
            simp
            rcases hx : a.is_mine with _ | _
            · rfl
            · exact absurd hx hma
          have := hpt a ha hq
          simp at this
          exact this.1
        rw [if_neg]
        intro hcc
        rw [hrev] at hcc
        simp at hcc
    have hcw := check_win_of_pos hw
    rw [hcw, hid]
    refine ⟨hWF, hrc, ?_, fun _ => hex hpl⟩
    intro h
    rw [h] at hpl
    exact absurd hpl Bool.false_ne_true
  · rw [check_win_of_neg hw]
    refine ⟨hWF, hrc, ?_, hex⟩
    intro h
    rw [h] at hpl
    exact absurd hpl Bool.false_ne_true

theorem minePath_inv {bp : Board} (c r : Int) (hinv : bp.Inv)
    (hpl : bp.mines_placed = true) (hm : (bp.cellAt c r).is_mine = true) :
    ({ bp.setCell c r { bp.cellAt c r with is_revealed := true } with
       game_over := true }).reveal_all_mines.Inv := by
  obtain ⟨hWF, hrc, -, hex⟩ := hinv
  set M : Board := { bp.setCell c r { bp.cellAt c r with is_revealed := true } with
    game_over := true } with hM
  have hMwf : M.WF := by
    show (bp.setCell c r { bp.cellAt c r with is_revealed := true }).cells.length
      = bp.cols * bp.rows
    rw [setCell_length]
    exact hWF
  have hMrnmc : M.revealedNonMineCount = bp.revealedNonMineCount := by
    show (bp.setCell c r
      { bp.cellAt c r with is_revealed := true }).cells.countP _ = _
    refine countP_set_same _ _ _ _ ?_
    show (true && !({ bp.cellAt c r with is_revealed := true } : CellState).is_mine)
      = ((bp.cellAt c r).is_revealed && !(bp.cellAt c r).is_mine)
    show (true && !(bp.cellAt c r).is_mine)
      = ((bp.cellAt c r).is_revealed && !(bp.cellAt c r).is_mine)
    rw [hm]
    simp
  have hMcm : M.countMines = bp.countMines := by
    show (bp.setCell c r
      { bp.cellAt c r with is_revealed := true }).cells.countP _ = _
    exact countP_set_same _ _ _ _ rfl
  have hram := reveal_all_mines_scalars M
  refine ⟨?_, ?_, ?_, ?_⟩
  · rw [Board.WF, hram.1, hram.2.1, hram.2.2.2.2.2.2.2]
    exact hMwf
  · rw [hram.2.2.2.2.1, reveal_all_mines_RNMC, hMrnmc]
    show bp.revealed_count = _
    exact hrc
  · intro h
    rw [hram.2.2.2.1] at h
    have : M.mines_placed = bp.mines_placed := rfl
    rw [this, hpl] at h
    exact absurd h bool_true_ne_false
  · intro _
    rw [reveal_all_mines_countMines, hMcm, hram.2.2.1]
    show bp.countMines = bp.num_mines
    exact hex hpl

theorem reveal_inv {b : Board} (c r : Int)
    {sh : List (Int × Int) → List (Int × Int)}
    (hsize : b.num_mines + 9 ≤ b.cols * b.rows)
    (hsh : ∀ l : List (Int × Int), (sh l).Perm l)
    (hinv : b.Inv) : (b.reveal c r sh).Inv := by
  rcases hin : b.is_inbounds c r with _ | _
  · rw [reveal_of_oob sh hin]
    exact hinv
  · rcases hgo : b.game_over with _ | _
    case true =>
      rw [reveal_of_game_over sh hgo]
      exact hinv
    case false =>
      have hbpinv : (b.afterPlace c r sh).Inv := by
        rcases hpl : b.mines_placed with _ | _
        · rw [afterPlace_unplaced hpl]
          exact place_mines_inv hsize (hsh _) hin hpl hinv
        · rw [afterPlace_placed hpl]
          exact hinv
      have hbppl : (b.afterPlace c r sh).mines_placed = true :=
        (afterPlace_scalars b c r sh).2.2.2.1
      by_cases hf : ((b.afterPlace c r sh).cellAt c r).is_flagged = true
      · rw [reveal_of_flagged hin hgo hf]
        exact hbpinv
      · have hf' : ((b.afterPlace c r sh).cellAt c r).is_flagged = false := by
          rcases hx : ((b.afterPlace c r sh).cellAt c r).is_flagged with _ | _
          · rfl
          · exact absurd hx hf
        by_cases hm : ((b.afterPlace c r sh).cellAt c r).is_mine = true
        · rw [reveal_of_mine hin hgo hf' hm]
          exact minePath_inv c r hbpinv hbppl hm
        · have hm' : ((b.afterPlace c r sh).cellAt c r).is_mine = false := by
            rcases hx : ((b.afterPlace c r sh).cellAt c r).is_mine with _ | _
            · rfl
            · exact absurd hx hm
          rw [reveal_of_safe hin hgo hf' hm']
          have hfinv := floodLoop_inv [(c, r)] hbpinv hbppl
          have hfpl : ((b.afterPlace c r sh).floodLoop
              (b.afterPlace c r sh).floodFuel [(c, r)]).mines_placed = true := by
            have hWFbp : (b.afterPlace c r sh).WF := hbpinv.1
            rw [(floodLoop_frame _ _ hWFbp).2.2.2.1]
            exact hbppl
          exact check_win_inv hfinv hfpl

theorem toggle_inv {b : Board} (c r : Int) (hinv : b.Inv) :
    (b.toggle_flag c r).Inv := by
  rcases hin : b.is_inbounds c r with _ | _
  · rw [toggle_of_oob hin]
    exact hinv
  · rcases hgo : b.game_over with _ | _
    case true =>
      rw [toggle_of_game_over hgo]
      exact hinv
    case false =>
      rcases hrev : (b.cellAt c r).is_revealed with _ | _
      case true =>
        rw [toggle_of_revealed hin hgo hrev]
        exact hinv
      case false =>
        rw [toggle_of_unrevealed hin hgo hrev]
        obtain ⟨hWF, hrc, hunp, hex⟩ := hinv
        set v : CellState :=
          { b.cellAt c r with is_flagged := !(b.cellAt c r).is_flagged } with hv
        refine ⟨?_, ?_, ?_, ?_⟩
        · rw [Board.WF]
          show (b.cells.set (b.index c r) v).length = b.cols * b.rows
          rw [List.length_set]
          exact hWF
        · show b.revealed_count = (b.setCell c r v).cells.countP _
          rw [setCell_countP (s := v) _ rfl]
          exact hrc
        · intro h
          obtain ⟨h1, h2⟩ := hunp h
          constructor
          · show (b.setCell c r v).cells.countP _ = 0
            rw [setCell_countP (s := v) _ rfl]
            exact h1
          · intro j hj
            rw [setCell_length] at hj
            rw [setCell_getD_field (s := v) (fun x => x.is_revealed) rfl j]
            exact h2 j hj
        · intro h
          show (b.setCell c r v).cells.countP _ = b.num_mines
          rw [setCell_countP (s := v) _ rfl]
          exact hex h

theorem chord_fold_inv {sh : List (Int × Int) → List (Int × Int)}
    (hsh : ∀ l : List (Int × Int), (sh l).Perm l)
    (L : List (Int × Int)) {bb : Board}
    (hsize : bb.num_mines + 9 ≤ bb.cols * bb.rows) (hinv : bb.Inv) :
    (L.foldl (Board.chordStep sh) bb).Inv := by
  have h := foldl_rel (Board.chordStep sh)
    (fun x y => (x.Inv ∧ x.num_mines + 9 ≤ x.cols * x.rows) →
      (y.Inv ∧ y.num_mines + 9 ≤ y.cols * y.rows)) L bb
    (fun x y z hxy hyz hx => hyz (hxy hx))
    (fun x hx => hx)
    (fun x q _ hx => by
      obtain ⟨hx1, hx2⟩ := hx
      have hfr : OpFrame x (Board.chordStep sh x q) := by
        rw [Board.chordStep]
        show OpFrame x (if _ then x.reveal q.1 q.2 sh else x)
        split
        · exact reveal_opFrame q.1 q.2 sh hx1.1
        · exact opFrame_refl x
      constructor
      · rw [Board.chordStep]
        show (if _ then x.reveal q.1 q.2 sh else x).Inv
        split
        · exact reveal_inv q.1 q.2 hx2 hsh hx1
        · exact hx1
      · rw [hfr.1, hfr.2.1, hfr.2.2.1]
        exact hx2)
  exact (h ⟨hinv, hsize⟩).1

theorem auto_reveal_inv {b : Board} (c r : Int)
    {sh : List (Int × Int) → List (Int × Int)}
    (hsize : b.num_mines + 9 ≤ b.cols * b.rows)
    (hsh : ∀ l : List (Int × Int), (sh l).Perm l)
    (hinv : b.Inv) : (b.auto_reveal c r sh).Inv := by
  rcases hin : b.is_inbounds c r with _ | _
  · rw [auto_reveal_of_oob sh hin]
    exact hinv
  · rcases hg : (!(b.cellAt c r).is_revealed || (b.cellAt c r).adjacent == 0) with _ | _
    case true =>
      rw [auto_reveal_of_guard sh hin hg]
      exact hinv
    case false =>
      by_cases hc : b.flagCount c r = (b.cellAt c r).adjacent
      · rw [auto_reveal_of_fire sh hin hg hc]
        exact chord_fold_inv hsh _ hsize hinv
      · rw [auto_reveal_of_count_ne sh hin hg hc]
        exact hinv

theorem step_inv {b : Board} {op : Op} (hsize : b.num_mines + 9 ≤ b.cols * b.rows)
    (hlaw : op.lawful) (hinv : b.Inv) : (b.step op).Inv := by
  match op with
  | Op.reveal c r sh => exact reveal_inv c r hsize hlaw hinv
  | Op.toggle_flag c r => exact toggle_inv c r hinv
  | Op.auto_reveal c r sh => exact auto_reveal_inv c r hsize hlaw hinv
  | Op.get_safe_cell _ => exact hinv

theorem runOps_inv {b : Board} {ops : List Op}
    (hsize : b.num_mines + 9 ≤ b.cols * b.rows)
    (hlaw : ∀ op ∈ ops, op.lawful) (hinv : b.Inv) : (b.runOps ops).Inv := by
  have h := foldl_rel Board.step
    (fun x y => (x.Inv ∧ x.num_mines + 9 ≤ x.cols * x.rows) →
      (y.Inv ∧ y.num_mines + 9 ≤ y.cols * y.rows)) ops b
    (fun x y z hxy hyz hx => hyz (hxy hx))
    (fun x hx => hx)
    (fun x op hop hx => by
      obtain ⟨hx1, hx2⟩ := hx
      have hfr := step_opFrame op hx1.1
      constructor
      · exact step_inv hx2 (hlaw op hop) hx1
      · rw [hfr.1, hfr.2.1, hfr.2.2.1]
        exact hx2)
  exact (h ⟨hinv, hsize⟩).1

/-! ### Characterizing when `win` is set -/

theorem reveal_win_necessary {b : Board} (c r : Int)
    (sh : List (Int × Int) → List (Int × Int)) (hWF : b.WF)
    (hw : (b.reveal c r sh).win = true) :
    b.win = true ∨
      (((b.reveal c r sh).revealed_count : Int)
          = (b.cols : Int) * (b.rows : Int) - (b.num_mines : Int)
        ∧ (b.reveal c r sh).game_over = false) := by
  rcases hin : b.is_inbounds c r with _ | _
  · rw [reveal_of_oob sh hin] at hw
    exact Or.inl hw
  · rcases hgo : b.game_over with _ | _
    case true =>
      rw [reveal_of_game_over sh hgo] at hw
      exact Or.inl hw
    case false =>
      have hbpw : (b.afterPlace c r sh).win = b.win := (afterPlace_scalars b c r sh).2.2.2.2.2.2.1
      have hbpgo : (b.afterPlace c r sh).game_over = false := by
        rw [(afterPlace_scalars b c r sh).2.2.2.2.2.1]
        exact hgo
      have hbpWF : (b.afterPlace c r sh).WF :=
        opFrameNF_wf (afterPlace_opFrameNF b c r sh) hWF
      by_cases hf : ((b.afterPlace c r sh).cellAt c r).is_flagged = true
      · rw [reveal_of_flagged hin hgo hf] at hw
        rw [hbpw] at hw
        exact Or.inl hw
      · have hf' : ((b.afterPlace c r sh).cellAt c r).is_flagged = false := by
          rcases hx : ((b.afterPlace c r sh).cellAt c r).is_flagged with _ | _
          · rfl
          · exact absurd hx hf
        by_cases hm : ((b.afterPlace c r sh).cellAt c r).is_mine = true
        · rw [reveal_of_mine hin hgo hf' hm] at hw
          have : ({ (b.afterPlace c r sh).setCell c r
              { (b.afterPlace c r sh).cellAt c r with is_revealed := true } with
              game_over := true }).reveal_all_mines.win = b.win := by
            rw [(reveal_all_mines_scalars _).2.2.2.2.2.2.1]
            show (b.afterPlace c r sh).win = b.win
            exact hbpw
          rw [this] at hw
          exact Or.inl hw
        · have hm' : ((b.afterPlace c r sh).cellAt c r).is_mine = false := by
            rcases hx : ((b.afterPlace c r sh).cellAt c r).is_mine with _ | _
            · rfl
            · exact absurd hx hm
          set bp := b.afterPlace c r sh with hbpdef
          set bf := bp.floodLoop bp.floodFuel [(c, r)] with hbfdef
          have hfr := floodLoop_frame bp.floodFuel [(c, r)] hbpWF
          have hbfw : bf.win = b.win := by
            rw [← hbfdef] at hfr
            rw [hfr.2.2.2.2.2.1]
            exact hbpw
          have hbfgo : bf.game_over = false := by
            rw [← hbfdef] at hfr
            rw [hfr.2.2.2.2.1]
            exact hbpgo
          rw [reveal_of_safe hin hgo hf' hm', ← hbfdef] at hw ⊢
          rw [check_win_win, hbfw] at hw
          rcases hbw : b.win with _ | _
          · rw [hbw] at hw
            simp at hw
            right
            obtain ⟨h1, h2⟩ := hw
            have hscal := check_win_scalars bf
            constructor
            · rw [hscal.2.2.2.2.1]
              rw [← hbfdef] at hfr
              rw [(show bf.cols = b.cols from hfr.1.trans (afterPlace_scalars b c r sh).1),
                (show bf.rows = b.rows from hfr.2.1.trans (afterPlace_scalars b c r sh).2.1),
                (show bf.num_mines = b.num_mines from
                  hfr.2.2.1.trans (afterPlace_scalars b c r sh).2.2.1)] at h1
              exact h1
            · rw [hscal.2.2.2.2.2.1]
              exact hbfgo
          · exact Or.inl rfl

theorem reveal_win_sufficient {b : Board} (c r : Int)
    (sh : List (Int × Int) → List (Int × Int)) (hWF : b.WF)
    (hin : b.is_inbounds c r = true) (hgo : b.game_over = false)
    (hf : ((b.afterPlace c r sh).cellAt c r).is_flagged = false)
    (hm : ((b.afterPlace c r sh).cellAt c r).is_mine = false) :
    (b.reveal c r sh).win
      = (b.win || decide (((b.reveal c r sh).revealed_count : Int)
          = (b.cols : Int) * (b.rows : Int) - (b.num_mines : Int)))
    ∧ (b.reveal c r sh).game_over = false := by
  have hbpWF : (b.afterPlace c r sh).WF :=
    opFrameNF_wf (afterPlace_opFrameNF b c r sh) hWF
  set bp := b.afterPlace c r sh with hbpdef
  set bf := bp.floodLoop bp.floodFuel [(c, r)] with hbfdef
  have hfr := floodLoop_frame bp.floodFuel [(c, r)] hbpWF
  rw [← hbfdef] at hfr
  have hbfgo : bf.game_over = false := by
    rw [hfr.2.2.2.2.1]
    rw [(afterPlace_scalars b c r sh).2.2.2.2.2.1]
    exact hgo
  have hbfw : bf.win = b.win := by
    rw [hfr.2.2.2.2.2.1]
    exact (afterPlace_scalars b c r sh).2.2.2.2.2.2.1
  have hdims : bf.cols = b.cols ∧ bf.rows = b.rows ∧ bf.num_mines = b.num_mines :=
    ⟨hfr.1.trans (afterPlace_scalars b c r sh).1,
     hfr.2.1.trans (afterPlace_scalars b c r sh).2.1,
     hfr.2.2.1.trans (afterPlace_scalars b c r sh).2.2.1⟩
  rw [reveal_of_safe hin hgo hf hm, ← hbfdef]
  have hscal := check_win_scalars bf
  constructor
  · rw [check_win_win, hbfw]
    congr 1
    rw [decide_eq_decide]
    rw [Board.winCond]
    constructor
    · rintro ⟨h1, -⟩
      rw [hscal.2.2.2.2.1, ← hdims.1, ← hdims.2.1, ← hdims.2.2]
      exact h1
    · intro h1
      refine ⟨?_, hbfgo⟩
      rw [hscal.2.2.2.2.1] at h1
      rw [hdims.1, hdims.2.1, hdims.2.2]
      exact h1
  · rw [hscal.2.2.2.2.2.1]
    exact hbfgo

theorem reveal_win_all_shown {b : Board} (c r : Int)
    (sh : List (Int × Int) → List (Int × Int)) (hWF : b.WF)
    (hw : (b.reveal c r sh).win = true) (hbw : b.win = false) :
    ∀ j, j < (b.reveal c r sh).cells.length →
      ((b.reveal c r sh).cells.getD j default).is_revealed = true ∨
      ((b.reveal c r sh).cells.getD j default).is_mine = true := by
  rcases hin : b.is_inbounds c r with _ | _
  · rw [reveal_of_oob sh hin] at hw
    rw [hw] at hbw
    exact absurd hbw bool_true_ne_false
  · rcases hgo : b.game_over with _ | _
    case true =>
      rw [reveal_of_game_over sh hgo] at hw
      rw [hw] at hbw
      exact absurd hbw bool_true_ne_false
    case false =>
      have hbpw : (b.afterPlace c r sh).win = b.win :=
        (afterPlace_scalars b c r sh).2.2.2.2.2.2.1
      have hbpWF : (b.afterPlace c r sh).WF :=
        opFrameNF_wf (afterPlace_opFrameNF b c r sh) hWF
      by_cases hf : ((b.afterPlace c r sh).cellAt c r).is_flagged = true
      · rw [reveal_of_flagged hin hgo hf] at hw
        rw [hbpw] at hw
        rw [hw] at hbw
        exact absurd hbw bool_true_ne_false
      · have hf' : ((b.afterPlace c r sh).cellAt c r).is_flagged = false := by
          rcases hx : ((b.afterPlace c r sh).cellAt c r).is_flagged with _ | _
          · rfl
          · exact absurd hx hf
        by_cases hm : ((b.afterPlace c r sh).cellAt c r).is_mine = true
        · rw [reveal_of_mine hin hgo hf' hm] at hw
          have heq : ({ (b.afterPlace c r sh).setCell c r
              { (b.afterPlace c r sh).cellAt c r with is_revealed := true } with
              game_over := true }).reveal_all_mines.win = b.win := by
            rw [(reveal_all_mines_scalars _).2.2.2.2.2.2.1]
            exact hbpw
          rw [heq] at hw
          rw [hw] at hbw
          exact absurd hbw bool_true_ne_false
        · have hm' : ((b.afterPlace c r sh).cellAt c r).is_mine = false := by
            rcases hx : ((b.afterPlace c r sh).cellAt c r).is_mine with _ | _
            · rfl
            · exact absurd hx hm
          set bp := b.afterPlace c r sh with hbpdef
          set bf := bp.floodLoop bp.floodFuel [(c, r)] with hbfdef
          have hfr := floodLoop_frame bp.floodFuel [(c, r)] hbpWF
          rw [← hbfdef] at hfr
          have hbfw : bf.win = b.win := by
            rw [hfr.2.2.2.2.2.1]
            exact hbpw
          rw [reveal_of_safe hin hgo hf' hm', ← hbfdef] at hw ⊢
          rw [check_win_win, hbfw, hbw] at hw
          simp at hw
          intro j hj
          rw [(check_win_scalars bf).2.2.2.2.2.2] at hj
          exact check_win_all_revealed hw j hj

/-! ### The flood-fill region -/

/-- Number of unrevealed cells; the flood-fill loop measure is
`9 * unrevealedCount + |stack|`. -/
def Board.unrevealedCount (b : Board) : Nat :=
  b.cells.countP (fun c => !c.is_revealed)

theorem countP_set_decr {p : CellState → Bool} (l : List CellState) (i : Nat)
    (v : CellState) (hi : i < l.length) (hold : p (l.getD i default) = true)
    (hnew : p v = false) : (l.set i v).countP p + 1 = l.countP p := by
  rw [List.countP_set p l i v hi]
  rw [List.getD_eq_getElem l default hi] at hold
  have hpos : 0 < l.countP p := by
    rw [List.countP_pos_iff]
    exact ⟨l[i], List.getElem_mem hi, hold⟩
  simp [hold, hnew]
  omega

/-- The region the specification describes for a flood fill seeded at
`(sc, sr)`: the seed itself, together with the closure that adds, for
every region cell that is a non-mine cell of adjacency zero, all of its
in-bounds non-mine neighbors (the bordering numbered cells included).
This is the spec-side definition, to be compared with the code's flood
fill. -/
inductive InRegion (b : Board) (sc sr : Int) : Int → Int → Prop where
  | seed : InRegion b sc sr sc sr
  | step {c r c' r' : Int} (hreach : InRegion b sc sr c r)
      (hm : (b.cellAt c r).is_mine = false)
      (ha : (b.cellAt c r).adjacent = 0)
      (hn : (c', r') ∈ b.neighbors c r)
      (hm' : (b.cellAt c' r').is_mine = false) : InRegion b sc sr c' r'

theorem inRegion_inbounds {b : Board} {sc sr c r : Int}
    (hseed : b.is_inbounds sc sr = true) (h : InRegion b sc sr c r) :
    b.is_inbounds c r = true := by
  induction h with
  | seed => exact hseed
  | step _ _ _ hn _ _ => exact neighbors_inbounds hn

theorem inRegion_not_mine {b : Board} {sc sr c r : Int}
    (hseedm : (b.cellAt sc sr).is_mine = false) (h : InRegion b sc sr c r) :
    (b.cellAt c r).is_mine = false := by
  induction h with
  | seed => exact hseedm
  | step _ _ _ _ hm' _ => exact hm'

theorem cellAt_as_getD {bb b0 : Board} (hc : bb.cols = b0.cols) (c r : Int) :
    bb.cellAt c r = bb.cells.getD (b0.index c r) default := by
  rw [Board.cellAt, index_congr hc]

theorem floodLoop_sound (b0 : Board) (sc sr : Int) :
    ∀ (fuel : Nat) (bb : Board) (stack : List (Int × Int)),
      bb.WF → bb.cols = b0.cols → bb.rows = b0.rows →
      (∀ j : Nat, (bb.cells.getD j default).is_mine
        = (b0.cells.getD j default).is_mine) →
      (∀ j : Nat, (bb.cells.getD j default).adjacent
        = (b0.cells.getD j default).adjacent) →
      (∀ q ∈ stack, InRegion b0 sc sr q.1 q.2) →
      (∀ c r : Int, b0.is_inbounds c r = true →
        (bb.cellAt c r).is_revealed = true →
        (b0.cellAt c r).is_revealed = true ∨ InRegion b0 sc sr c r) →
      ∀ c r : Int, b0.is_inbounds c r = true →
        ((bb.floodLoop fuel stack).cellAt c r).is_revealed = true →
        (b0.cellAt c r).is_revealed = true ∨ InRegion b0 sc sr c r := by
  intro fuel
  induction fuel with
  | zero =>
    intro bb stack _ _ _ _ _ _ hrev c r hcr h
    rw [floodLoop_zero] at h
    exact hrev c r hcr h
  | succ fuel ih =>
    intro bb stack hWF hcols hrows hmine hadj hstack hrev c r hcr hgoal
    match stack with
    | [] =>
      rw [floodLoop_nil] at hgoal
      exact hrev c r hcr hgoal
    | (pc, pr) :: rest =>
      have hstack' : ∀ q ∈ rest, InRegion b0 sc sr q.1 q.2 :=
        fun q hq => hstack q (List.mem_cons_of_mem _ hq)
      rw [floodLoop_cons] at hgoal
      by_cases hin : bb.is_inbounds pc pr = true
      · rw [if_pos hin] at hgoal
        by_cases h1 : ((bb.cellAt pc pr).is_revealed || (bb.cellAt pc pr).is_flagged) = true
        · rw [if_pos h1] at hgoal
          exact ih bb rest hWF hcols hrows hmine hadj hstack' hrev c r hcr hgoal
        · rw [if_neg h1] at hgoal
          by_cases h2 : (bb.cellAt pc pr).is_mine = true
          · rw [if_pos h2] at hgoal
            exact ih bb rest hWF hcols hrows hmine hadj hstack' hrev c r hcr hgoal
          · rw [if_neg h2] at hgoal
            have hpin0 : b0.is_inbounds pc pr = true := by
              rw [← is_inbounds_congr hcols hrows]
              exact hin
            have hrevp : (bb.cellAt pc pr).is_revealed = false := by
              rcases hx : (bb.cellAt pc pr).is_revealed with _ | _
              · rfl
              · exact absurd (by rw [hx]; rfl) h1
            have hminep : (bb.cellAt pc pr).is_mine = false := by
              rcases hx : (bb.cellAt pc pr).is_mine with _ | _
              · rfl
              · exact absurd hx h2
            have hreg_p : InRegion b0 sc sr pc pr :=
              hstack (pc, pr) (List.mem_cons_self _ _)
            have hm0p : (b0.cellAt pc pr).is_mine = false := by
              rw [Board.cellAt, ← hmine (b0.index pc pr),
                ← cellAt_as_getD hcols]
              exact hminep
            set bb' : Board := { bb.setCell pc pr
              { bb.cellAt pc pr with is_revealed := true } with
              revealed_count := bb.revealed_count + 1 } with hbb'
            have hWF' : bb'.WF := by
              show (bb.setCell pc pr _).cells.length = bb.cols * bb.rows
              rw [setCell_length]
              exact hWF
            have hcols' : bb'.cols = b0.cols := hcols
            have hrows' : bb'.rows = b0.rows := hrows
            have hmine' : ∀ j : Nat, (bb'.cells.getD j default).is_mine
                = (b0.cells.getD j default).is_mine := by
              intro j
              have : (bb'.cells.getD j default).is_mine
                  = (bb.cells.getD j default).is_mine :=
                setCell_getD_field (s := { bb.cellAt pc pr with is_revealed := true })
                  (fun x => x.is_mine) rfl j
              rw [this, hmine j]
            have hadj' : ∀ j : Nat, (bb'.cells.getD j default).adjacent
                = (b0.cells.getD j default).adjacent := by
              intro j
              have : (bb'.cells.getD j default).adjacent
                  = (bb.cells.getD j default).adjacent :=
                setCell_getD_field (s := { bb.cellAt pc pr with is_revealed := true })
                  (fun x => x.adjacent) rfl j
              rw [this, hadj j]
            have hrev' : ∀ c' r' : Int, b0.is_inbounds c' r' = true →
                (bb'.cellAt c' r').is_revealed = true →
                (b0.cellAt c' r').is_revealed = true ∨ InRegion b0 sc sr c' r' := by
              intro c' r' hin' hrv
              rw [cellAt_as_getD hcols'] at hrv
              by_cases hj : b0.index pc pr = b0.index c' r'
              · obtain ⟨he1, he2⟩ := index_inj hpin0 hin' hj
                right
                rw [← he1, ← he2]
                exact hreg_p
              · have : (bb'.cells.getD (b0.index c' r') default).is_revealed
                    = (bb.cells.getD (b0.index c' r') default).is_revealed := by
                  show ((bb.cells.set (bb.index pc pr) _).getD
                    (b0.index c' r') default).is_revealed = _
                  rw [index_congr hcols]
                  exact congrArg CellState.is_revealed (getD_set_ne _ _ hj)
                rw [this] at hrv
                rw [← cellAt_as_getD hcols] at hrv
                exact hrev c' r' hin' hrv
            by_cases h3 : (bb.cellAt pc pr).adjacent = 0
            · rw [if_pos h3] at hgoal
              have hpush : ∀ q ∈ bb'.floodPush pc pr ++ rest,
                  InRegion b0 sc sr q.1 q.2 := by
                intro q hq
                rcases List.mem_append.mp hq with hq | hq
                · rw [Board.floodPush, List.mem_reverse, List.mem_filter] at hq
                  obtain ⟨hqn, hqc⟩ := hq
                  have hqn0 : q ∈ b0.neighbors pc pr := by
                    rw [← neighbors_congr hcols' hrows']
                    exact hqn
                  have hqm : (bb'.cellAt q.1 q.2).is_mine = false := by
                    rcases Bool.and_eq_true_iff.mp hqc with ⟨-, hq2⟩
                    rcases hx : (bb'.cellAt q.1 q.2).is_mine with _ | _
                    · rfl
                    · rw [hx] at hq2
                      exact absurd hq2 (by simp)
                  have hqm0 : (b0.cellAt q.1 q.2).is_mine = false := by
                    rw [Board.cellAt, ← hmine' (b0.index q.1 q.2),
                      ← cellAt_as_getD hcols']
                    exact hqm
                  have hadj0 : (b0.cellAt pc pr).adjacent = 0 := by
                    rw [Board.cellAt, ← hadj (b0.index pc pr),
                      ← cellAt_as_getD hcols]
                    exact h3
                  exact InRegion.step hreg_p hm0p hadj0 hqn0 hqm0
                · exact hstack' q hq
              exact ih bb' _ hWF' hcols' hrows' hmine' hadj' hpush hrev' c r hcr hgoal
            · rw [if_neg h3] at hgoal
              exact ih bb' rest hWF' hcols' hrows' hmine' hadj' hstack' hrev' c r hcr hgoal
      · rw [if_neg hin] at hgoal
        exact ih bb rest hWF hcols hrows hmine hadj hstack' hrev c r hcr hgoal

/-- Closure invariant of the flood-fill loop: every obligation created by
an already revealed zero cell is either discharged (neighbor revealed) or
still pending on the stack. -/
def ClosedStack (bb : Board) (stack : List (Int × Int)) : Prop :=
  ∀ c r : Int, bb.is_inbounds c r = true →
    (bb.cellAt c r).is_revealed = true →
    (bb.cellAt c r).is_mine = false →
    (bb.cellAt c r).adjacent = 0 →
    ∀ q ∈ bb.neighbors c r, (bb.cellAt q.1 q.2).is_mine = false →
      ((bb.cellAt q.1 q.2).is_revealed = true ∨ q ∈ stack)

theorem length_floodPush_le (b : Board) (c r : Int) :
    (b.floodPush c r).length ≤ 8 := by
  rw [Board.floodPush, List.length_reverse]
  calc ((b.neighbors c r).filter _).length ≤ (b.neighbors c r).length :=
        List.length_filter_le _ _
    _ ≤ 8 := length_neighbors_le b c r

theorem floodLoop_complete :
    ∀ (fuel : Nat) (bb : Board) (stack : List (Int × Int)) (sc sr : Int),
      bb.WF →
      (∀ j : Nat, (bb.cells.getD j default).is_flagged = false) →
      9 * bb.unrevealedCount + stack.length ≤ fuel →
      bb.is_inbounds sc sr = true →
      (bb.cellAt sc sr).is_mine = false →
      ((bb.cellAt sc sr).is_revealed = true ∨ (sc, sr) ∈ stack) →
      ClosedStack bb stack →
      ClosedStack (bb.floodLoop fuel stack) []
        ∧ ((bb.floodLoop fuel stack).cellAt sc sr).is_revealed = true := by
  intro fuel
  induction fuel with
  | zero =>
    intro bb stack sc sr hWF hflags hfuel hsin hsml hseed hclosed
    match stack with
    | [] =>
      rw [floodLoop_nil]
      refine ⟨hclosed, ?_⟩
      rcases hseed with h | h
      · exact h
      · simp at h
    | q :: rest =>
      exfalso
      rw [List.length_cons] at hfuel
      omega
  | succ fuel ih =>
    intro bb stack sc sr hWF hflags hfuel hsin hsml hseed hclosed
    match stack with
    | [] =>
      rw [floodLoop_nil]
      refine ⟨hclosed, ?_⟩
      rcases hseed with h | h
      · exact h
      · simp at h
    | (pc, pr) :: rest =>
      rw [floodLoop_cons]
      have hfuel_rest : 9 * bb.unrevealedCount + rest.length ≤ fuel := by
        rw [List.length_cons] at hfuel
        omega
      by_cases hin : bb.is_inbounds pc pr = true
      · rw [if_pos hin]
        have hlt : bb.index pc pr < bb.cells.length := index_lt hin hWF
        have hflagp : (bb.cellAt pc pr).is_flagged = false := by
          rw [Board.cellAt, List.getD_eq_getElem bb.cells default hlt]
          have := hflags (bb.index pc pr)
          rw [List.getD_eq_getElem bb.cells default hlt] at this
          exact this
        by_cases h1 : ((bb.cellAt pc pr).is_revealed || (bb.cellAt pc pr).is_flagged) = true
        · rw [if_pos h1]
          have hrevp : (bb.cellAt pc pr).is_revealed = true := by
            rcases Bool.or_eq_true_iff.mp h1 with h | h
            · exact h
            · rw [hflagp] at h
              exact absurd h (by simp)
          have hseed' : (bb.cellAt sc sr).is_revealed = true ∨ (sc, sr) ∈ rest := by
            rcases hseed with h | h
            · exact Or.inl h
            · rcases List.mem_cons.mp h with h | h
              · left
                have h1' : sc = pc := congrArg Prod.fst h
                have h2' : sr = pr := congrArg Prod.snd h
                rw [h1', h2']
                exact hrevp
              · exact Or.inr h
          have hclosed' : ClosedStack bb rest := by
            intro c' r' hin' hrv' hmn' hadj' q hq hqm
            rcases hclosed c' r' hin' hrv' hmn' hadj' q hq hqm with h | h
            · exact Or.inl h
            · rcases List.mem_cons.mp h with h | h
              · left
                have h1' : q.1 = pc := congrArg Prod.fst h
                have h2' : q.2 = pr := congrArg Prod.snd h
                rw [h1', h2']
                exact hrevp
              · exact Or.inr h
          exact ih bb rest sc sr hWF hflags hfuel_rest hsin hsml hseed' hclosed'
        · rw [if_neg h1]
          have hrevp : (bb.cellAt pc pr).is_revealed = false := by
            rcases hx : (bb.cellAt pc pr).is_revealed with _ | _
            · rfl
            · exact absurd (by rw [hx]; rfl) h1
          by_cases h2 : (bb.cellAt pc pr).is_mine = true
          · rw [if_pos h2]
            have hseed' : (bb.cellAt sc sr).is_revealed = true ∨ (sc, sr) ∈ rest := by
              rcases hseed with h | h
              · exact Or.inl h
              · rcases List.mem_cons.mp h with h | h
                · exfalso
                  have : (bb.cellAt sc sr).is_mine = true := by
                    have h1' : sc = pc := congrArg Prod.fst h
                    have h2' : sr = pr := congrArg Prod.snd h
                    rw [h1', h2']
                    exact h2
                  rw [this] at hsml
                  exact absurd hsml bool_true_ne_false
                · exact Or.inr h
            have hclosed' : ClosedStack bb rest := by
              intro c' r' hin' hrv' hmn' hadj' q hq hqm
              rcases hclosed c' r' hin' hrv' hmn' hadj' q hq hqm with h | h
              · exact Or.inl h
              · rcases List.mem_cons.mp h with h | h
                · exfalso
                  have : (bb.cellAt q.1 q.2).is_mine = true := by
                    have h1' : q.1 = pc := congrArg Prod.fst h
                    have h2' : q.2 = pr := congrArg Prod.snd h
                    rw [h1', h2']
                    exact h2
                  rw [this] at hqm
                  exact absurd hqm bool_true_ne_false
                · exact Or.inr h
            exact ih bb rest sc sr hWF hflags hfuel_rest hsin hsml hseed' hclosed'
          · rw [if_neg h2]
            have hminep : (bb.cellAt pc pr).is_mine = false := by
              rcases hx : (bb.cellAt pc pr).is_mine with _ | _
              · rfl
              · exact absurd hx h2
            set bb' : Board := { bb.setCell pc pr
              { bb.cellAt pc pr with is_revealed := true } with
              revealed_count := bb.revealed_count + 1 } with hbb'
            have hWF' : bb'.WF := by
              show (bb.setCell pc pr _).cells.length = bb.cols * bb.rows
              rw [setCell_length]
              exact hWF
            have hflags' : ∀ j : Nat, (bb'.cells.getD j default).is_flagged = false := by
              intro j
              have : (bb'.cells.getD j default).is_flagged
                  = (bb.cells.getD j default).is_flagged :=
                setCell_getD_field (s := { bb.cellAt pc pr with is_revealed := true })
                  (fun x => x.is_flagged) rfl j
              rw [this]
              exact hflags j
            have hucount : bb'.unrevealedCount + 1 = bb.unrevealedCount := by
              show (bb.cells.set (bb.index pc pr) _).countP _ + 1 = _
              refine countP_set_decr bb.cells _ _ hlt ?_ ?_
              · show (!(bb.cellAt pc pr).is_revealed) = true
                rw [hrevp]
                rfl
              · rfl
            have hcellp' : bb'.cellAt pc pr
                = { bb.cellAt pc pr with is_revealed := true } := by
              show (bb.setCell pc pr _).cellAt pc pr = _
              exact cellAt_setCell_self _ hWF hin
            have hcell_ne : ∀ c' r' : Int, bb.index c' r' ≠ bb.index pc pr →
                bb'.cellAt c' r' = bb.cellAt c' r' := by
              intro c' r' hne
              show (bb.cells.set (bb.index pc pr) _).getD (bb.index c' r') default = _
              exact getD_set_ne _ _ (fun h => hne h.symm)
            have hneigh' : ∀ c' r' : Int, bb'.neighbors c' r' = bb.neighbors c' r' :=
              fun c' r' => rfl
            have hinb' : ∀ c' r' : Int, bb'.is_inbounds c' r' = bb.is_inbounds c' r' :=
              fun c' r' => rfl
            have hrev_mono : ∀ c' r' : Int, (bb.cellAt c' r').is_revealed = true →
                (bb'.cellAt c' r').is_revealed = true := by
              intro c' r' h
              by_cases hne : bb.index c' r' = bb.index pc pr
              · show ((bb.cells.set (bb.index pc pr) _).getD
                  (bb.index c' r') default).is_revealed = true
                rw [hne, getD_set_self _ _ hlt]
              · rw [hcell_ne c' r' hne]
                exact h
            have hsml' : (bb'.cellAt sc sr).is_mine = false := by
              by_cases hne : bb.index sc sr = bb.index pc pr
              · show ((bb.cells.set (bb.index pc pr) _).getD
                  (bb.index sc sr) default).is_mine = false
                rw [hne, getD_set_self _ _ hlt]
                show (bb.cellAt pc pr).is_mine = false
                exact hminep
              · rw [hcell_ne sc sr hne]
                exact hsml
            have hseed'' : ∀ (newstack : List (Int × Int)), rest ⊆ newstack →
                ((bb'.cellAt sc sr).is_revealed = true ∨ (sc, sr) ∈ newstack) := by
              intro newstack hsub
              rcases hseed with h | h
              · exact Or.inl (hrev_mono sc sr h)
              · rcases List.mem_cons.mp h with h | h
                · left
                  have h1' : sc = pc := congrArg Prod.fst h
                  have h2' : sr = pr := congrArg Prod.snd h
                  rw [h1', h2', hcellp']
                · exact Or.inr (hsub h)
            by_cases h3 : (bb.cellAt pc pr).adjacent = 0
            · rw [if_pos h3]
              have hfuel' : 9 * bb'.unrevealedCount
                  + (bb'.floodPush pc pr ++ rest).length ≤ fuel := by
                rw [List.length_append]
                have hp8 := length_floodPush_le bb' pc pr
                rw [List.length_cons] at hfuel
                omega
              have hclosed'' : ClosedStack bb' (bb'.floodPush pc pr ++ rest) := by
                intro c' r' hin' hrv' hmn' hadj' q hq hqm
                by_cases hne : bb.index c' r' = bb.index pc pr
                · -- the newly revealed cell: all its eligible neighbors are
                  -- either already revealed or in the pushed block
                  have hin'' : bb.is_inbounds c' r' = true := by
                    rw [← hinb' c' r']
                    exact hin'
                  obtain ⟨he1, he2⟩ := index_inj hin'' hin hne
                  rcases hqrev : (bb'.cellAt q.1 q.2).is_revealed with _ | _
                  · right
                    rw [List.mem_append]
                    left
                    rw [Board.floodPush, List.mem_reverse, List.mem_filter]
                    constructor
                    · show q ∈ bb'.neighbors pc pr
                      rw [← he1, ← he2]
                      exact hq
                    · rw [hqrev, hqm]
                      rfl
                  · exact Or.inl rfl
                · -- an old revealed cell: use the old closure
                  have hin'' : bb.is_inbounds c' r' = true := by
                    rw [← hinb' c' r']
                    exact hin'
                  rw [hcell_ne c' r' hne] at hrv' hmn' hadj'
                  have hq0 : q ∈ bb.neighbors c' r' := by
                    rw [← hneigh' c' r']
                    exact hq
                  have hqm'' : (bb.cellAt q.1 q.2).is_mine = false := by
                    by_cases hneq : bb.index q.1 q.2 = bb.index pc pr
                    · have hqin : bb.is_inbounds q.1 q.2 = true :=
                        neighbors_inbounds hq0
                      obtain ⟨he1, he2⟩ := index_inj hqin hin hneq
                      rw [he1, he2]
                      exact hminep
                    · rw [← hcell_ne q.1 q.2 hneq]
                      exact hqm
                  have hold := hclosed c' r' hin'' hrv' hmn' hadj' q hq0 hqm''
                  rcases hold with h | h
                  · exact Or.inl (hrev_mono q.1 q.2 h)
                  · rcases List.mem_cons.mp h with h | h
                    · left
                      have h1' : q.1 = pc := congrArg Prod.fst h
                      have h2' : q.2 = pr := congrArg Prod.snd h
                      rw [h1', h2', hcellp']
                    · right
                      rw [List.mem_append]
                      exact Or.inr h
              exact ih bb' _ sc sr hWF' hflags' hfuel'
                (by rw [hinb']; exact hsin) hsml'
                (hseed'' _ (fun x hx => List.mem_append.mpr (Or.inr hx))) hclosed''
            · rw [if_neg h3]
              have hfuel' : 9 * bb'.unrevealedCount + rest.length ≤ fuel := by
                rw [List.length_cons] at hfuel
                omega
              have hclosed'' : ClosedStack bb' rest := by
                intro c' r' hin' hrv' hmn' hadj' q hq hqm
                by_cases hne : bb.index c' r' = bb.index pc pr
                · have hin'' : bb.is_inbounds c' r' = true := by
                    rw [← hinb' c' r']
                    exact hin'
                  obtain ⟨he1, he2⟩ := index_inj hin'' hin hne
                  rw [he1, he2, hcellp'] at hadj'
                  exact absurd hadj' (by
                    show ¬(bb.cellAt pc pr).adjacent = 0
                    exact h3)
                · have hin'' : bb.is_inbounds c' r' = true := by
                    rw [← hinb' c' r']
                    exact hin'
                  rw [hcell_ne c' r' hne] at hrv' hmn' hadj'
                  have hq0 : q ∈ bb.neighbors c' r' := by
                    rw [← hneigh' c' r']
                    exact hq
                  have hqm'' : (bb.cellAt q.1 q.2).is_mine = false := by
                    by_cases hneq : bb.index q.1 q.2 = bb.index pc pr
                    · have hqin : bb.is_inbounds q.1 q.2 = true :=
                        neighbors_inbounds hq0
                      obtain ⟨he1, he2⟩ := index_inj hqin hin hneq
                      rw [he1, he2]
                      exact hminep
                    · rw [← hcell_ne q.1 q.2 hneq]
                      exact hqm
                  have hold := hclosed c' r' hin'' hrv' hmn' hadj' q hq0 hqm''
                  rcases hold with h | h
                  · exact Or.inl (hrev_mono q.1 q.2 h)
                  · rcases List.mem_cons.mp h with h | h
                    · left
                      have h1' : q.1 = pc := congrArg Prod.fst h
                      have h2' : q.2 = pr := congrArg Prod.snd h
                      rw [h1', h2', hcellp']
                    · exact Or.inr h
              exact ih bb' rest sc sr hWF' hflags' hfuel'
                (by rw [hinb']; exact hsin) hsml' (hseed'' rest (fun x hx => hx))
                hclosed''
      · rw [if_neg hin]
        have hseed' : (bb.cellAt sc sr).is_revealed = true ∨ (sc, sr) ∈ rest := by
          rcases hseed with h | h
          · exact Or.inl h
          · rcases List.mem_cons.mp h with h | h
            · exfalso
              have h1' : sc = pc := congrArg Prod.fst h
              have h2' : sr = pr := congrArg Prod.snd h
              rw [h1', h2'] at hsin
              exact hin hsin
            · exact Or.inr h
        have hclosed' : ClosedStack bb rest := by
          intro c' r' hin' hrv' hmn' hadj' q hq hqm
          rcases hclosed c' r' hin' hrv' hmn' hadj' q hq hqm with h | h
          · exact Or.inl h
          · rcases List.mem_cons.mp h with h | h
            · exfalso
              have hqin : bb.is_inbounds q.1 q.2 = true := neighbors_inbounds hq
              have h1' : q.1 = pc := congrArg Prod.fst h
              have h2' : q.2 = pr := congrArg Prod.snd h
              rw [h1', h2'] at hqin
              exact hin hqin
            · exact Or.inr h
        exact ih bb rest sc sr hWF hflags hfuel_rest hsin hsml hseed' hclosed'

/-- When the win condition fires while the bookkeeping invariant holds
and exactly `num_mines` mines are on the board, the completion pass of
`_check_win` has nothing left to reveal. -/
theorem winPass_cells_id {bf : Board} (hWF : bf.WF)
    (hrc : bf.revealed_count = bf.revealedNonMineCount)
    (hcm : bf.countMines = bf.num_mines) (hw : bf.winCond) :
    bf.cells.map winPassFix = bf.cells := by
  refine map_self_of_fix _ _ ?_
  have hrcn : bf.revealed_count + bf.num_mines = bf.cols * bf.rows := by
    obtain ⟨h1, -⟩ := hw
    have h2 : ((bf.revealed_count + bf.num_mines : Nat) : Int)
        = ((bf.cols * bf.rows : Nat) : Int) := by
      push_cast
      omega
    exact_mod_cast h2
  have hsplit := List.length_eq_countP_add_countP (fun c => c.is_mine) bf.cells
  have hcompl : List.countP (fun a => decide ¬(a.is_mine = true)) bf.cells
      = List.countP (fun a => a.is_revealed && !a.is_mine) bf.cells := by
    have hle : bf.cells.countP (fun a => a.is_revealed && !a.is_mine)
        ≤ bf.cells.countP (fun a => decide ¬(a.is_mine = true)) := by
      refine List.countP_mono_left ?_
      intro x _ hx
      simp at hx ⊢
      exact hx.2
    have heq : bf.cells.countP (fun a => decide ¬(a.is_mine = true))
        + bf.countMines = bf.cells.length := by
      rw [Board.countMines] at *
      omega
    have hrn : bf.cells.countP (fun a => a.is_revealed && !a.is_mine)
        = bf.revealed_count := hrc.symm
    rw [Board.WF] at hWF
    rw [Board.countMines] at hcm
    omega
  have hpt := countP_eq_pointwise _ _ bf.cells
    (by
      intro a _ ha
      simp at ha ⊢
      exact ha.2)
    (hcompl.symm)
  intro a ha
  rw [winPassFix]
  by_cases hma : a.is_mine = true
  · rw [if_neg]
    intro hcc
    rw [hma] at hcc
    simp at hcc
  · have hrev : a.is_revealed = true := by
      have hq : (decide ¬(a.is_mine = true)) = true := by
        simp
        rcases hx : a.is_mine with _ | _
        · rfl
        · exact absurd hx hma
      have := hpt a ha hq
      simp at this
      exact this.1
    rw [if_neg]
    intro hcc
    rw [hrev] at hcc
    simp at hcc

/-- Full characterization of the first reveal on a freshly placed board
that carries exactly `num_mines` mines, no flags and no revealed cells:
the revealed set is exactly the spec's flood-fill region. -/
theorem reveal_region {b : Board} {sc sr : Int}
    {sh : List (Int × Int) → List (Int × Int)}
    (hWF : b.WF) (hpl : b.mines_placed = true) (hgo : b.game_over = false)
    (hflags : ∀ j : Nat, (b.cells.getD j default).is_flagged = false)
    (hrev0 : ∀ j : Nat, (b.cells.getD j default).is_revealed = false)
    (hrc : b.revealed_count = 0)
    (hcm : b.countMines = b.num_mines)
    (hsin : b.is_inbounds sc sr = true)
    (hsml : (b.cellAt sc sr).is_mine = false) :
    ∀ c r : Int, b.is_inbounds c r = true →
      (((b.reveal sc sr sh).cellAt c r).is_revealed = true
        ↔ InRegion b sc sr c r) := by
  have hbp : b.afterPlace sc sr sh = b := afterPlace_placed hpl
  have hf : ((b.afterPlace sc sr sh).cellAt sc sr).is_flagged = false := by
    rw [hbp, Board.cellAt]
    exact hflags _
  have hm : ((b.afterPlace sc sr sh).cellAt sc sr).is_mine = false := by
    rw [hbp]
    exact hsml
  have hrw : b.reveal sc sr sh
      = ((b.afterPlace sc sr sh).floodLoop (b.afterPlace sc sr sh).floodFuel
          [(sc, sr)]).check_win := reveal_of_safe hsin hgo hf hm
  rw [hbp] at hrw
  set bf := b.floodLoop b.floodFuel [(sc, sr)] with hbf
  have hfr := floodLoop_frame b.floodFuel [(sc, sr)] hWF
  rw [← hbf] at hfr
  -- the flood result satisfies the invariant needed for the completion
  -- pass to be a no-op
  have hbfWF : bf.WF := floodFrame_wf hfr hWF
  have hbfrc : bf.revealed_count = bf.revealedNonMineCount := by
    have hc := hfr.2.2.2.2.2.2.2.2.1
    have hR : b.revealedNonMineCount = 0 := by
      refine countP_zero_of_getD ?_
      intro j hj
      rw [hrev0 j]
      rfl
    omega
  have hbfcm : bf.countMines = bf.num_mines := by
    have h1 : bf.countMines = b.countMines := by
      refine countP_eq_of_getD _ _ _ hfr.2.2.2.2.2.2.1 ?_
      intro j _
      exact (hfr.2.2.2.2.2.2.2.2.2 j).1
    rw [h1, hfr.2.2.1]
    exact hcm
  have hcw_cells : (b.reveal sc sr sh).cells = bf.cells := by
    rw [hrw]
    by_cases hwc : bf.winCond
    · rw [check_win_of_pos hwc]
      show bf.cells.map winPassFix = bf.cells
      exact winPass_cells_id hbfWF hbfrc hbfcm hwc
    · rw [check_win_of_neg hwc]
  have hcw_cols : (b.reveal sc sr sh).cols = bf.cols := by
    rw [hrw]
    exact (check_win_scalars bf).1
  intro c r hcr
  have hcell : (b.reveal sc sr sh).cellAt c r = bf.cellAt c r := by
    rw [Board.cellAt, Board.cellAt, hcw_cells]
    have : (b.reveal sc sr sh).index = bf.index := index_congr hcw_cols
    rw [this]
  rw [hcell]
  constructor
  · intro h
    have hsound := floodLoop_sound b sc sr b.floodFuel b [(sc, sr)] hWF rfl rfl
      (fun j => rfl) (fun j => rfl)
      (by
        intro q hq
        rcases List.mem_cons.mp hq with hq | hq
        · have h1' : q.1 = sc := congrArg Prod.fst hq
          have h2' : q.2 = sr := congrArg Prod.snd hq
          rw [h1', h2']
          exact InRegion.seed
        · simp at hq)
      (by
        intro c' r' hin' hrv'
        rw [Board.cellAt, hrev0] at hrv'
        exact absurd hrv' (by simp))
      c r hcr (by rw [← hbf]; exact h)
    rcases hsound with h' | h'
    · rw [Board.cellAt, hrev0] at h'
      exact absurd h' (by simp)
    · exact h'
  · intro h
    have hfuel : 9 * b.unrevealedCount + ([((sc : Int), (sr : Int))]).length
        ≤ b.floodFuel := by
      have h1 : b.unrevealedCount ≤ b.cells.length := List.countP_le_length _
      rw [Board.WF] at hWF
      rw [Board.floodFuel]
      simp
      omega
    have hcomp := floodLoop_complete b.floodFuel b [(sc, sr)] sc sr hWF hflags
      hfuel hsin hsml (Or.inr (List.mem_cons_self _ _))
      (by
        intro c' r' hin' hrv'
        rw [Board.cellAt, hrev0] at hrv'
        exact absurd hrv' (by simp))
    rw [← hbf] at hcomp
    obtain ⟨hclosed, hseedrev⟩ := hcomp
    -- transfer the closed invariant along the region derivation
    clear hcell
    induction h with
    | seed => exact hseedrev
    | step hreach hm0 ha0 hn0 hm0' ih =>
      rename_i cc rr cc' rr'
      have hccin : b.is_inbounds cc rr = true := inRegion_inbounds hsin hreach
      have hrevcc := ih (inRegion_inbounds hsin hreach)
      have hbfin : bf.is_inbounds cc rr = true := by
        rw [is_inbounds_congr hfr.1 hfr.2.1]
        exact hccin
      have hbfm : (bf.cellAt cc rr).is_mine = false := by
        rw [cellAt_as_getD hfr.1, (hfr.2.2.2.2.2.2.2.2.2 _).1,
          ← Board.cellAt]
        exact hm0
      have hbfa : (bf.cellAt cc rr).adjacent = 0 := by
        rw [cellAt_as_getD hfr.1, (hfr.2.2.2.2.2.2.2.2.2 _).2.2.1,
          ← Board.cellAt]
        exact ha0
      have hbfn : (cc', rr') ∈ bf.neighbors cc rr := by
        rw [neighbors_congr hfr.1 hfr.2.1]
        exact hn0
      have hbfm' : (bf.cellAt cc' rr').is_mine = false := by
        rw [cellAt_as_getD hfr.1, (hfr.2.2.2.2.2.2.2.2.2 _).1,
          ← Board.cellAt]
        exact hm0'
      have := hclosed cc rr hbfin hrevcc hbfm hbfa (cc', rr') hbfn hbfm'
      rcases this with h' | h'
      · exact h'
      · simp at h'

/-! ### The claims -/

/-- A freshly constructed board satisfies the bookkeeping invariant. -/
theorem inv_new (cols rows mines : Nat) : (Board.new cols rows mines).Inv := by
  refine ⟨wf_new cols rows mines, ?_, ?_, ?_⟩
  · show (0 : Nat) = (Board.new cols rows mines).revealedNonMineCount
    rw [Board.revealedNonMineCount]
    refine (countP_zero_of_getD ?_).symm
    intro j hj
    have hj' : j < (List.replicate (cols * rows) (default : CellState)).length := hj
    show (((List.replicate (cols * rows) (default : CellState)).getD j default).is_revealed
      && !((List.replicate (cols * rows) (default : CellState)).getD j default).is_mine) = false
    rw [List.getD_eq_getElem _ _ hj', List.getElem_replicate]
    rfl
  · intro _
    constructor
    · rw [Board.countMines]
      refine countP_zero_of_getD ?_
      intro j hj
      have hj' : j < (List.replicate (cols * rows) (default : CellState)).length := hj
      show ((List.replicate (cols * rows) (default : CellState)).getD j default).is_mine = false
      rw [List.getD_eq_getElem _ _ hj', List.getElem_replicate]
      rfl
    · intro j hj
      have hj' : j < (List.replicate (cols * rows) (default : CellState)).length := hj
      show ((List.replicate (cols * rows) (default : CellState)).getD j default).is_revealed = false
      rw [List.getD_eq_getElem _ _ hj', List.getElem_replicate]
      rfl
  · intro h
    exact absurd h Bool.false_ne_true

/-- C1: mine placement is lazy and one-shot, and the first click is safe.
On a fresh (unplaced, mine-free) board, the `reveal` call that enters the
body sets the `mines_placed` latch; after `place_mines` with seed
`(sc, sr)`, every in-bounds cell of the forbidden set (the seed plus its
neighbors) carries no mine; and any board whose latch is already set
skips the placement step of `reveal` entirely, so `place_mines` never
runs twice on one board. -/
theorem C1_lazy_safe_one_shot_placement {b : Board} {sc sr : Int}
    {sh : List (Int × Int) → List (Int × Int)}
    (hWF : b.WF) (hsh : (sh (b.pool sc sr)).Perm (b.pool sc sr))
    (hunpl : b.mines_placed = false) (hnm : b.countMines = 0)
    (hin : b.is_inbounds sc sr = true) (hgo : b.game_over = false) :
    (b.reveal sc sr sh).mines_placed = true ∧
    (∀ p ∈ b.forbidden sc sr, b.is_inbounds p.1 p.2 = true →
      ((b.place_mines sc sr sh).cellAt p.1 p.2).is_mine = false) ∧
    (∀ (b' : Board) (c r : Int) (sh' : List (Int × Int) → List (Int × Int)),
      b'.mines_placed = true → b'.afterPlace c r sh' = b') := by
  refine ⟨?_, ?_, fun b' c r sh' h => afterPlace_placed h⟩
  · have hpl : (b.afterPlace sc sr sh).mines_placed = true :=
      (afterPlace_scalars b sc sr sh).2.2.2.1
    have hbpWF : (b.afterPlace sc sr sh).WF :=
      opFrameNF_wf (afterPlace_opFrameNF b sc sr sh) hWF
    rw [reveal_eq_body hin hgo]
    set bp := b.afterPlace sc sr sh with hbp
    by_cases hf : (bp.cellAt sc sr).is_flagged = true
    · rw [if_pos hf]
      exact hpl
    · rw [if_neg hf]
      by_cases hm : (bp.cellAt sc sr).is_mine = true
      · rw [if_pos hm]
        exact (minePath_opFrameNF bp sc sr).2.2.2.2.1 hpl
      · rw [if_neg hm]
        have h1 := floodFrame_opFrameNF (floodLoop_frame bp.floodFuel [(sc, sr)] hbpWF)
        have h2 := check_win_opFrameNF (bp.floodLoop bp.floodFuel [(sc, sr)])
        exact (opFrameNF_trans h1 h2).2.2.2.2.1 hpl
  · intro p hp hinp
    rw [place_mines_forbidden_mine hWF hsh p hp hinp]
    have hlt := index_lt hinp hWF
    have hall : ∀ a ∈ b.cells, ¬a.is_mine = true := List.countP_eq_zero.mp hnm
    have hmem : b.cellAt p.1 p.2 ∈ b.cells := by
      rw [Board.cellAt, List.getD_eq_getElem b.cells default hlt]
      exact List.getElem_mem hlt
    have h := hall _ hmem
    rcases hx : (b.cellAt p.1 p.2).is_mine with _ | _
    · rfl
    · exact absurd hx h

/-- Witness for C1 on a fresh 3×3 board with one mine, seed (0, 0). -/
theorem C1_lazy_safe_one_shot_placement_witness :
    ((Board.new 3 3 1).reveal 0 0 (fun l => l)).mines_placed = true ∧
    (∀ p ∈ (Board.new 3 3 1).forbidden 0 0,
      (Board.new 3 3 1).is_inbounds p.1 p.2 = true →
      (((Board.new 3 3 1).place_mines 0 0 (fun l => l)).cellAt p.1 p.2).is_mine
        = false) ∧
    (∀ (b' : Board) (c r : Int) (sh' : List (Int × Int) → List (Int × Int)),
      b'.mines_placed = true → b'.afterPlace c r sh' = b') :=
  C1_lazy_safe_one_shot_placement (wf_new 3 3 1) (List.Perm.refl _) rfl rfl rfl rfl

/-- C2 (corrected): each of `game_over` and `win` is monotone over any
sequence of operations, and a single `reveal` issued in a state where
both flags are false sets at most one of them; the original claim that
at most one is ever true over a whole board lifetime is refuted by the
counterexample, where a won board's mine is then revealed. -/
theorem C2_terminal_flags_monotone_single_call_exclusive {b : Board}
    (ops : List Op) (hWF : b.WF) :
    ((b.game_over = true → (b.runOps ops).game_over = true) ∧
     (b.win = true → (b.runOps ops).win = true)) ∧
    (∀ (c r : Int) (sh : List (Int × Int) → List (Int × Int)),
      b.game_over = false → b.win = false →
      (b.reveal c r sh).game_over = false ∨ (b.reveal c r sh).win = false) := by
  constructor
  · have h := runOps_opFrame ops hWF
    exact ⟨h.2.2.2.2.2.1, h.2.2.2.2.2.2.1⟩
  · intro c r sh hgo hbw
    rcases hin : b.is_inbounds c r with _ | _
    · rw [reveal_of_oob sh hin]
      exact Or.inr hbw
    · have hbpw : (b.afterPlace c r sh).win = b.win :=
        (afterPlace_scalars b c r sh).2.2.2.2.2.2.1
      have hbpgo : (b.afterPlace c r sh).game_over = b.game_over :=
        (afterPlace_scalars b c r sh).2.2.2.2.2.1
      have hbpWF : (b.afterPlace c r sh).WF :=
        opFrameNF_wf (afterPlace_opFrameNF b c r sh) hWF
      rw [reveal_eq_body hin hgo]
      set bp := b.afterPlace c r sh with hbp
      by_cases hf : (bp.cellAt c r).is_flagged = true
      · rw [if_pos hf]
        refine Or.inr ?_
        rw [hbpw]
        exact hbw
      · rw [if_neg hf]
        by_cases hm : (bp.cellAt c r).is_mine = true
        · rw [if_pos hm]
          refine Or.inr ?_
          have h1 := (reveal_all_mines_scalars
            ({ bp.setCell c r { bp.cellAt c r with is_revealed := true } with
               game_over := true })).2.2.2.2.2.2.1
          rw [h1]
          show (bp.setCell c r { bp.cellAt c r with is_revealed := true }).win = false
          rw [(setCell_scalars bp c r _).2.2.2.2.2.2, hbpw]
          exact hbw
        · rw [if_neg hm]
          refine Or.inl ?_
          have hfl := floodLoop_frame bp.floodFuel [(c, r)] hbpWF
          have h2 := (check_win_scalars (bp.floodLoop bp.floodFuel [(c, r)])).2.2.2.2.2.1
          rw [h2, hfl.2.2.2.2.1, hbpgo]
          exact hgo

/-- Witness for C2's amended property on a fresh 2×2 board. -/
theorem C2_terminal_flags_witness :
    (((Board.new 2 2 1).game_over = true →
        ((Board.new 2 2 1).runOps [Op.toggle_flag 0 0]).game_over = true) ∧
     ((Board.new 2 2 1).win = true →
        ((Board.new 2 2 1).runOps [Op.toggle_flag 0 0]).win = true)) ∧
    (∀ (c r : Int) (sh : List (Int × Int) → List (Int × Int)),
      (Board.new 2 2 1).game_over = false → (Board.new 2 2 1).win = false →
      ((Board.new 2 2 1).reveal c r sh).game_over = false ∨
        ((Board.new 2 2 1).reveal c r sh).win = false) :=
  C2_terminal_flags_monotone_single_call_exclusive [Op.toggle_flag 0 0] (wf_new 2 2 1)

/-- After winning a 3×3 one-mine game by revealing from (0, 0), a second
reveal at the mine (2, 0) leaves `win` true and sets `game_over`: both
terminal flags hold at once, refuting C2's mutual exclusion. -/
theorem C2_win_and_game_over_both_true :
    ((Board.new 3 3 1).runOps
        [Op.reveal 0 0 (fun l => l), Op.reveal 2 0 (fun l => l)]).win = true ∧
    ((Board.new 3 3 1).runOps
        [Op.reveal 0 0 (fun l => l), Op.reveal 2 0 (fun l => l)]).game_over = true :=
  ⟨rfl, rfl⟩

/-- C3 (corrected): on any board large enough to hold the requested mines
outside a full forbidden set (`num_mines + 9 ≤ cols * rows`) and with
genuine shuffles, every reachable state keeps `revealed_count` equal to
the number of revealed non-mine cells, and `revealed_count` never
decreases; without the size condition the completion pass of
`_check_win` can reveal cells it does not count (see the
counterexample). -/
theorem C3_revealed_count_invariant (cols rows mines : Nat) (ops : List Op)
    (hsize : mines + 9 ≤ cols * rows) (hlaw : ∀ op ∈ ops, op.lawful) :
    ((Board.new cols rows mines).runOps ops).revealed_count
      = ((Board.new cols rows mines).runOps ops).revealedNonMineCount ∧
    (∀ more : List Op,
      ((Board.new cols rows mines).runOps ops).revealed_count
        ≤ (((Board.new cols rows mines).runOps ops).runOps more).revealed_count) := by
  constructor
  · exact (runOps_inv hsize hlaw (inv_new cols rows mines)).2.1
  · intro more
    have hWF : ((Board.new cols rows mines).runOps ops).WF :=
      opFrame_wf (runOps_opFrame ops (wf_new cols rows mines)) (wf_new cols rows mines)
    exact (runOps_opFrame more hWF).2.2.2.2.2.2.2.2.1

/-- Witness for C3 on a 4×3 board with 3 mines and one reveal. -/
theorem C3_revealed_count_invariant_witness :
    ((Board.new 4 3 3).runOps [Op.reveal 0 0 (fun l => l)]).revealed_count
      = ((Board.new 4 3 3).runOps [Op.reveal 0 0 (fun l => l)]).revealedNonMineCount ∧
    (∀ more : List Op,
      ((Board.new 4 3 3).runOps [Op.reveal 0 0 (fun l => l)]).revealed_count
        ≤ (((Board.new 4 3 3).runOps
            [Op.reveal 0 0 (fun l => l)]).runOps more).revealed_count) :=
  C3_revealed_count_invariant 4 3 3 [Op.reveal 0 0 (fun l => l)] (by decide)
    (fun op hop => by
      rw [List.mem_singleton] at hop
      subst hop
      exact fun l => List.Perm.refl l)

/-- On a 3×3 board with 6 requested mines (only 5 fit outside the
forbidden set), flagging (1, 1) and revealing (0, 0) wins via the
completion pass, which reveals the flagged non-mine cell (1, 1) without
counting it: `revealed_count` is 3 while 4 non-mine cells are revealed,
refuting C3's invariant. -/
theorem C3_revealed_count_mismatch :
    ((Board.new 3 3 6).runOps
        [Op.toggle_flag 1 1, Op.reveal 0 0 (fun l => l)]).revealed_count = 3 ∧
    ((Board.new 3 3 6).runOps
        [Op.toggle_flag 1 1, Op.reveal 0 0 (fun l => l)]).revealedNonMineCount = 4 :=
  ⟨rfl, rfl⟩

/-- C4 (corrected): `reveal` is a strict no-op when the coordinate is out
of bounds, when the game is already over, or when the target cell is
flagged on a board whose mines are already placed; on an unplaced board
a reveal of a flagged cell still runs mine placement first (see the
counterexample), so the flagged case is a no-op only after placement. -/
theorem C4_reveal_noop_conditions {b : Board} {c r : Int}
    (sh : List (Int × Int) → List (Int × Int))
    (h : b.is_inbounds c r = false ∨ b.game_over = true ∨
        (b.mines_placed = true ∧ (b.cellAt c r).is_flagged = true)) :
    b.reveal c r sh = b := by
  rcases h with h | h | ⟨hpl, hfl⟩
  · exact reveal_of_oob sh h
  · exact reveal_of_game_over sh h
  · rcases hin : b.is_inbounds c r with _ | _
    · exact reveal_of_oob sh hin
    · rcases hgo : b.game_over with _ | _
      case false =>
        have hbp : b.afterPlace c r sh = b := afterPlace_placed hpl
        have hf : ((b.afterPlace c r sh).cellAt c r).is_flagged = true := by
          rw [hbp]
          exact hfl
        rw [reveal_of_flagged hin hgo hf, hbp]
      case true =>
        exact reveal_of_game_over sh hgo

/-- Witness for C4: an out-of-bounds reveal leaves the board unchanged. -/
theorem C4_reveal_noop_conditions_witness :
    (Board.new 2 2 1).reveal 5 0 (fun l => l) = Board.new 2 2 1 :=
  C4_reveal_noop_conditions (fun l => l) (Or.inl rfl)

/-- Revealing the flagged cell (0, 0) of a fresh 3×3 board is not a
no-op: the call first places the mines (the latch flips and mines
appear), refuting C4's claim that a flagged target always leaves the
entire board state unchanged. -/
theorem C4_flagged_reveal_not_noop :
    ((Board.new 3 3 1).toggle_flag 0 0).reveal 0 0 (fun l => l)
      ≠ (Board.new 3 3 1).toggle_flag 0 0 := by
  intro h
  have h1 : (((Board.new 3 3 1).toggle_flag 0 0).reveal 0 0
      (fun l => l)).mines_placed = ((Board.new 3 3 1).toggle_flag 0 0).mines_placed :=
    congrArg Board.mines_placed h
  exact absurd h1 (by decide)

/-- C5: in a `reveal` call that actually examines an unflagged non-mine
start cell of a not-yet-won, not-yet-lost board, `win` ends true exactly
when the final `revealed_count` equals `cols*rows − num_mines` (as
Python ints), `game_over` ends false, and whenever `win` was set every
cell of the board is revealed or a mine. -/
theorem C5_win_trigger_characterization {b : Board} {c r : Int}
    {sh : List (Int × Int) → List (Int × Int)} (hWF : b.WF)
    (hbw : b.win = false) (hin : b.is_inbounds c r = true)
    (hgo : b.game_over = false)
    (hf : ((b.afterPlace c r sh).cellAt c r).is_flagged = false)
    (hm : ((b.afterPlace c r sh).cellAt c r).is_mine = false) :
    (((b.reveal c r sh).win = true ↔
      ((b.reveal c r sh).revealed_count : Int)
        = (b.cols : Int) * (b.rows : Int) - (b.num_mines : Int)) ∧
     (b.reveal c r sh).game_over = false) ∧
    ((b.reveal c r sh).win = true →
      ∀ j, j < (b.reveal c r sh).cells.length →
        ((b.reveal c r sh).cells.getD j default).is_revealed = true ∨
        ((b.reveal c r sh).cells.getD j default).is_mine = true) := by
  obtain ⟨hwin, hgo'⟩ := reveal_win_sufficient c r sh hWF hin hgo hf hm
  rw [hbw] at hwin
  refine ⟨⟨?_, hgo'⟩, ?_⟩
  · rw [hwin]
    simp
  · intro hw
    exact reveal_win_all_shown c r sh hWF hw hbw

/-- Witness for C5 on a fresh 3×3 board with one mine, revealing the
safe seed (0, 0): the reveal wins the game. -/
theorem C5_win_trigger_witness :
    ((((Board.new 3 3 1).reveal 0 0 (fun l => l)).win = true ↔
      (((Board.new 3 3 1).reveal 0 0 (fun l => l)).revealed_count : Int)
        = ((Board.new 3 3 1).cols : Int) * ((Board.new 3 3 1).rows : Int)
          - ((Board.new 3 3 1).num_mines : Int)) ∧
     ((Board.new 3 3 1).reveal 0 0 (fun l => l)).game_over = false) ∧
    (((Board.new 3 3 1).reveal 0 0 (fun l => l)).win = true →
      ∀ j, j < ((Board.new 3 3 1).reveal 0 0 (fun l => l)).cells.length →
        (((Board.new 3 3 1).reveal 0 0
            (fun l => l)).cells.getD j default).is_revealed = true ∨
        (((Board.new 3 3 1).reveal 0 0
            (fun l => l)).cells.getD j default).is_mine = true) :=
  C5_win_trigger_characterization (wf_new 3 3 1) rfl rfl rfl rfl rfl

/-- C6: after `place_mines`, every in-bounds cell's `adjacent` is 0 if
the cell is a mine and otherwise the exact number of its in-bounds
8-neighborhood cells that are mines; the neighbor list is duplicate-free
with at most 8 entries (fewer at edges and corners); and no operation
run after placement ever changes any `adjacent` field. -/
theorem C6_adjacent_exact_and_frozen {b : Board} {sc sr : Int}
    {sh : List (Int × Int) → List (Int × Int)}
    (hWF : b.WF) (hsh : (sh (b.pool sc sr)).Perm (b.pool sc sr)) :
    (∀ c r : Int, b.is_inbounds c r = true →
      ((b.place_mines sc sr sh).cellAt c r).adjacent
        = (if ((b.place_mines sc sr sh).cellAt c r).is_mine then 0
           else (b.place_mines sc sr sh).mineNeighborCount c r)) ∧
    (∀ c r : Int, (b.neighbors c r).Nodup ∧ (b.neighbors c r).length ≤ 8) ∧
    (∀ (b' : Board) (ops : List Op), b'.WF → b'.mines_placed = true →
      ∀ j : Nat, ((b'.runOps ops).cells.getD j default).adjacent
        = (b'.cells.getD j default).adjacent) :=
  ⟨fun c r hin => place_mines_adjacent hWF hsh c r hin,
    fun c r => ⟨nodup_neighbors b c r, length_neighbors_le b c r⟩,
    fun b' ops hWF' hpl j => ((runOps_opFrame ops hWF').2.2.2.2.2.2.2.2.2.1 hpl j).2⟩

/-- Witness for C6 on a fresh 3×3 board with one mine, seed (0, 0). -/
theorem C6_adjacent_witness :
    (∀ c r : Int, (Board.new 3 3 1).is_inbounds c r = true →
      (((Board.new 3 3 1).place_mines 0 0 (fun l => l)).cellAt c r).adjacent
        = (if (((Board.new 3 3 1).place_mines 0 0 (fun l => l)).cellAt c r).is_mine
            then 0
            else ((Board.new 3 3 1).place_mines 0 0
              (fun l => l)).mineNeighborCount c r)) ∧
    (∀ c r : Int, ((Board.new 3 3 1).neighbors c r).Nodup ∧
      ((Board.new 3 3 1).neighbors c r).length ≤ 8) ∧
    (∀ (b' : Board) (ops : List Op), b'.WF → b'.mines_placed = true →
      ∀ j : Nat, ((b'.runOps ops).cells.getD j default).adjacent
        = (b'.cells.getD j default).adjacent) :=
  C6_adjacent_exact_and_frozen (wf_new 3 3 1) (List.Perm.refl _)

/-- C7 (corrected): on a flag-free board whose mines are fully placed and
where nothing is revealed yet, a `reveal` at an in-bounds non-mine seed
reveals exactly the maximal region generated by the seed through
zero-adjacency cells together with their bordering cells, and every cell
it reveals is a non-mine; in the presence of flags the original claim
fails, because the completion pass of `_check_win` reveals flagged cells
(see the counterexample). -/
theorem C7_flood_region_exact {b : Board} {sc sr : Int}
    {sh : List (Int × Int) → List (Int × Int)}
    (hWF : b.WF) (hpl : b.mines_placed = true) (hgo : b.game_over = false)
    (hflags : ∀ j, j < b.cells.length → (b.cells.getD j default).is_flagged = false)
    (hrev0 : ∀ j, j < b.cells.length → (b.cells.getD j default).is_revealed = false)
    (hrc : b.revealed_count = 0) (hcm : b.countMines = b.num_mines)
    (hsin : b.is_inbounds sc sr = true)
    (hsml : (b.cellAt sc sr).is_mine = false) :
    ∀ c r : Int, b.is_inbounds c r = true →
      ((((b.reveal sc sr sh).cellAt c r).is_revealed = true ↔ InRegion b sc sr c r) ∧
       (((b.reveal sc sr sh).cellAt c r).is_revealed = true →
         (b.cellAt c r).is_mine = false)) := by
  have hflags' : ∀ j : Nat, (b.cells.getD j default).is_flagged = false := by
    intro j
    rcases Nat.lt_or_ge j b.cells.length with hj | hj
    · exact hflags j hj
    · rw [getD_oob _ hj]
      rfl
  have hrev0' : ∀ j : Nat, (b.cells.getD j default).is_revealed = false := by
    intro j
    rcases Nat.lt_or_ge j b.cells.length with hj | hj
    · exact hrev0 j hj
    · rw [getD_oob _ hj]
      rfl
  have h := @reveal_region b sc sr sh hWF hpl hgo hflags' hrev0' hrc hcm hsin hsml
  intro c r hin
  refine ⟨h c r hin, fun hrv => ?_⟩
  exact inRegion_not_mine hsml ((h c r hin).mp hrv)

/-- Witness for C7 on the placed 3×3 board with one mine, seed (0, 0),
instantiated at the cell (2, 2). -/
theorem C7_flood_region_exact_witness :
    (((((Board.new 3 3 1).place_mines 0 0 (fun l => l)).reveal 0 0
          (fun l => l)).cellAt 2 2).is_revealed = true
        ↔ InRegion ((Board.new 3 3 1).place_mines 0 0 (fun l => l)) 0 0 2 2) ∧
    (((((Board.new 3 3 1).place_mines 0 0 (fun l => l)).reveal 0 0
          (fun l => l)).cellAt 2 2).is_revealed = true →
      (((Board.new 3 3 1).place_mines 0 0
          (fun l => l)).cellAt 2 2).is_mine = false) :=
  @C7_flood_region_exact ((Board.new 3 3 1).place_mines 0 0 (fun l => l)) 0 0
    (fun l => l) (by rfl) rfl rfl (by decide) (by decide) rfl rfl rfl rfl 2 2 rfl

/-- On the 3×3 board with 6 requested mines, flagging (1, 1) and then
revealing the unflagged in-bounds non-mine cell (0, 0) leaves (1, 1)
both flagged and revealed: the reveal call revealed a flagged cell,
refuting C7's "never reveals a flagged cell". -/
theorem C7_reveal_call_reveals_flagged_cell :
    ((((Board.new 3 3 6).runOps
        [Op.toggle_flag 1 1, Op.reveal 0 0 (fun l => l)]).cellAt 1 1).is_flagged
      = true) ∧
    ((((Board.new 3 3 6).runOps
        [Op.toggle_flag 1 1, Op.reveal 0 0 (fun l => l)]).cellAt 1 1).is_revealed
      = true) ∧
    ((((Board.new 3 3 6).runOps
        [Op.toggle_flag 1 1, Op.reveal 0 0 (fun l => l)]).cellAt 1 1).is_mine
      = false) :=
  ⟨rfl, rfl, rfl⟩

/-- C8: `auto_reveal` is a no-op out of bounds, on an unrevealed target,
on a zero-adjacency target, and when the flagged-neighbor count differs
from the target's number; when the count matches, it folds over the
neighbor list, delegating to `reveal` exactly on the neighbors that are
neither flagged nor already revealed at that moment (`Board.chordStep`),
so a misplaced flag can detonate a mine through this path. -/
theorem C8_auto_reveal_semantics {b : Board} {c r : Int}
    {sh : List (Int × Int) → List (Int × Int)} :
    (b.is_inbounds c r = false → b.auto_reveal c r sh = b) ∧
    (b.is_inbounds c r = true → (b.cellAt c r).is_revealed = false →
      b.auto_reveal c r sh = b) ∧
    (b.is_inbounds c r = true → (b.cellAt c r).adjacent = 0 →
      b.auto_reveal c r sh = b) ∧
    (b.is_inbounds c r = true → (b.cellAt c r).is_revealed = true →
      (b.cellAt c r).adjacent ≠ 0 → b.flagCount c r ≠ (b.cellAt c r).adjacent →
      b.auto_reveal c r sh = b) ∧
    (b.is_inbounds c r = true → (b.cellAt c r).is_revealed = true →
      (b.cellAt c r).adjacent ≠ 0 → b.flagCount c r = (b.cellAt c r).adjacent →
      b.auto_reveal c r sh = (b.neighbors c r).foldl (Board.chordStep sh) b) := by
  have hbeq : (b.cellAt c r).adjacent ≠ 0 → ((b.cellAt c r).adjacent == 0) = false := by
    intro ha
    rcases hx : (b.cellAt c r).adjacent with _ | n
    · exact absurd hx ha
    · rfl
  refine ⟨fun h => auto_reveal_of_oob sh h, ?_, ?_, ?_, ?_⟩
  · intro hin hrv
    refine auto_reveal_of_guard sh hin ?_
    rw [hrv]
    rfl
  · intro hin ha
    refine auto_reveal_of_guard sh hin ?_
    rw [ha]
    simp
  · intro hin hrv ha hne
    refine auto_reveal_of_count_ne sh hin ?_ hne
    rw [hrv, hbeq ha]
    rfl
  · intro hin hrv ha heq
    refine auto_reveal_of_fire sh hin ?_ heq
    rw [hrv, hbeq ha]
    rfl

/-- C9: when more mines are requested than cells exist outside the
forbidden set, `place_mines` still succeeds and marks exactly
`cols*rows − |forbidden|` cells as mines, fewer than requested; on a
1×1 board with 1 requested mine it places 0 mines. -/
theorem C9_degraded_placement {b : Board} {sc sr : Int}
    {sh : List (Int × Int) → List (Int × Int)}
    (hWF : b.WF) (hsh : ∀ l : List (Int × Int), (sh l).Perm l)
    (hnm : b.countMines = 0) (hin : b.is_inbounds sc sr = true)
    (hover : (b.pool sc sr).length < b.num_mines) :
    ((b.place_mines sc sr sh).countMines
        = b.cols * b.rows - (b.forbidden sc sr).length ∧
     (b.place_mines sc sr sh).countMines < b.num_mines) ∧
    ((Board.new 1 1 1).place_mines 0 0 sh).countMines = 0 := by
  have h1 := @place_mines_countMines b sc sr sh hWF (hsh _) hnm
  have h2 := length_pool_add (b := b) hin
  refine ⟨⟨?_, ?_⟩, ?_⟩
  · rw [h1, min_eq_right (le_of_lt hover)]
    omega
  · rw [h1, min_eq_right (le_of_lt hover)]
    exact hover
  · have h3 := @place_mines_countMines (Board.new 1 1 1) 0 0 sh (wf_new 1 1 1) (hsh _) (by rfl)
    rw [h3]
    rfl

/-- Witness for C9 on a 2×2 board with 4 requested mines and seed (0, 0),
whose forbidden set covers the whole grid. -/
theorem C9_degraded_placement_witness :
    ((((Board.new 2 2 4).place_mines 0 0 (fun l => l)).countMines
        = (Board.new 2 2 4).cols * (Board.new 2 2 4).rows
          - ((Board.new 2 2 4).forbidden 0 0).length ∧
      ((Board.new 2 2 4).place_mines 0 0 (fun l => l)).countMines
        < (Board.new 2 2 4).num_mines) ∧
     ((Board.new 1 1 1).place_mines 0 0 (fun l => l)).countMines = 0) :=
  C9_degraded_placement (wf_new 2 2 4) (fun l => List.Perm.refl l) rfl rfl (by decide)

/-- C10: `toggle_flag` changes nothing but the `is_flagged` bit of the
one targeted cell (all board scalars, every other cell, and every other
field of the target are untouched), and no other operation — `reveal`
(the win completion pass included), `auto_reveal`, `place_mines`, or
`get_safe_cell` — ever changes any cell's `is_flagged` field. -/
theorem C10_flag_frame {b : Board} (c r : Int) (hWF : b.WF) :
    ((b.toggle_flag c r).cols = b.cols ∧ (b.toggle_flag c r).rows = b.rows ∧
     (b.toggle_flag c r).num_mines = b.num_mines ∧
     (b.toggle_flag c r).mines_placed = b.mines_placed ∧
     (b.toggle_flag c r).revealed_count = b.revealed_count ∧
     (b.toggle_flag c r).game_over = b.game_over ∧
     (b.toggle_flag c r).win = b.win ∧
     (b.toggle_flag c r).cells.length = b.cells.length) ∧
    (∀ j : Nat,
      ((b.toggle_flag c r).cells.getD j default).is_mine
        = (b.cells.getD j default).is_mine ∧
      ((b.toggle_flag c r).cells.getD j default).is_revealed
        = (b.cells.getD j default).is_revealed ∧
      ((b.toggle_flag c r).cells.getD j default).adjacent
        = (b.cells.getD j default).adjacent) ∧
    (∀ j : Nat, j ≠ b.index c r →
      ((b.toggle_flag c r).cells.getD j default).is_flagged
        = (b.cells.getD j default).is_flagged) ∧
    (∀ (sh : List (Int × Int) → List (Int × Int)) (j : Nat),
      ((b.reveal c r sh).cells.getD j default).is_flagged
        = (b.cells.getD j default).is_flagged ∧
      ((b.auto_reveal c r sh).cells.getD j default).is_flagged
        = (b.cells.getD j default).is_flagged ∧
      ((b.place_mines c r sh).cells.getD j default).is_flagged
        = (b.cells.getD j default).is_flagged) ∧
    (∀ k : Nat, b.step (Op.get_safe_cell k) = b) :=
  ⟨toggle_scalars b c r,
    fun j => toggle_getD_other_fields b c r j,
    fun j hj => toggle_getD_flag_other b c r j hj,
    fun sh j => ⟨reveal_getD_flagged c r sh hWF j,
      auto_reveal_getD_flagged c r sh hWF j,
      place_mines_getD_flagged b c r sh j⟩,
    fun k => rfl⟩

/-- Witness for C10 on a fresh 2×2 board at (0, 0). -/
theorem C10_flag_frame_witness :
    (((Board.new 2 2 1).toggle_flag 0 0).cols = (Board.new 2 2 1).cols ∧
     ((Board.new 2 2 1).toggle_flag 0 0).rows = (Board.new 2 2 1).rows ∧
     ((Board.new 2 2 1).toggle_flag 0 0).num_mines = (Board.new 2 2 1).num_mines ∧
     ((Board.new 2 2 1).toggle_flag 0 0).mines_placed
        = (Board.new 2 2 1).mines_placed ∧
     ((Board.new 2 2 1).toggle_flag 0 0).revealed_count
        = (Board.new 2 2 1).revealed_count ∧
     ((Board.new 2 2 1).toggle_flag 0 0).game_over = (Board.new 2 2 1).game_over ∧
     ((Board.new 2 2 1).toggle_flag 0 0).win = (Board.new 2 2 1).win ∧
     ((Board.new 2 2 1).toggle_flag 0 0).cells.length
        = (Board.new 2 2 1).cells.length) ∧
    (∀ j : Nat,
      (((Board.new 2 2 1).toggle_flag 0 0).cells.getD j default).is_mine
        = ((Board.new 2 2 1).cells.getD j default).is_mine ∧
      (((Board.new 2 2 1).toggle_flag 0 0).cells.getD j default).is_revealed
        = ((Board.new 2 2 1).cells.getD j default).is_revealed ∧
      (((Board.new 2 2 1).toggle_flag 0 0).cells.getD j default).adjacent
        = ((Board.new 2 2 1).cells.getD j default).adjacent) ∧
    (∀ j : Nat, j ≠ (Board.new 2 2 1).index 0 0 →
      (((Board.new 2 2 1).toggle_flag 0 0).cells.getD j default).is_flagged
        = ((Board.new 2 2 1).cells.getD j default).is_flagged) ∧
    (∀ (sh : List (Int × Int) → List (Int × Int)) (j : Nat),
      (((Board.new 2 2 1).reveal 0 0 sh).cells.getD j default).is_flagged
        = ((Board.new 2 2 1).cells.getD j default).is_flagged ∧
      (((Board.new 2 2 1).auto_reveal 0 0 sh).cells.getD j default).is_flagged
        = ((Board.new 2 2 1).cells.getD j default).is_flagged ∧
      (((Board.new 2 2 1).place_mines 0 0 sh).cells.getD j default).is_flagged
        = ((Board.new 2 2 1).cells.getD j default).is_flagged) ∧
    (∀ k : Nat, (Board.new 2 2 1).step (Op.get_safe_cell k) = Board.new 2 2 1) :=
  C10_flag_frame 0 0 (wf_new 2 2 1)
